import Mathlib

/-!
WaykiChain block-production core: delegate shuffle, slot schedule, block assembly, verifier

A shallow embedding of `src/miner/miner.cpp`.  Vectors are lists, machine integers are
`Nat`/`Int` with explicit wrap-around where the C++ arithmetic is modular, and an access that
is undefined in C++ (index out of range, null dereference, division by zero) makes the
embedded function return `none`.
-/

namespace WaykiChain

/-! ## Data model -/

/-- Registration id of an account (`CRegID`): the height and the index of the registering
transaction. -/
structure CRegID where
  nHeight : Nat
  nIndex : Nat
deriving DecidableEq, Repr

/-- The fields of `CAccount` that the block-production core reads. -/
structure CAccount where
  regID : CRegID
  keyID : Nat
  pubKey : Nat
  minerPubKey : Nat
  receivedVotes : Nat
deriving DecidableEq, Repr

/-! ## Hash writer

`CHashWriter` is declared outside `miner.cpp`; the shuffle uses four of its operations.  They
are taken as a parameter, so that every statement below holds for every hash function. -/

/-- The operations of `CHashWriter` used by `ShuffleDelegates`, over a writer state `σ`.
`getHash` yields the digest and the writer state it leaves behind. -/
structure HashWriter (σ : Type) where
  /-- `CHashWriter ss(SER_GETHASH, 0)` -/
  init : σ
  /-- `ss << seedSource` for a string -/
  writeString : σ → String → σ
  /-- `ss << currendSeed` for a `uint256` -/
  writeSeed : σ → Nat → σ
  /-- `ss.GetHash()` -/
  getHash : σ → Nat × σ

/-- A `uint256` holds 256 bits: the digest is read modulo `2^256`. -/
def uint256 (n : Nat) : Nat := n % 2 ^ 256

/-- The 64-bit word that `memcpy(&currendTemp, currendSeed.begin() + (x * 8), 8)` copies out of
the seed (little-endian host). -/
def seedWord (currendSeed : Nat) (x : Nat) : Nat :=
  currendSeed / 2 ^ (64 * x) % 2 ^ 64

/-! ## ShuffleDelegates -/

/-- The number printed into `seedSource`:
`nCurHeight / TotalDelegateNum + (nCurHeight % TotalDelegateNum > 0 ? 1 : 0)`, with the
truncating `/` and `%` of C++ `int`. -/
def seedNumber (nCurHeight TotalDelegateNum : Int) : Int :=
  Int.tdiv nCurHeight TotalDelegateNum
    + (if Int.tmod nCurHeight TotalDelegateNum > 0 then 1 else 0)

/-- The text `strprintf("%lld", ...)` produces for the seed number. -/
def seedSource (nCurHeight TotalDelegateNum : Int) : String :=
  toString (seedNumber nCurHeight TotalDelegateNum)

/-- One pass of the inner loop body: the three statements
`accountTemp = v[newIndex]; v[newIndex] = v[i]; v[i] = accountTemp;`.
`none` when `i` or `newIndex` is not a position of the vector. -/
def swapDelegates (vDelegatesList : List CAccount) (i newIndex : Nat) :
    Option (List CAccount) :=
  match vDelegatesList[newIndex]?, vDelegatesList[i]? with
  | some accountTemp, some atI => some ((vDelegatesList.set newIndex atI).set i accountTemp)
  | _, _ => none

/-- The inner loop `for (int x = 0; x < 4 && i < delCount; i++, x++)`.  The first argument is
the number of values `x` has still to take before it reaches 4 (`4 - x`).  Returns the value
of `i` on exit and the vector. -/
def shuffleInner (delCount : Int) (currendSeed : Nat) :
    Nat → Nat → Nat → List CAccount → Option (Nat × List CAccount)
  | 0, _, i, v => some (i, v)
  | left + 1, x, i, v =>
    if (i : Int) < delCount then
      let currendTemp := seedWord currendSeed x
      let newIndex := currendTemp % delCount.toNat
      match swapDelegates v i newIndex with
      | some v1 => shuffleInner delCount currendSeed left (x + 1) (i + 1) v1
      | none => none
    else some (i, v)

/-- The outer loop `for (int i = 0, delCount = TotalDelegateNum; i < delCount; i++)`: the inner
loop, then `ss << currendSeed; currendSeed = ss.GetHash();`, then the outer `i++`.  The first
argument bounds the number of passes; `none` when it is used up or an access is out of range. -/
def shuffleOuter {σ : Type} (hw : HashWriter σ) (delCount : Int) :
    Nat → Nat → σ → Nat → List CAccount → Option (List CAccount)
  | 0, i, _, _, v => if (i : Int) < delCount then none else some v
  | fuel + 1, i, ss, currendSeed, v =>
    if (i : Int) < delCount then
      match shuffleInner delCount currendSeed 4 0 i v with
      | some (i1, v1) =>
        let ss1 := hw.writeSeed ss currendSeed
        let r := hw.getHash ss1
        shuffleOuter hw delCount fuel (i1 + 1) r.2 (uint256 r.1) v1
      | none => none
    else some v

/-- `ShuffleDelegates(nCurHeight, vDelegatesList)` with `TotalDelegateNum` the value of
`IniCfg().GetTotalDelegateNum()`.  `none` stands for undefined behaviour: division by a zero
delegate count or an access outside the vector. -/
def ShuffleDelegates {σ : Type} (hw : HashWriter σ) (TotalDelegateNum : Int)
    (nCurHeight : Int) (vDelegatesList : List CAccount) : Option (List CAccount) :=
  if TotalDelegateNum = 0 then none
  else
    let ss := hw.writeString hw.init (seedSource nCurHeight TotalDelegateNum)
    let r := hw.getHash ss
    shuffleOuter hw TotalDelegateNum TotalDelegateNum.toNat 0 r.2 (uint256 r.1) vDelegatesList

/-! ## GetCurrentDelegate -/

/-- `int64_t slot = currentTime / SysCfg().GetBlockInterval();` -/
def slotOf (blockInterval currentTime : Int) : Int :=
  Int.tdiv currentTime blockInterval

/-- `int miner = slot % IniCfg().GetTotalDelegateNum();` -/
def minerOf (TotalDelegateNum slot : Int) : Int :=
  Int.tmod slot TotalDelegateNum

/-- `GetCurrentDelegate(currentTime, vDelegatesAcctList, delegateAcct)`: the account copied
into `delegateAcct`.  The C++ function always returns `true`; `none` stands for undefined
behaviour (a zero divisor, or `miner` not a position of the vector). -/
def GetCurrentDelegate (blockInterval TotalDelegateNum : Int) (currentTime : Int)
    (vDelegatesAcctList : List CAccount) : Option CAccount :=
  if blockInterval = 0 ∨ TotalDelegateNum = 0 then none
  else
    let slot := slotOf blockInterval currentTime
    let miner := minerOf TotalDelegateNum slot
    if miner < 0 then none else vDelegatesAcctList[miner.toNat]?

/-! ## Machine integers and doubles

Unsigned arithmetic wraps modulo `2^w`.  A signed 64-bit accumulator that is fed unsigned
64-bit values (`int64_t += uint64_t`) is computed modulo `2^64` and read back as a signed
value.  Overflow of purely signed arithmetic is undefined in C++ and is not modelled: such
quantities are exact integers. -/

/-- Reading a value modulo `2^64` as an `int64_t` (two's complement). -/
def wrapInt64 (x : Int) : Int := (x + 2 ^ 63) % 2 ^ 64 - 2 ^ 63

/-- A finite IEEE-754 binary64 value `m * 2^e`.  Exponent overflow and subnormals are not
modelled; the values that occur are 64-bit integers times constants close to 1. -/
structure Double where
  m : Int
  e : Int
deriving DecidableEq, Repr

/-- Number of binary digits of `n`, computed with `fuel` halvings. -/
def bitLengthAux : Nat → Nat → Nat
  | 0, _ => 0
  | fuel + 1, n => if n = 0 then 0 else 1 + bitLengthAux fuel (n / 2)

/-- Number of binary digits of `n` (0 for 0). -/
def bitLength (n : Nat) : Nat := bitLengthAux n n

/-- Numerator and denominator of `num / den / 2^e`. -/
def scaleRatio (num den : Nat) (e : Int) : Nat × Nat :=
  if e ≥ 0 then (num, den * 2 ^ e.toNat) else (num * 2 ^ (-e).toNat, den)

/-- The binary64 value nearest to `num / den` (round to nearest, ties to even), as a mantissa
in `[2^52, 2^53]` and an exponent. -/
def roundNearestEven (num den : Nat) : Nat × Int :=
  if num = 0 ∨ den = 0 then (0, 0)
  else
    let e0 : Int := (bitLength num : Int) - (bitLength den : Int) - 52
    let s0 := scaleRatio num den e0
    let e : Int := if s0.1 / s0.2 < 2 ^ 52 then e0 - 1 else e0
    let s := scaleRatio num den e
    let q := s.1 / s.2
    let r := s.1 % s.2
    let m := if 2 * r < s.2 then q else if s.2 < 2 * r then q + 1
      else if q % 2 = 0 then q else q + 1
    (m, e)

/-- The double nearest to the rational `num / den`. -/
def Double.ofRatio (num : Int) (den : Nat) : Double :=
  let r := roundNearestEven num.natAbs den
  { m := if num < 0 then -(r.1 : Int) else (r.1 : Int), e := r.2 }

/-- Conversion of an integer to `double`. -/
def Double.ofInt (n : Int) : Double := Double.ofRatio n 1

/-- The product of two doubles: the exact product, rounded. -/
def Double.mul (a b : Double) : Double :=
  let m := a.m * b.m
  let e := a.e + b.e
  if e ≥ 0 then Double.ofRatio (m * 2 ^ e.toNat) 1 else Double.ofRatio m (2 ^ (-e).toNat)

/-- The comparison `a < b` of two doubles. -/
def Double.lt (a b : Double) : Bool :=
  let k := min a.e b.e
  decide (a.m * 2 ^ (a.e - k).toNat < b.m * 2 ^ (b.e - k).toNat)

/-- Conversion of a double to an integer type: truncation toward zero. -/
def Double.toInt (a : Double) : Int :=
  if a.e ≥ 0 then a.m * 2 ^ a.e.toNat else Int.tdiv a.m (2 ^ (-a.e).toNat)

/-- The literal `0.75`. -/
def double_0_75 : Double := Double.ofRatio 75 100
/-- The literal `0.85`. -/
def double_0_85 : Double := Double.ofRatio 85 100
/-- The literal `0.9`. -/
def double_0_9 : Double := Double.ofRatio 9 10
/-- The literal `1.1`. -/
def double_1_1 : Double := Double.ofRatio 11 10

/-! ## Chain constants and the block index -/

/-- Chain constants and configuration values that `miner.cpp` reads from headers and from
`SysCfg()` / `IniCfg()`; they are parameters of the model. -/
structure ChainParams where
  TotalDelegateNum : Int
  BlockInterval : Int
  BlockMaxNonce : Nat
  GenesisBlockHash : Nat
  MAX_BLOCK_SIZE : Int
  MAX_BLOCK_RUN_STEP : Nat
  INIT_FUEL_RATES : Int
  MIN_FUEL_RATES : Int
  MAX_BLOCK_SIGNATURE_SIZE : Nat
  nMinRelayTxFee : Int
  nTxVersion1 : Int

/-- The fields of `CBlockIndex` read by the miner.  A `CBlockIndex*` is modelled as the list
of index entries reached through `pprev`, the pointed-to entry first; `NULL` is `[]`. -/
structure CBlockIndex where
  nHeight : Int
  nFuel : Int
  nFuelRate : Int
  nTime : Int
  blockHash : Nat
deriving DecidableEq, Repr

/-! ## GetElementForBurn -/

/-- The loop `for (int ii = 0; ii < nBlock; ii++) { nTotalStep += pTemp->nFuel /
pTemp->nFuelRate * 100; pTemp = pTemp->pprev; }`.  The first argument is the number of
passes left.  `none` on a null `pTemp` or a zero `nFuelRate`. -/
def burnWalk : Nat → List CBlockIndex → Int → Option Int
  | 0, _, nTotalStep => some nTotalStep
  | _ + 1, [], _ => none
  | left + 1, pTemp :: pprev, nTotalStep =>
    if pTemp.nFuelRate = 0 then none
    else burnWalk left pprev (nTotalStep + Int.tdiv pTemp.nFuel pTemp.nFuelRate * 100)

/-- `GetElementForBurn(pIndex)` with `nBlock` the value of `-blocksizeforburn`.  `none` stands
for undefined behaviour (null dereference, division by zero). -/
def GetElementForBurn (p : ChainParams) (nBlock : Int) (pIndex : List CBlockIndex) :
    Option Int :=
  match pIndex with
  | [] => some p.INIT_FUEL_RATES
  | tip :: _ =>
    if nBlock * 2 ≥ tip.nHeight - 1 then some p.INIT_FUEL_RATES
    else
      match burnWalk nBlock.toNat pIndex 0 with
      | none => none
      | some nTotalStep =>
        if nBlock = 0 then none
        else
          let nAverateStep := Int.tdiv nTotalStep nBlock
          let maxStep := Double.ofInt (p.MAX_BLOCK_RUN_STEP : Int)
          let newFuelRate : Int :=
            if Double.lt (Double.ofInt nAverateStep) (Double.mul maxStep double_0_75) then
              Double.toInt (Double.mul (Double.ofInt tip.nFuelRate) double_0_9)
            else if Double.lt (Double.mul maxStep double_0_85) (Double.ofInt nAverateStep) then
              Double.toInt (Double.mul (Double.ofInt tip.nFuelRate) double_1_1)
            else tip.nFuelRate
          some (if newFuelRate < p.MIN_FUEL_RATES then p.MIN_FUEL_RATES else newFuelRate)

/-! ## Transactions, blocks and the execution engine -/

/-- The fields of `CBaseTx` (and of its subclass `CBlockRewardTx`) that the miner reads or
writes.  `nRunStep` and `nFuelRate` are working fields: `nFuelRate` is stored by the caller
before `ExecuteTx`, `nRunStep` is stored by `ExecuteTx`. -/
structure CBaseTx where
  nTxType : Nat
  nVersion : Int
  txUid : CRegID
  hash : Nat
  llFees : Nat
  nSerializeSize : Nat
  nRunStep : Nat
  nFuelRate : Int
  rewardValue : Int
  nHeight : Int
deriving DecidableEq, Repr

/-- `GetFee()`, a `uint64_t`. -/
def CBaseTx.GetFee (tx : CBaseTx) : Nat := tx.llFees % 2 ^ 64

/-- `GetSerializeSize(SER_NETWORK, PROTOCOL_VERSION)`, an `unsigned int`. -/
def CBaseTx.GetSerializeSize (tx : CBaseTx) : Nat := tx.nSerializeSize % 2 ^ 32

/-- The header fields and the body of `CBlock`; `vptx[0]` is the reward transaction. -/
structure CBlock where
  hashPrevBlock : Nat
  hashMerkleRoot : Nat
  nTime : Int
  nNonce : Nat
  nHeight : Int
  nFuel : Int
  nFuelRate : Int
  vSignature : List Nat
  vptx : List CBaseTx
deriving DecidableEq, Repr

/-- What a call of `ExecuteTx` leaves behind: its return value, the caches it was handed by
reference, and the `nRunStep` it stored in the transaction. -/
structure ExecResult (V S C : Type) where
  ok : Bool
  view : V
  scriptCache : S
  txCache : C
  nRunStep : Nat

/-- The collaborators of the miner that live outside `miner.cpp`, over an account view `V`,
a script database view `S` and a transaction cache `C`. -/
structure TxEngine (V S C : Type) where
  /-- `pBaseTx->ExecuteTx(index, view, state, txundo, height, txCache, scriptCache)` -/
  ExecuteTx : CBaseTx → Nat → V → Int → C → S → ExecResult V S C
  /-- `pBaseTx->GetFuel(nFuelRate)`, a `uint64_t` -/
  GetFuel : CBaseTx → Int → Nat
  /-- `txCache.HaveTx(hash)` -/
  HaveTx : C → Nat → Bool
  /-- `view.GetAccount(uid, account)` -/
  GetAccount : V → CRegID → Option CAccount

/-- `GetFuel` read as the `uint64_t` it is. -/
def fuelCharge {V S C : Type} (eng : TxEngine V S C) (tx : CBaseTx) (nFuelRate : Int) : Nat :=
  eng.GetFuel tx nFuelRate % 2 ^ 64

/-- An entry of `vTxPriority`: `(dPriority, dFeePerKb, tx)`. -/
structure TxPriority where
  dPriority : Double
  dFeePerKb : Double
  tx : CBaseTx
deriving DecidableEq, Repr

/-! ## CreateNewBlock -/

/-- The values of `-blockmaxsize`, `-blockprioritysize` and `-blockminsize` as `GetArg`
returns them (the configured value or the default). -/
structure MinerArgs where
  blockmaxsize : Int
  blockprioritysize : Int
  blockminsize : Int

/-- Conversion to `unsigned int`. -/
def toUInt32 (x : Int) : Nat := (x % 2 ^ 32).toNat

/-- `nBlockMaxSize` after
`max((unsigned int)1000, min((unsigned int)(MAX_BLOCK_SIZE - 1000), nBlockMaxSize))`. -/
def blockMaxSize (p : ChainParams) (args : MinerArgs) : Nat :=
  max 1000 (min (toUInt32 (p.MAX_BLOCK_SIZE - 1000)) (toUInt32 args.blockmaxsize))

/-- `nBlockPrioritySize` after `min(nBlockMaxSize, nBlockPrioritySize)`. -/
def blockPrioritySize (p : ChainParams) (args : MinerArgs) : Nat :=
  min (blockMaxSize p args) (toUInt32 args.blockprioritysize)

/-- `nBlockMinSize` after `min(nBlockMaxSize, nBlockMinSize)`. -/
def blockMinSize (p : ChainParams) (args : MinerArgs) : Nat :=
  min (blockMaxSize p args) (toUInt32 args.blockminsize)

/-- The local variables of the assembly loop, the caches it works on and the body of the
block under construction. -/
structure AssembleState (V S C : Type) where
  nFees : Int
  nBlockSize : Nat
  nBlockTx : Nat
  nTotalRunStep : Nat
  nTotalFuel : Int
  view : V
  scriptCache : S
  txCache : C
  vptx : List CBaseTx

/-- The two statements `pBaseTx->nFuelRate = nFuelRate;` and
`pBaseTx->ExecuteTx(index, view, state, txundo, nHeight, txCache, scriptCache)`: the
transaction object they leave (with the fuel rate and the run step stored in it) and what
the call left behind. -/
def runTx {V S C : Type} (eng : TxEngine V S C) (tx : CBaseTx) (nFuelRate : Int) (index : Nat)
    (view : V) (nHeight : Int) (txCache : C) (scriptCache : S) :
    CBaseTx × ExecResult V S C :=
  let tx1 := { tx with nFuelRate := nFuelRate }
  let r := eng.ExecuteTx tx1 index view nHeight txCache scriptCache
  ({ tx1 with nRunStep := r.nRunStep % 2 ^ 64 }, r)

/-- One pass of `while (!vTxPriority.empty())` for the entry taken off the heap.
`nBlockMaxSize`, `nBlockMinSize` are the clamped sizes, `nFuelRate` is
`pblock->GetFuelRate()` and `nHeight` is `pIndexPrev->nHeight + 1`.  The scratch copies
`viewTemp` and `scriptCacheTemp` are what `ExecuteTx` returns; they replace the originals
only on the path that reaches `Flush()`.  `txCache` is handed over by reference. -/
def assembleStep {V S C : Type} (p : ChainParams) (eng : TxEngine V S C)
    (nBlockMaxSize nBlockMinSize : Nat) (nFuelRate nHeight : Int)
    (st : AssembleState V S C) (entry : TxPriority) : AssembleState V S C :=
  let dFeePerKb := entry.dFeePerKb
  let nTxSize := entry.tx.GetSerializeSize
  if (st.nBlockSize + nTxSize) % 2 ^ 64 ≥ nBlockMaxSize then st
  else if Double.lt dFeePerKb (Double.ofInt p.nMinRelayTxFee)
      ∧ (st.nBlockSize + nTxSize) % 2 ^ 64 ≥ nBlockMinSize then st
  else
    let x := runTx eng entry.tx nFuelRate (st.nBlockTx + 1) st.view nHeight st.txCache
      st.scriptCache
    let stx := x.1
    let r := x.2
    if r.ok = false then { st with txCache := r.txCache }
    else if (st.nTotalRunStep + stx.nRunStep) % 2 ^ 64 ≥ p.MAX_BLOCK_RUN_STEP then
      { st with txCache := r.txCache }
    else
      { nFees := wrapInt64 (st.nFees + stx.GetFee)
        nBlockSize := (st.nBlockSize + stx.GetSerializeSize) % 2 ^ 64
        nBlockTx := st.nBlockTx + 1
        nTotalRunStep := (st.nTotalRunStep + stx.nRunStep) % 2 ^ 64
        nTotalFuel := wrapInt64 (st.nTotalFuel + fuelCharge eng stx nFuelRate)
        view := r.view
        scriptCache := r.scriptCache
        txCache := r.txCache
        vptx := st.vptx ++ [stx] }

/-- The default-constructed `CBlockRewardTx rewardTx` pushed as `vptx[0]`. -/
def emptyRewardTx (p : ChainParams) : CBaseTx :=
  { nTxType := 1, nVersion := p.nTxVersion1, txUid := ⟨0, 0⟩, hash := 0, llFees := 0,
    nSerializeSize := 0, nRunStep := 0, nFuelRate := 0, rewardValue := 0, nHeight := 0 }

/-- The state in which the assembly loop starts: `nBlockSize` is the serialized size of the
block that holds only the reward transaction (`initialBlockSize`, an `unsigned int`). -/
def assembleInit {V S C : Type} (p : ChainParams) (initialBlockSize : Nat) (view : V)
    (txCache : C) (scriptCache : S) : AssembleState V S C :=
  { nFees := 0, nBlockSize := initialBlockSize % 2 ^ 32, nBlockTx := 0, nTotalRunStep := 0,
    nTotalFuel := 0, view := view, scriptCache := scriptCache, txCache := txCache,
    vptx := [emptyRewardTx p] }

/-- The whole loop `while (!vTxPriority.empty())`: the state it ends in. -/
def assembleLoop {V S C : Type} (p : ChainParams) (eng : TxEngine V S C)
    (nBlockMaxSize nBlockMinSize : Nat) (nFuelRate nHeight : Int)
    (st : AssembleState V S C) (vTxPriority : List TxPriority) : AssembleState V S C :=
  List.foldl (assembleStep p eng nBlockMaxSize nBlockMinSize nFuelRate nHeight) st vTxPriority

/-- `CreateNewBlock(view, txCache, scriptCache)`: the block of the returned template.
`pIndexPrev` is `chainActive.Tip()`, `nBlock` the value of `-blocksizeforburn`,
`vTxPriority` the entries `GetPriorityTx` collected in the order `pop_heap` yields them,
`initialBlockSize` the serialized size of the block holding only the reward transaction and
`nTime` the time `UpdateTime` stores.  `none` when no block is returned: a failed `assert`
or undefined behaviour (null tip, undefined fuel rate). -/
def CreateNewBlock {V S C : Type} (p : ChainParams) (eng : TxEngine V S C) (args : MinerArgs)
    (nBlock : Int) (pIndexPrev : List CBlockIndex) (vTxPriority : List TxPriority)
    (initialBlockSize : Nat) (nTime : Int) (view : V) (txCache : C) (scriptCache : S) :
    Option CBlock :=
  match pIndexPrev with
  | [] => none
  | tip :: _ =>
    match GetElementForBurn p nBlock pIndexPrev with
    | none => none
    | some nFuelRate =>
      let st := assembleLoop p eng (blockMaxSize p args) (blockMinSize p args) nFuelRate
        (tip.nHeight + 1) (assembleInit p initialBlockSize view txCache scriptCache) vTxPriority
      if st.nFees ≥ st.nTotalFuel then
        match st.vptx with
        | [] => none
        | rewardTx :: rest =>
          some
            { hashPrevBlock := tip.blockHash
              hashMerkleRoot := 0
              nTime := nTime
              nNonce := 0
              nHeight := tip.nHeight + 1
              nFuel := st.nTotalFuel
              nFuelRate := nFuelRate
              vSignature := []
              vptx := { rewardTx with rewardValue := st.nFees - st.nTotalFuel } :: rest }
      else none

/-! ## VerifyPosTx -/

/-- The outcome of `VerifyPosTx`: `accepted` for `return true`, and one constructor for each
place where the function returns `false`. -/
inductive Verdict
  /-- `return true` -/
  | accepted
  /-- `GetDelegatesAcctList` failed -/
  | delegatesUnavailable
  /-- "Nonce is larger than maxNonce" -/
  | nonceTooLarge
  /-- "wrong merkleRootHash" -/
  | wrongMerkleRoot
  /-- "read block info fail from disk" -/
  | readPrevBlockFailed
  /-- "get preblock delegate account info error" -/
  | prevDelegateMissing
  /-- "one delegate can't produce more than one block at the same slot" -/
  | sameSlotDelegate
  /-- "Verify delegate account error" -/
  | delegateMismatch
  /-- "Signature size of block invalid" -/
  | badSignatureSize
  /-- "Verify miner publickey signature error" -/
  | badSignature
  /-- "AccountView has no accountId" -/
  | noRewardAccount
  /-- "Verify tx version error" -/
  | wrongTxVersion
  /-- "VerifyPosTx duplicate tx hash" -/
  | duplicateTx
  /-- "transaction UpdateAccount account error" -/
  | executeFailed
  /-- "block total run steps exceed max run step" -/
  | runStepExceeded
  /-- "fuel value at block header calculate error" -/
  | fuelMismatch
deriving DecidableEq, Repr

/-- The Boolean that `VerifyPosTx` returns. -/
def Verdict.toBool : Verdict → Bool
  | Verdict.accepted => true
  | _ => false

/-- The collaborators of the verifier that live outside `miner.cpp`. -/
structure VerifierEnv (V S : Type) where
  /-- `GetDelegatesAcctList(vDelegatesAcctList, accView, scriptCache)`: the list it fills,
  `none` when it returns `false` -/
  GetDelegatesAcctList : V → S → Option (List CAccount)
  /-- `pBlock->BuildMerkleTree()` -/
  BuildMerkleTree : CBlock → Nat
  /-- `ReadBlockFromDisk(mapBlockIndex[hash], preBlock)` -/
  ReadBlockFromDisk : Nat → Option CBlock
  /-- `pBlock->ComputeSignatureHash()` -/
  ComputeSignatureHash : CBlock → Nat
  /-- `VerifySignature(hash, signature, pubKey)` -/
  VerifySignature : Nat → List Nat → Nat → Bool

/-- The loop `for (unsigned int i = 1; i < pBlock->vptx.size(); i++)` of the `bNeedRunTx`
branch, started at index `i` on the transactions from that index on, followed by the final
comparison of `nTotalFuel` with `pBlock->GetFuel()`. -/
def verifyTxLoop {V S C : Type} (p : ChainParams) (eng : TxEngine V S C) (pBlock : CBlock) :
    List CBaseTx → Nat → V → C → S → Int → Nat → Verdict
  | [], _, _, _, _, nTotalFuel, _ =>
    if nTotalFuel ≠ pBlock.nFuel then Verdict.fuelMismatch else Verdict.accepted
  | tx :: rest, i, view, txCache, scriptDBView, nTotalFuel, nTotalRunStep =>
    if eng.HaveTx txCache tx.hash then Verdict.duplicateTx
    else
      let x := runTx eng tx pBlock.nFuelRate i view pBlock.nHeight txCache scriptDBView
      let pBaseTx := x.1
      let r := x.2
      if r.ok = false then Verdict.executeFailed
      else
        let nTotalRunStep1 := (nTotalRunStep + pBaseTx.nRunStep) % 2 ^ 64
        if nTotalRunStep1 > p.MAX_BLOCK_RUN_STEP then Verdict.runStepExceeded
        else
          verifyTxLoop p eng pBlock rest (i + 1) r.view r.txCache r.scriptCache
            (wrapInt64 (nTotalFuel + fuelCharge eng pBaseTx pBlock.nFuelRate)) nTotalRunStep1

/-- `VerifyPosTx(pBlock, accView, txCache, scriptCache, bNeedRunTx)`.  The delegate list is
handed to `shuffle` (`ShuffleDelegates` for the block height) and to `GetCurrentDelegate`.
`none` stands for undefined behaviour: a delegate index outside the list, or an empty `vptx`
in the block or in its predecessor. -/
def VerifyPosTx {V S C σ : Type} (p : ChainParams) (hw : HashWriter σ) (eng : TxEngine V S C)
    (env : VerifierEnv V S) (pBlock : CBlock) (accView : V) (txCache : C) (scriptCache : S)
    (bNeedRunTx : Bool) : Option Verdict :=
  match env.GetDelegatesAcctList accView scriptCache with
  | none => some Verdict.delegatesUnavailable
  | some vLoaded =>
    match ShuffleDelegates hw p.TotalDelegateNum pBlock.nHeight vLoaded with
    | none => none
    | some vDelegatesAcctList =>
      match GetCurrentDelegate p.BlockInterval p.TotalDelegateNum pBlock.nTime
          vDelegatesAcctList with
      | none => none
      | some curDelegate =>
        if pBlock.nNonce > p.BlockMaxNonce then some Verdict.nonceTooLarge
        else if pBlock.hashMerkleRoot ≠ env.BuildMerkleTree pBlock then
          some Verdict.wrongMerkleRoot
        else
          let slotCheck : Option Verdict :=
            if pBlock.hashPrevBlock ≠ p.GenesisBlockHash then
              match env.ReadBlockFromDisk pBlock.hashPrevBlock with
              | none => some Verdict.readPrevBlockFailed
              | some preBlock =>
                match preBlock.vptx with
                | [] => none
                | preBlockRewardTx :: _ =>
                  match eng.GetAccount accView preBlockRewardTx.txUid with
                  | none => some Verdict.prevDelegateMissing
                  | some preDelegate =>
                    if pBlock.nTime - preBlock.nTime < p.BlockInterval
                        ∧ preDelegate.regID = curDelegate.regID then
                      some Verdict.sameSlotDelegate
                    else some Verdict.accepted
            else some Verdict.accepted
          match slotCheck with
          | none => none
          | some Verdict.accepted =>
            match pBlock.vptx with
            | [] => none
            | prtx :: body =>
              match eng.GetAccount accView prtx.txUid with
              | none => some Verdict.noRewardAccount
              | some account =>
                if curDelegate.regID ≠ account.regID then some Verdict.delegateMismatch
                else if pBlock.vSignature.length = 0
                    ∨ pBlock.vSignature.length > p.MAX_BLOCK_SIGNATURE_SIZE then
                  some Verdict.badSignatureSize
                else if env.VerifySignature (env.ComputeSignatureHash pBlock)
                      pBlock.vSignature account.pubKey = false
                    ∧ env.VerifySignature (env.ComputeSignatureHash pBlock)
                      pBlock.vSignature account.minerPubKey = false then
                  some Verdict.badSignature
                else if prtx.nVersion ≠ p.nTxVersion1 then some Verdict.wrongTxVersion
                else if bNeedRunTx then
                  some (verifyTxLoop p eng pBlock body 1 accView txCache scriptCache 0 0)
                else some Verdict.accepted
          | some reject => some reject

/-! ## Quantities the statements speak about -/

/-- The mathematical sum of the fees of a list of transactions. -/
def feeSum (l : List CBaseTx) : Nat := (l.map CBaseTx.GetFee).sum

/-- The mathematical sum of the run steps recorded in a list of transactions. -/
def runStepSum (l : List CBaseTx) : Nat := (l.map (fun tx => tx.nRunStep)).sum

/-- The mathematical sum of the fuel charges of a list of transactions at a fuel rate. -/
def fuelSum {V S C : Type} (eng : TxEngine V S C) (nFuelRate : Int) (l : List CBaseTx) : Nat :=
  (l.map (fun tx => fuelCharge eng tx nFuelRate)).sum

/-- The `rewardValue` of the reward transaction at body position 0. -/
def CBlock.rewardValue (b : CBlock) : Option Int := b.vptx.head?.map (fun tx => tx.rewardValue)

/-- The transactions at body positions `1..n`. -/
def CBlock.body (b : CBlock) : List CBaseTx := b.vptx.tail

/-- What the assembly loop maintains about its accumulators, for the list `body` of the
transactions included so far: the 64-bit accumulators hold the sums modulo `2^64`, every
running total of run steps was below the ceiling when its transaction was included, and every
included transaction carries the block's fuel rate. -/
def AssembleInv {V S C : Type} (p : ChainParams) (eng : TxEngine V S C) (nFuelRate : Int)
    (st : AssembleState V S C) (body : List CBaseTx) : Prop :=
  st.vptx = emptyRewardTx p :: body ∧
  st.nFees = wrapInt64 (feeSum body) ∧
  st.nTotalFuel = wrapInt64 (fuelSum eng nFuelRate body) ∧
  st.nTotalRunStep = runStepSum body % 2 ^ 64 ∧
  (∀ k, 1 ≤ k → k ≤ body.length → runStepSum (body.take k) % 2 ^ 64 < p.MAX_BLOCK_RUN_STEP) ∧
  (∀ tx ∈ body, tx.nFuelRate = nFuelRate ∧ tx.nRunStep < 2 ^ 64)

/-! ## Sample data for concrete evaluation -/

/-- A writer that folds what it is fed into a number; only used to run the definitions on
concrete inputs. -/
def toyHashWriter : HashWriter Nat where
  init := 7
  writeString := fun s t => s * 31 + (t.toList.map Char.toNat).sum + 1
  writeSeed := fun s h => s * 131 + h % 1000 + 5
  getHash := fun s => (s ^ 7 * 2654435761 ^ 5 + 12345678901234567890123, s + 1)

/-- Sample account with registration index `k`. -/
def sampleAccount (k : Nat) : CAccount :=
  { regID := ⟨1, k⟩, keyID := 100 + k, pubKey := 200 + k, minerPubKey := 0,
    receivedVotes := 1000 - k }

/-- Constants of a small test chain: 3 delegates, 10-second slots. -/
def sampleParams : ChainParams :=
  { TotalDelegateNum := 3, BlockInterval := 10, BlockMaxNonce := 1000, GenesisBlockHash := 0,
    MAX_BLOCK_SIZE := 4000000, MAX_BLOCK_RUN_STEP := 12000000, INIT_FUEL_RATES := 100,
    MIN_FUEL_RATES := 1, MAX_BLOCK_SIGNATURE_SIZE := 100, nMinRelayTxFee := 1000,
    nTxVersion1 := 1 }

/-- Miner options of the test chain. -/
def sampleArgs : MinerArgs :=
  { blockmaxsize := 750000, blockprioritysize := 27000, blockminsize := 2000 }

/-- An engine over trivial caches: a transaction succeeds unless its type is 0, reports the
run step it carries, is charged `run_step * fuel_rate / 100`, and is never in the cache; the
accounts `sampleAccount 0..2` exist. -/
def sampleEngine : TxEngine Unit Unit Unit where
  ExecuteTx := fun tx _ v _ c s =>
    { ok := decide (tx.nTxType ≠ 0), view := v, scriptCache := s, txCache := c,
      nRunStep := tx.nRunStep }
  GetFuel := fun tx rate => tx.nRunStep * rate.toNat / 100
  HaveTx := fun _ _ => false
  GetAccount := fun _ uid =>
    if uid.nHeight = 1 ∧ uid.nIndex < 3 then some (sampleAccount uid.nIndex) else none

/-- A user transaction of 200 bytes with the given fee and run step. -/
def sampleTx (k fee step : Nat) : CBaseTx :=
  { nTxType := 3, nVersion := 1, txUid := ⟨1, k⟩, hash := 500 + k, llFees := fee,
    nSerializeSize := 200, nRunStep := step, nFuelRate := 0, rewardValue := 0, nHeight := 0 }

/-- The heap entry of a transaction with the given fee per kilobyte. -/
def sampleEntry (feePerKb : Int) (tx : CBaseTx) : TxPriority :=
  { dPriority := Double.ofInt 5, dFeePerKb := Double.ofInt feePerKb, tx := tx }

/-- The tip of the test chain: height 9, time 100. -/
def sampleTip : List CBlockIndex :=
  [{ nHeight := 9, nFuel := 0, nFuelRate := 100, nTime := 100, blockHash := 909 }]

/-- The two paying transactions of the happy-path scenario: fee 100, 30 run steps each (a
fuel charge of 30 at fuel rate 100). -/
def payingEntries : List TxPriority :=
  [sampleEntry 350 (sampleTx 1 100 30), sampleEntry 350 (sampleTx 2 100 30)]

/-- The block `CreateNewBlock` assembles from `payingEntries` on `sampleTip`. -/
def payingBlock : CBlock :=
  { hashPrevBlock := 909, hashMerkleRoot := 0, nTime := 110, nNonce := 0, nHeight := 10,
    nFuel := 60, nFuelRate := 100, vSignature := [],
    vptx := [{ emptyRewardTx sampleParams with rewardValue := 140 },
      { sampleTx 1 100 30 with nFuelRate := 100 }, { sampleTx 2 100 30 with nFuelRate := 100 }] }

/-- Four transactions whose fees are `2^62` each, with no run steps and no fuel charge. -/
def hugeFeeEntries : List TxPriority :=
  [sampleEntry (2 ^ 62) (sampleTx 1 (2 ^ 62) 0), sampleEntry (2 ^ 62) (sampleTx 2 (2 ^ 62) 0),
    sampleEntry (2 ^ 62) (sampleTx 3 (2 ^ 62) 0), sampleEntry (2 ^ 62) (sampleTx 4 (2 ^ 62) 0)]

/-- The block `CreateNewBlock` assembles from `hugeFeeEntries` on `sampleTip`. -/
def hugeFeeBlock : CBlock :=
  { hashPrevBlock := 909, hashMerkleRoot := 0, nTime := 110, nNonce := 0, nHeight := 10,
    nFuel := 0, nFuelRate := 100, vSignature := [],
    vptx := [emptyRewardTx sampleParams,
      { sampleTx 1 (2 ^ 62) 0 with nFuelRate := 100 },
      { sampleTx 2 (2 ^ 62) 0 with nFuelRate := 100 },
      { sampleTx 3 (2 ^ 62) 0 with nFuelRate := 100 },
      { sampleTx 4 (2 ^ 62) 0 with nFuelRate := 100 }] }

/-- A verifier environment for the test chain: the three sample delegates, a Merkle root that
is the sum of the transaction hashes, a signature that is valid when it is the one-element
list `[hash + public key]`, and two stored blocks produced by `producer` at time 105, one
under hash 909 and one under the genesis hash 0. -/
def sampleVerifierEnv (producer : CRegID) : VerifierEnv Unit Unit where
  GetDelegatesAcctList := fun _ _ => some [sampleAccount 0, sampleAccount 1, sampleAccount 2]
  BuildMerkleTree := fun b => (b.vptx.map (fun tx => tx.hash)).sum
  ReadBlockFromDisk := fun h =>
    if h = 909 ∨ h = 0 then
      some { hashPrevBlock := 0, hashMerkleRoot := 0, nTime := 105, nNonce := 0, nHeight := 9,
             nFuel := 0, nFuelRate := 100, vSignature := [],
             vptx := [{ emptyRewardTx sampleParams with txUid := producer }] }
    else none
  ComputeSignatureHash := fun b => b.nHeight.toNat * 1000 + b.nNonce
  VerifySignature := fun h sig pubKey => decide (sig = [h + pubKey])

/-- A signed block at time 112 on top of the block with hash `prev`, at height `height`, whose
reward transaction names `producer` and whose signature is made with public key `pubKey`. -/
def signedBlock (prev : Nat) (height : Int) (producer : CRegID) (pubKey : Nat) : CBlock :=
  { hashPrevBlock := prev, hashMerkleRoot := 0, nTime := 112, nNonce := 5, nHeight := height,
    nFuel := 0, nFuelRate := 100, vSignature := [height.toNat * 1000 + 5 + pubKey],
    vptx := [{ emptyRewardTx sampleParams with txUid := producer }] }

/-- What the verifier's transaction pass meets at one body position: whether the transaction
was already in `txCache` when the loop reached it, the transaction object after `ExecuteTx`
(with the run step stored in it), and the value `ExecuteTx` returned. -/
structure TxCheck where
  inCache : Bool
  tx : CBaseTx
  ok : Bool
deriving DecidableEq, Repr

/-- The body transactions executed in body order on the verifier's caches, from index `i` on,
without any of the checks: one `TxCheck` per transaction. -/
def replayBody {V S C : Type} (eng : TxEngine V S C) (pBlock : CBlock) :
    List CBaseTx → Nat → V → C → S → List TxCheck
  | [], _, _, _, _ => []
  | tx :: rest, i, view, txCache, scriptDBView =>
    let x := runTx eng tx pBlock.nFuelRate i view pBlock.nHeight txCache scriptDBView
    { inCache := eng.HaveTx txCache tx.hash, tx := x.1, ok := x.2.ok }
      :: replayBody eng pBlock rest (i + 1) x.2.view x.2.txCache x.2.scriptCache

/-- The executed transaction objects of a replay. -/
def executedTxs (checks : List TxCheck) : List CBaseTx := checks.map (fun x => x.tx)

/-- A signed block on top of block 909 with `nFuel = 0` that carries two user transactions,
one of 1 run step and one of `2^64 - 1` run steps. -/
def wrappedStepBlock : CBlock :=
  { signedBlock 909 10 ⟨1, 0⟩ 200 with
    hashMerkleRoot := 1003
    vptx := [{ emptyRewardTx sampleParams with txUid := ⟨1, 0⟩ }, sampleTx 1 100 1,
      sampleTx 2 100 (2 ^ 64 - 1)] }

/-- A signed block on top of block 909 that carries the two paying transactions as executed
(30 run steps each at fuel rate 100) and `nFuel = 60`. -/
def signedPayingBlock : CBlock :=
  { signedBlock 909 10 ⟨1, 0⟩ 200 with
    hashMerkleRoot := 1003
    nFuel := 60
    vptx := [{ emptyRewardTx sampleParams with txUid := ⟨1, 0⟩ },
      { sampleTx 1 100 30 with nFuelRate := 100 }, { sampleTx 2 100 30 with nFuelRate := 100 }] }

/-! ## Quantities of the fuel-rate controller -/

/-- The value `newFuelRate` has before the clamp, for a window average `nAverateStep` and the
tip's `nFuelRate`: the three-way choice of `GetElementForBurn` in `double` arithmetic. -/
def newFuelRateOf (p : ChainParams) (nAverateStep nFuelRate : Int) : Int :=
  if Double.lt (Double.ofInt nAverateStep)
      (Double.mul (Double.ofInt (p.MAX_BLOCK_RUN_STEP : Int)) double_0_75) then
    Double.toInt (Double.mul (Double.ofInt nFuelRate) double_0_9)
  else if Double.lt (Double.mul (Double.ofInt (p.MAX_BLOCK_RUN_STEP : Int)) double_0_85)
      (Double.ofInt nAverateStep) then
    Double.toInt (Double.mul (Double.ofInt nFuelRate) double_1_1)
  else nFuelRate

/-- The clamp `if (newFuelRate < MIN_FUEL_RATES) newFuelRate = MIN_FUEL_RATES;`. -/
def clampFuelRate (p : ChainParams) (newFuelRate : Int) : Int :=
  if newFuelRate < p.MIN_FUEL_RATES then p.MIN_FUEL_RATES else newFuelRate

/-- A chain index of six entries, tip at height 5, in which the tip carries the given fuel and
fuel rate and the ancestors carry no fuel at rate 100. -/
def sampleChain (nFuel nFuelRate : Int) : List CBlockIndex :=
  [{ nHeight := 5, nFuel := nFuel, nFuelRate := nFuelRate, nTime := 150, blockHash := 905 },
   { nHeight := 4, nFuel := 0, nFuelRate := 100, nTime := 140, blockHash := 904 },
   { nHeight := 3, nFuel := 0, nFuelRate := 100, nTime := 130, blockHash := 903 },
   { nHeight := 2, nFuel := 0, nFuelRate := 100, nTime := 120, blockHash := 902 },
   { nHeight := 1, nFuel := 0, nFuelRate := 100, nTime := 110, blockHash := 901 },
   { nHeight := 0, nFuel := 0, nFuelRate := 100, nTime := 100, blockHash := 0 }]

/-! ## The fee floor of the assembly loop -/

/-- The condition of `if ((dFeePerKb < CBaseTx::nMinRelayTxFee) && (nBlockSize + nTxSize >=
nBlockMinSize)) continue;`. -/
def feeFloorSkips {V S C : Type} (p : ChainParams) (nBlockMinSize : Nat)
    (st : AssembleState V S C) (entry : TxPriority) : Prop :=
  Double.lt entry.dFeePerKb (Double.ofInt p.nMinRelayTxFee) = true ∧
    (st.nBlockSize + entry.tx.GetSerializeSize) % 2 ^ 64 ≥ nBlockMinSize

instance feeFloorSkips_decidable {V S C : Type} (p : ChainParams) (nBlockMinSize : Nat)
    (st : AssembleState V S C) (entry : TxPriority) :
    Decidable (feeFloorSkips p nBlockMinSize st entry) := by
  unfold feeFloorSkips
  exact inferInstance

/-- The part of a loop pass that follows the two size checks: execution on the scratch caches,
the run-step check and the commit. -/
def executeAndCommit {V S C : Type} (p : ChainParams) (eng : TxEngine V S C)
    (nFuelRate nHeight : Int) (st : AssembleState V S C) (entry : TxPriority) :
    AssembleState V S C :=
  let x := runTx eng entry.tx nFuelRate (st.nBlockTx + 1) st.view nHeight st.txCache
    st.scriptCache
  let stx := x.1
  let r := x.2
  if r.ok = false then { st with txCache := r.txCache }
  else if (st.nTotalRunStep + stx.nRunStep) % 2 ^ 64 ≥ p.MAX_BLOCK_RUN_STEP then
    { st with txCache := r.txCache }
  else
    { nFees := wrapInt64 (st.nFees + stx.GetFee)
      nBlockSize := (st.nBlockSize + stx.GetSerializeSize) % 2 ^ 64
      nBlockTx := st.nBlockTx + 1
      nTotalRunStep := (st.nTotalRunStep + stx.nRunStep) % 2 ^ 64
      nTotalFuel := wrapInt64 (st.nTotalFuel + fuelCharge eng stx nFuelRate)
      view := r.view
      scriptCache := r.scriptCache
      txCache := r.txCache
      vptx := st.vptx ++ [stx] }

/-- A loop state of the test chain with the given `nBlockSize` and nothing included yet. -/
def sampleState (nBlockSize : Nat) : AssembleState Unit Unit Unit :=
  { assembleInit sampleParams 0 () () () with nBlockSize := nBlockSize }

/-- A free transaction (fee per kilobyte 0) of the given serialized size. -/
def freeEntry (size : Nat) : TxPriority :=
  sampleEntry 0 { sampleTx 7 0 0 with nSerializeSize := size }

/-! ## GetPriorityTx -/

/-- The quotient of two doubles: the exact quotient, rounded.  The divisor is not zero. -/
def Double.div (a b : Double) : Double :=
  let sign : Int := if decide (a.m < 0) = decide (b.m < 0) then 1 else -1
  let e := a.e - b.e
  if e ≥ 0 then Double.ofRatio (sign * (a.m.natAbs : Int) * 2 ^ e.toNat) b.m.natAbs
  else Double.ofRatio (sign * (a.m.natAbs : Int)) (b.m.natAbs * 2 ^ (-e).toNat)

/-- `GetPriorityTx(vecPriority, nFuelRate)`: one entry for every transaction of the memory
pool (listed in the order of the map) that is not a coinbase and is not in `pTxCacheTip`.
`IsCoinBase` is declared outside `miner.cpp`.  `none` when a collected transaction has
serialized size 0: the quotients are then not finite, which the model of `double` does not
cover. -/
def GetPriorityTx {V S C : Type} (eng : TxEngine V S C) (IsCoinBase : CBaseTx → Bool)
    (pTxCacheTip : C) : List CBaseTx → Int → Option (List TxPriority)
  | [], _ => some []
  | pBaseTx :: rest, nFuelRate =>
    match GetPriorityTx eng IsCoinBase pTxCacheTip rest nFuelRate with
    | none => none
    | some vecPriority =>
      if IsCoinBase pBaseTx = false ∧ eng.HaveTx pTxCacheTip pBaseTx.hash = false then
        let nTxSize := pBaseTx.GetSerializeSize
        if nTxSize = 0 then none
        else
          let dFeePerKb := Double.div
            (Double.ofInt (((pBaseTx.GetFee + 2 ^ 64 - fuelCharge eng pBaseTx nFuelRate)
              % 2 ^ 64 : Nat) : Int))
            (Double.div (Double.ofInt (nTxSize : Int)) (Double.ofInt 1000))
          let dPriority := Double.div (Double.ofInt 1000) (Double.ofInt (nTxSize : Int))
          some ({ dPriority := dPriority, dFeePerKb := dFeePerKb, tx := pBaseTx }
            :: vecPriority)
      else some vecPriority

/-! ## The ring of mined blocks -/

/-- `MINED_BLOCK_COUNT_MAX`: the capacity of `g_minedBlocks`. -/
def MINED_BLOCK_COUNT_MAX : Nat := 100

/-- The fields of `MinedBlockInfo`. -/
structure MinedBlockInfo where
  nTime : Int
  nNonce : Nat
  nHeight : Int
  nTotalFuels : Int
  nFuelRate : Int
  nTotalFees : Int
  nTxCount : Nat
  nBlockSize : Nat
  hash : Nat
  hashPrevBlock : Nat
deriving DecidableEq, Repr

/-- `MinedBlockInfo::SetNull()`. -/
def MinedBlockInfo.SetNull : MinedBlockInfo :=
  { nTime := 0, nNonce := 0, nHeight := 0, nTotalFuels := 0, nFuelRate := 0, nTotalFees := 0,
    nTxCount := 0, nBlockSize := 0, hash := 0, hashPrevBlock := 0 }

/-- `push_front` of a `boost::circular_buffer` of capacity `capacity`, the buffer listed from
front to back: the new element becomes the front and, when the buffer was full, the back
element is dropped. -/
def circularPushFront {α : Type} (capacity : Nat) (buffer : List α) (x : α) : List α :=
  (x :: buffer).take capacity

/-- `g_minedBlocks.push_front(info)` on the ring of capacity `MINED_BLOCK_COUNT_MAX`. -/
def pushMinedBlock (g_minedBlocks : List MinedBlockInfo) (info : MinedBlockInfo) :
    List MinedBlockInfo :=
  circularPushFront MINED_BLOCK_COUNT_MAX g_minedBlocks info

/-- The ring after the pushes of `infos`, in that order, onto the ring as it is constructed
(empty). -/
def minedBlocksAfter (infos : List MinedBlockInfo) : List MinedBlockInfo :=
  infos.foldl pushMinedBlock []

/-- The loop `for (unsigned int i = 0; i < count; i++) ret.push_back(g_minedBlocks[i]);` for
`i` from the length of `ret` on. -/
def copyMinedBlocks (g_minedBlocks : List MinedBlockInfo) :
    Nat → List MinedBlockInfo → List MinedBlockInfo
  | 0, ret => ret
  | left + 1, ret =>
    match g_minedBlocks[ret.length]? with
    | some info => copyMinedBlocks g_minedBlocks left (ret ++ [info])
    | none => ret

/-- `GetMinedBlocks(count)`: `count` is first cut down to the size of the ring. -/
def GetMinedBlocks (g_minedBlocks : List MinedBlockInfo) (count : Nat) : List MinedBlockInfo :=
  copyMinedBlocks g_minedBlocks (min g_minedBlocks.length count) []

/-- The descriptor of the `k`-th mined block of a test run. -/
def sampleInfo (k : Nat) : MinedBlockInfo :=
  { MinedBlockInfo.SetNull with nHeight := k, hash := 7000 + k, hashPrevBlock := 6999 + k }

/-! ## The swap iterations of ShuffleDelegates -/

/-- The inner loop `for (int x = 0; x < 4 && i < delCount; i++, x++)` of `ShuffleDelegates`
with only its counters: the first argument is `4 - x`, the second is `i`.  Returns the value of
`i` on exit and the values of `i` at which the loop body ran, in order. -/
def shuffleInnerSteps (delCount : Int) : Nat → Nat → Nat × List Nat
  | 0, i => (i, [])
  | left + 1, i =>
    if (i : Int) < delCount then
      let r := shuffleInnerSteps delCount left (i + 1)
      (r.1, i :: r.2)
    else (i, [])

/-- The outer loop `for (int i = 0, delCount = TotalDelegateNum; i < delCount; i++)` with only
its counters: one group of inner-loop positions per pass, the seed being refreshed after each
group; the inner loop leaves `i` at its exit value and the outer `i++` adds one.  The first
argument bounds the number of passes. -/
def shuffleOuterSteps (delCount : Int) : Nat → Nat → List (List Nat)
  | 0, _ => []
  | fuel + 1, i =>
    if (i : Int) < delCount then
      let r := shuffleInnerSteps delCount 4 i
      r.2 :: shuffleOuterSteps delCount fuel (r.1 + 1)
    else []

/-- The positions `i` of the swap iterations `ShuffleDelegates` runs, grouped by seed. -/
def ShuffleDelegatesSteps (TotalDelegateNum : Int) : List (List Nat) :=
  shuffleOuterSteps TotalDelegateNum TotalDelegateNum.toNat 0

/-- The body of the inner loop run at the positions of one group, `x` counting up from the
given value. -/
def swapAt (delCount : Int) (currendSeed : Nat) :
    Nat → List Nat → List CAccount → Option (List CAccount)
  | _, [], v => some v
  | x, i :: rest, v =>
    match swapDelegates v i (seedWord currendSeed x % delCount.toNat) with
    | some v1 => swapAt delCount currendSeed (x + 1) rest v1
    | none => none

/-- The groups of swap iterations run one after another, with
`ss << currendSeed; currendSeed = ss.GetHash();` after each group. -/
def swapGroups {σ : Type} (hw : HashWriter σ) (delCount : Int) :
    List (List Nat) → σ → Nat → List CAccount → Option (List CAccount)
  | [], _, _, v => some v
  | g :: gs, ss, currendSeed, v =>
    match swapAt delCount currendSeed 0 g v with
    | some v1 =>
      let ss1 := hw.writeSeed ss currendSeed
      let r := hw.getHash ss1
      swapGroups hw delCount gs r.2 (uint256 r.1) v1
    | none => none

/-! ## CheckWork and the recording of a mined block -/

/-- What `CheckWork` and `MineBlock` read of the node: the hash of `chainActive.Tip()`, the
outcome of `ProcessBlock(state, NULL, pblock)`, and `CBlock::GetHash`. -/
structure ChainEnv where
  tipBlockHash : Nat
  ProcessBlock : CBlock → Bool
  GetHash : CBlock → Nat

/-- `CheckWork(pblock, wallet)`: `false` when the block is stale (its previous-block hash is
not the hash of the active tip) or `ProcessBlock` does not accept it. -/
def CheckWork (env : ChainEnv) (pblock : CBlock) : Bool :=
  if pblock.hashPrevBlock ≠ env.tipBlockHash then false
  else if !env.ProcessBlock pblock then false
  else true

/-- The globals `g_miningBlockInfo` and `g_minedBlocks` (front first). -/
structure MinerGlobals where
  g_miningBlockInfo : MinedBlockInfo
  g_minedBlocks : List MinedBlockInfo
deriving DecidableEq, Repr

/-- The statements of `MineBlock` under `if (success)`, reached once `CreateBlockRewardTx` has
signed the block: `CheckWork(pblock, *pwallet);` is called as a statement, its return value
being dropped, then seven fields of `g_miningBlockInfo` are assigned from the block, the info
is pushed to the front of the ring, and `MineBlock` returns `true`. -/
def mineBlockSigned (env : ChainEnv) (pblock : CBlock) (g : MinerGlobals) :
    Bool × MinerGlobals :=
  let _accepted := CheckWork env pblock
  let info : MinedBlockInfo :=
    { g.g_miningBlockInfo with
      nTime := pblock.nTime
      nNonce := pblock.nNonce
      nHeight := pblock.nHeight
      nTotalFuels := pblock.nFuel
      nFuelRate := pblock.nFuelRate
      hash := env.GetHash pblock
      hashPrevBlock := env.GetHash pblock }
  (true, { g_miningBlockInfo := info, g_minedBlocks := pushMinedBlock g.g_minedBlocks info })

/-- A node whose active tip is block 909, that accepts every block handed to `ProcessBlock`,
and whose block hash is `5000 + 10 * height + nonce`. -/
def sampleChainEnv : ChainEnv :=
  { tipBlockHash := 909, ProcessBlock := fun _ => true,
    GetHash := fun b => 5000 + 10 * b.nHeight.toNat + b.nNonce }

/-- The globals before the first block is mined: a null info and an empty ring. -/
def sampleGlobals : MinerGlobals :=
  { g_miningBlockInfo := MinedBlockInfo.SetNull, g_minedBlocks := [] }

/-! ## Reward transactions: ExecuteTx -/

/-- A `TokenSymbol` is a string. -/
abbrev TokenSymbol := String

/-- `SYMB::WICC`. -/
def SYMB.WICC : TokenSymbol := "WICC"

/-- `SYMB::WUSD`. -/
def SYMB.WUSD : TokenSymbol := "WUSD"

/-- The receipt codes the reward transactions pass to `OperateBalance`. -/
inductive ReceiptCode where
  | BLOCK_REWARD_TO_MINER
  | COIN_BLOCK_REWARD_TO_MINER
  | COIN_BLOCK_INFLATE
deriving DecidableEq, Repr

/-- The account operations the reward transactions call, over an account type `A`, a receipt
list type `R` and a cache wrapper type `W`:
`txAccount.OperateBalance(symbol, ADD_FREE, amount, code, receipts)` yields its return value
with the account and the receipts it leaves behind, and
`cw.accountCache.SetAccount(CUserID(txAccount.keyid), txAccount)` its return value with the
cache it leaves behind. -/
structure AccountOps (A R W : Type) where
  OperateBalanceAddFree : A → TokenSymbol → Nat → ReceiptCode → R → Bool × A × R
  SetAccount : W → A → Bool × W

/-- What `ExecuteTx` leaves behind: its return value, `txAccount`, `receipts` and the cache
wrapper. -/
structure RewardTxResult (A R W : Type) where
  ok : Bool
  txAccount : A
  receipts : R
  cw : W

/-- `CBlockRewardTx::ExecuteTx(context)` for `context.index = index`. -/
def CBlockRewardTx.ExecuteTx {A R W : Type} (ops : AccountOps A R W) (index : Int)
    (reward_fees : Nat) (txAccount : A) (receipts : R) (cw : W) : RewardTxResult A R W :=
  if 0 = index then
    let s := ops.SetAccount cw txAccount
    { ok := s.1, txAccount := txAccount, receipts := receipts, cw := s.2 }
  else if -1 = index then
    let o := ops.OperateBalanceAddFree txAccount SYMB.WICC reward_fees
      ReceiptCode.BLOCK_REWARD_TO_MINER receipts
    if !o.1 then { ok := false, txAccount := o.2.1, receipts := o.2.2, cw := cw }
    else
      let s := ops.SetAccount cw o.2.1
      { ok := s.1, txAccount := o.2.1, receipts := o.2.2, cw := s.2 }
  else { ok := false, txAccount := txAccount, receipts := receipts, cw := cw }

/-- The loop `for (const auto &item : reward_fees)` of `CUCoinBlockRewardTx::ExecuteTx` over
the entries of the reward map in iteration order; `false` stands for the `return` of a
failure inside the loop. -/
def rewardFeesLoop {A R W : Type} (ops : AccountOps A R W) :
    List (TokenSymbol × Nat) → A → R → Bool × A × R
  | [], txAccount, receipts => (true, txAccount, receipts)
  | item :: rest, txAccount, receipts =>
    let rewardAmount := item.2
    let coinSymbol := item.1
    if coinSymbol = SYMB.WICC ∨ coinSymbol = SYMB.WUSD then
      let o := ops.OperateBalanceAddFree txAccount coinSymbol rewardAmount
        ReceiptCode.COIN_BLOCK_REWARD_TO_MINER receipts
      if !o.1 then (false, o.2.1, o.2.2)
      else rewardFeesLoop ops rest o.2.1 o.2.2
    else (false, txAccount, receipts)

/-- `CUCoinBlockRewardTx::ExecuteTx(context)` for `context.index = index`; the cache wrapper
is not touched. -/
def CUCoinBlockRewardTx.ExecuteTx {A R W : Type} (ops : AccountOps A R W) (index : Int)
    (reward_fees : List (TokenSymbol × Nat)) (inflated_bcoins : Nat) (txAccount : A)
    (receipts : R) (cw : W) : RewardTxResult A R W :=
  if 0 = index then { ok := true, txAccount := txAccount, receipts := receipts, cw := cw }
  else if -1 = index then
    let l := rewardFeesLoop ops reward_fees txAccount receipts
    if !l.1 then { ok := false, txAccount := l.2.1, receipts := l.2.2, cw := cw }
    else
      let o := ops.OperateBalanceAddFree l.2.1 SYMB.WICC inflated_bcoins
        ReceiptCode.COIN_BLOCK_INFLATE l.2.2
      if !o.1 then { ok := false, txAccount := o.2.1, receipts := o.2.2, cw := cw }
      else { ok := true, txAccount := o.2.1, receipts := o.2.2, cw := cw }
  else { ok := false, txAccount := txAccount, receipts := receipts, cw := cw }

/-- The amount the entries of a reward map carry for one symbol. -/
def rewardOf (reward_fees : List (TokenSymbol × Nat)) (symbol : TokenSymbol) : Nat :=
  ((reward_fees.filter (fun item => decide (item.1 = symbol))).map (fun item => item.2)).sum

/-- Test account operations on accounts that are their free WICC and WUSD balances: adding
to a free balance always succeeds and leaves one receipt code behind, and `SetAccount` stores
the account in the cache. -/
def sampleAccountOps : AccountOps (Nat × Nat) (List ReceiptCode) (List (Nat × Nat)) where
  OperateBalanceAddFree := fun a symbol amount code receipts =>
    (true,
      (a.1 + (if symbol = SYMB.WICC then amount else 0),
        a.2 + (if symbol = SYMB.WUSD then amount else 0)),
      receipts ++ [code])
  SetAccount := fun cw a => (true, a :: cw)

/-- The free balance of a test account for a symbol. -/
def sampleFree (a : Nat × Nat) (symbol : TokenSymbol) : Nat :=
  if symbol = SYMB.WICC then a.1 else if symbol = SYMB.WUSD then a.2 else 0

/-- The test account operations with a `SetAccount` that fails. -/
def failingSetAccountOps : AccountOps (Nat × Nat) (List ReceiptCode) (List (Nat × Nat)) :=
  { sampleAccountOps with SetAccount := fun cw _ => (false, cw) }

/-! ## GetDelegatesAcctList -/

/-- What `GetDelegatesAcctList` reads of its local caches.  Bytes (`unsigned char`) are
numbers below 256.
`GetContractData nIndex vScriptKey` stands for
`scriptCache.GetContractData(0, regId, nIndex, vScriptKey, vScriptData)`: `none` when it
returns `false`, otherwise the key and the data it stores into its last two arguments.
`GetAccount` stands for `accView.GetAccount(acctRegId, account)` and `regIdOfBytes` for the
constructor `CRegID(const vector<unsigned char>&)`. -/
structure DelegateStore where
  GetContractData : Int → List Nat → Option (List Nat × List Nat)
  GetAccount : CRegID → Option CAccount
  regIdOfBytes : List Nat → CRegID

/-- The bytes `{'d', 'e', 'l', 'e', 'g', 'a', 't', 'e', '_'}`. -/
def vDelegatePrefix : List Nat := [100, 101, 108, 101, 103, 97, 116, 101, 95]

/-- `SCRIPT_KEY_PREFIX_LENGTH`. -/
def SCRIPT_KEY_PREFIX_LENGTH : Nat := 9

/-- `VOTES_STRING_SIZE`. -/
def VOTES_STRING_SIZE : Nat := 16

/-- `std::find_first_of(first, last, s_first, s_last)` as an offset from `first`: the position
of the first element that equals some element of the second range, the length of the first
range when there is none. -/
def find_first_of (range : List Nat) (among : List Nat) : Nat :=
  match range with
  | [] => 0
  | c :: rest => if c ∈ among then 0 else find_first_of rest among + 1

/-- `isspace` in the "C" locale. -/
def isspace (c : Nat) : Bool := c = 32 || (9 ≤ c && c ≤ 13)

/-- The value of a character as a digit of base 16, if it is one. -/
def hexDigit (c : Nat) : Option Nat :=
  if 48 ≤ c ∧ c ≤ 57 then some (c - 48)
  else if 97 ≤ c ∧ c ≤ 102 then some (c - 87)
  else if 65 ≤ c ∧ c ≤ 70 then some (c - 55)
  else none

/-- The digits `strtoull` consumes: the value of the longest run of base-16 digits at the
start of the text, accumulated onto `acc`. -/
def hexRun : List Nat → Nat → Nat
  | [], acc => acc
  | c :: rest, acc =>
    match hexDigit c with
    | some d => hexRun rest (acc * 16 + d)
    | none => acc

/-- `strtoull(text, &stopstring, 16)` on a text given by its characters (a NUL ends it, being
no digit): leading white space is skipped, a sign and a `0x` or `0X` in front of a digit are
accepted, the digits are accumulated, a value that does not fit yields `ULLONG_MAX`, and a
minus sign negates the value modulo `2^64`. -/
def strtoull16 (text : List Nat) : Nat :=
  let s1 := text.dropWhile isspace
  let negative := match s1 with
    | 45 :: _ => true
    | _ => false
  let s2 := match s1 with
    | 45 :: rest => rest
    | 43 :: rest => rest
    | _ => s1
  let s3 := match s2 with
    | 48 :: x :: d :: rest =>
      if (x = 120 ∨ x = 88) ∧ (hexDigit d).isSome then d :: rest else s2
    | _ => s2
  let v := hexRun s3 0
  let value := if v ≥ 2 ^ 64 then 2 ^ 64 - 1 else v
  if negative then (2 ^ 64 - value) % 2 ^ 64 else value

/-- The characters of `strVoltes`: the `VOTES_STRING_SIZE` characters of a key that follow
`SCRIPT_KEY_PREFIX_LENGTH` characters from `iterVotes`. -/
def keyVotesText (vScriptKey : List Nat) : List Nat :=
  (vScriptKey.drop
    (find_first_of vScriptKey vDelegatePrefix + SCRIPT_KEY_PREFIX_LENGTH)).take
      VOTES_STRING_SIZE

/-- The `receivedVotes` that the loop decodes from a key: `strVoltes` read by `strtoull`. -/
def keyVotes (vScriptKey : List Nat) : Nat :=
  strtoull16 (keyVotesText vScriptKey)

/-- The bytes `vAcctRegId` of a key: those from
`iterVotes + SCRIPT_KEY_PREFIX_LENGTH + VOTES_STRING_SIZE + 1` to the end. -/
def keyRegIdBytes (vScriptKey : List Nat) : List Nat :=
  vScriptKey.drop
    (find_first_of vScriptKey vDelegatePrefix + SCRIPT_KEY_PREFIX_LENGTH + VOTES_STRING_SIZE + 1)

/-- The iterators `iterVotes + SCRIPT_KEY_PREFIX_LENGTH + VOTES_STRING_SIZE + 1` and before lie
within the key, so that the two range constructions of the loop body are defined. -/
def keyInRange (vScriptKey : List Nat) : Prop :=
  find_first_of vScriptKey vDelegatePrefix + SCRIPT_KEY_PREFIX_LENGTH + VOTES_STRING_SIZE + 1
    ≤ vScriptKey.length

instance keyInRange_decidable (vScriptKey : List Nat) : Decidable (keyInRange vScriptKey) := by
  unfold keyInRange; exact inferInstance

/-- The loop `while (--TotalDelegateNum >= 0)` of `GetDelegatesAcctList`; the first argument
is the number of passes left.  Returns the `bool` and the output vector; `none` stands for an
iterator outside the key. -/
def delegatesLoop (store : DelegateStore) :
    Nat → Int → List Nat → List CAccount → Option (Bool × List CAccount)
  | 0, _, _, vDelegatesAcctList => some (true, vDelegatesAcctList)
  | left + 1, nIndex, vScriptKey, vDelegatesAcctList =>
    match store.GetContractData nIndex vScriptKey with
    | some (vScriptKey1, _) =>
      if keyInRange vScriptKey1 then
        let receivedVotes := keyVotes vScriptKey1
        let acctRegId := store.regIdOfBytes (keyRegIdBytes vScriptKey1)
        match store.GetAccount acctRegId with
        | none => some (false, vDelegatesAcctList)
        | some account =>
          let maxNum := 0xFFFFFFFFFFFFFFFF
          if (maxNum - receivedVotes) % 2 ^ 64 ≠ account.receivedVotes then
            some (false, vDelegatesAcctList)
          else delegatesLoop store left 1 vScriptKey1 (vDelegatesAcctList ++ [account])
      else none
    | none => some (false, vDelegatesAcctList)

/-- `GetDelegatesAcctList(vDelegatesAcctList, accViewIn, scriptCacheIn)` with
`TotalDelegateNum` the value of `IniCfg().GetTotalDelegateNum()`. -/
def GetDelegatesAcctList (store : DelegateStore) (TotalDelegateNum : Int)
    (vDelegatesAcctList : List CAccount) : Option (Bool × List CAccount) :=
  delegatesLoop store TotalDelegateNum.toNat 0 vDelegatePrefix vDelegatesAcctList

/-- The keys the store yields to successive calls of `GetContractData`, the first with
`nIndex` and `vScriptKey` as given, each later one with `nIndex = 1` and the key before:
`none` when the store runs out before `count` keys. -/
def successiveKeys (store : DelegateStore) : Nat → Int → List Nat → Option (List (List Nat))
  | 0, _, _ => some []
  | count + 1, nIndex, vScriptKey =>
    match store.GetContractData nIndex vScriptKey with
    | some (vScriptKey1, _) =>
      match successiveKeys store count 1 vScriptKey1 with
      | some keys => some (vScriptKey1 :: keys)
      | none => none
    | none => none

/-- The value of a text of base-16 digits, most significant first (0 for a character that is
no digit). -/
def hexValue (digits : List Nat) : Nat :=
  digits.foldl (fun acc c => acc * 16 + (hexDigit c).getD 0) 0

/-- The 64-bit bitwise complement. -/
def complement64 (v : Nat) : Nat := (~~~ (BitVec.ofNat 64 v)).toNat

/-- The consistency check of the loop body, for a key and the account it names: the account
is the one stored under the registration id of the key, and `0xFFFFFFFFFFFFFFFF` minus the
votes decoded from the key equals the account's `receivedVotes`. -/
def keyMatches (store : DelegateStore) (vScriptKey : List Nat) (account : CAccount) : Prop :=
  store.GetAccount (store.regIdOfBytes (keyRegIdBytes vScriptKey)) = some account ∧
  0xFFFFFFFFFFFFFFFF - keyVotes vScriptKey = account.receivedVotes

/-- The key of the test store for the delegate with registration index `k`: `delegate_`, the
16 digits `fffffffffffffc17` plus `k` in the last digit, `_`, and the byte `k`. -/
def sampleKey (k : Nat) : List Nat :=
  vDelegatePrefix ++ List.replicate 13 102 ++ [99, 49, 55 + k] ++ [95] ++ [k]

/-- A test store with the keys of three delegates in key order, whose accounts are
`sampleAccount 0..2` with 1000, 999 and 998 votes. -/
def sampleDelegateStore : DelegateStore where
  GetContractData := fun nIndex vScriptKey =>
    if nIndex = 0 then some (sampleKey 0, [])
    else if vScriptKey = sampleKey 0 then some (sampleKey 1, [])
    else if vScriptKey = sampleKey 1 then some (sampleKey 2, [])
    else none
  GetAccount := fun regId =>
    if regId.nHeight = 1 ∧ regId.nIndex < 3 then some (sampleAccount regId.nIndex) else none
  regIdOfBytes := fun bytes => ⟨1, bytes.headD 0⟩

/-! ## The bank native module -/

/-- The exceptions the bank native module raises through `CHAIN_ASSERT`, and those of the
helpers it calls. -/
inductive WasmException where
  | action_not_found_exception
  | native_contract_assert_exception
  | asset_type_exception
  | account_access_exception
  | level_db_update_fail
  | other (code : Nat)
deriving DecidableEq, Repr

/-- The outcome of a handler: the context it leaves behind, or the exception it raised. -/
inductive Outcome (σ : Type) where
  | done (context : σ)
  | raised (e : WasmException)
deriving DecidableEq, Repr

/-- Sequencing of a step that may raise with its continuation. -/
def Outcome.andThen {σ τ : Type} (r : Outcome σ) (k : σ → Outcome τ) : Outcome τ :=
  match r with
  | Outcome.done c => k c
  | Outcome.raised e => Outcome.raised e

/-- `CHAIN_ASSERT(cond, exception, ...)` followed by the rest of the handler. -/
def CHAIN_ASSERT {τ : Type} (cond : Bool) (e : WasmException) (rest : Outcome τ) : Outcome τ :=
  if cond then rest else Outcome.raised e

/-- The fields of `CAsset` the module assigns. -/
structure CAsset where
  asset_symbol : String
  asset_name : String
  asset_type : String
  owner_regid : Nat
  total_supply : Nat
  mintable : Bool
deriving DecidableEq, Repr

/-- The parameters `issue` unpacks from `context.trx.data`. -/
structure IssueParams where
  symbol : String
  owner : Nat
  name : String
  total_supply : Nat
  mintable : Bool
deriving DecidableEq, Repr

/-- The parameters `update` unpacks from `context.trx.data`. -/
structure UpdateParams where
  symbol : String
  new_owner : Option Nat
  new_name : Option String
deriving DecidableEq, Repr

/-- The parameters `tansfer` unpacks from `context.trx.data`; `quantity` is given by its
amount, its symbol code and the value of `is_valid()`. -/
structure TransferParams where
  fromId : Nat
  toId : Nat
  amount : Int
  symbol : String
  quantityValid : Bool
  memo : String
deriving DecidableEq, Repr

/-- What the module uses of `wasm_context` and of the headers it includes, over a context
type `σ`; registration ids are given by their integer value.  `N` is the macro that encodes an
action name, `mint_burn_balance` and `transfer_balance` are the helpers of
`wasm_native_commons.hpp`. -/
structure BankEnv (σ : Type) where
  N : String → Nat
  bank_native_module_id : Nat
  receiver : σ → Nat
  chargeRunCost : σ → σ
  unpackIssue : σ → Outcome IssueParams
  unpackUpdate : σ → Outcome UpdateParams
  unpackTransfer : σ → Outcome TransferParams
  GetAsset : σ → String → Option CAsset
  SetAsset : σ → CAsset → Bool × σ
  require_auth : σ → Nat → Outcome σ
  GetAccount : σ → Nat → Bool
  is_account : σ → Nat → Bool
  mint_burn_balance : σ → Bool → Outcome σ
  transfer_balance : σ → Nat → Nat → TransferParams → Outcome σ
  notify_recipient : σ → Nat → σ

/-- `wasm_bank_native_module::issue(context)`. -/
def issue {σ : Type} (env : BankEnv σ) (context : σ) : Outcome σ :=
  CHAIN_ASSERT (env.receiver context == env.bank_native_module_id)
    WasmException.native_contract_assert_exception <|
  let context := env.chargeRunCost context
  (env.unpackIssue context).andThen fun params =>
  CHAIN_ASSERT (env.GetAsset context params.symbol).isNone
    WasmException.asset_type_exception <|
  (env.require_auth context params.owner).andThen fun context =>
  CHAIN_ASSERT (env.GetAccount context params.owner)
    WasmException.account_access_exception <|
  let asset : CAsset :=
    { asset_symbol := params.symbol, asset_name := params.name, asset_type := "UIA",
      owner_regid := params.owner, total_supply := params.total_supply,
      mintable := params.mintable }
  let stored := env.SetAsset context asset
  CHAIN_ASSERT stored.1 WasmException.level_db_update_fail <|
  Outcome.done stored.2

/-- `wasm_bank_native_module::mint(context)`. -/
def mint {σ : Type} (env : BankEnv σ) (context : σ) : Outcome σ :=
  CHAIN_ASSERT (env.receiver context == env.bank_native_module_id)
    WasmException.native_contract_assert_exception <|
  env.mint_burn_balance context true

/-- `wasm_bank_native_module::burn(context)`. -/
def burn {σ : Type} (env : BankEnv σ) (context : σ) : Outcome σ :=
  CHAIN_ASSERT (env.receiver context == env.bank_native_module_id)
    WasmException.native_contract_assert_exception <|
  env.mint_burn_balance context false

/-- `wasm_bank_native_module::update(context)`. -/
def update {σ : Type} (env : BankEnv σ) (context : σ) : Outcome σ :=
  CHAIN_ASSERT (env.receiver context == env.bank_native_module_id)
    WasmException.native_contract_assert_exception <|
  let context := env.chargeRunCost context
  (env.unpackUpdate context).andThen fun params =>
  match env.GetAsset context params.symbol with
  | none => Outcome.raised WasmException.asset_type_exception
  | some asset =>
    (env.require_auth context asset.owner_regid).andThen fun context =>
    let afterOwner : Outcome (Bool × CAsset) :=
      match params.new_owner with
      | some new_owner =>
        CHAIN_ASSERT (env.GetAccount context new_owner)
          WasmException.account_access_exception <|
        Outcome.done (true, { asset with owner_regid := new_owner })
      | none => Outcome.done (false, asset)
    afterOwner.andThen fun r =>
    let r2 : Bool × CAsset :=
      match params.new_name with
      | some new_name => (true, { r.2 with asset_name := new_name })
      | none => r
    CHAIN_ASSERT r2.1 WasmException.native_contract_assert_exception <|
    let stored := env.SetAsset context r2.2
    CHAIN_ASSERT stored.1 WasmException.level_db_update_fail <|
    Outcome.done stored.2

/-- `wasm_bank_native_module::tansfer(context)`, the handler of the action `transfer`. -/
def tansfer {σ : Type} (env : BankEnv σ) (context : σ) : Outcome σ :=
  CHAIN_ASSERT (env.receiver context == env.bank_native_module_id)
    WasmException.native_contract_assert_exception <|
  let context := env.chargeRunCost context
  (env.unpackTransfer context).andThen fun t =>
  (env.require_auth context t.fromId).andThen fun context =>
  CHAIN_ASSERT (t.fromId != t.toId) WasmException.native_contract_assert_exception <|
  CHAIN_ASSERT (env.is_account context t.toId) WasmException.native_contract_assert_exception <|
  CHAIN_ASSERT t.quantityValid WasmException.native_contract_assert_exception <|
  CHAIN_ASSERT (decide (t.amount > 0)) WasmException.native_contract_assert_exception <|
  CHAIN_ASSERT (decide (t.memo.utf8ByteSize ≤ 256))
    WasmException.native_contract_assert_exception <|
  CHAIN_ASSERT (env.GetAccount context t.fromId) WasmException.account_access_exception <|
  CHAIN_ASSERT (env.GetAccount context t.toId) WasmException.account_access_exception <|
  CHAIN_ASSERT (env.GetAsset context t.symbol).isSome WasmException.asset_type_exception <|
  (env.transfer_balance context t.fromId t.toId t).andThen fun context =>
  let context := env.notify_recipient context t.fromId
  Outcome.done (env.notify_recipient context t.toId)

/-- `wasm_bank_native_module::act_handler(context, action)`: the `switch` over the action,
with the handler each `case` calls, and the `CHAIN_ASSERT(false, ...)` that follows the
`switch`. -/
def act_handler {σ : Type} (env : BankEnv σ) (context : σ) (action : Nat) : Outcome σ :=
  if action = env.N "issue" then mint env context
  else if action = env.N "mint" then mint env context
  else if action = env.N "burn" then burn env context
  else if action = env.N "update" then update env context
  else if action = env.N "transfer" then tansfer env context
  else Outcome.raised WasmException.action_not_found_exception

/-- A test context: the receiver, the issued assets, the parameters of the pending `issue`
action, and a log of the balance operations run. -/
structure SampleContext where
  receiver : Nat
  assets : List CAsset
  issueParams : IssueParams
  balanceLog : List String
deriving DecidableEq, Repr

/-- A test environment over `SampleContext`: the module id is 800, the five action names are
numbered 1 to 5, every account exists and every authorization is granted, `SetAsset` adds the
asset to the issued ones, and the balance helpers write to the log. -/
def sampleBankEnv : BankEnv SampleContext where
  N := fun name =>
    if name = "issue" then 1 else if name = "mint" then 2 else if name = "burn" then 3
    else if name = "update" then 4 else if name = "transfer" then 5 else 0
  bank_native_module_id := 800
  receiver := fun c => c.receiver
  chargeRunCost := fun c => c
  unpackIssue := fun c => Outcome.done c.issueParams
  unpackUpdate := fun c =>
    Outcome.done { symbol := c.issueParams.symbol, new_owner := none, new_name := some "n" }
  unpackTransfer := fun c =>
    Outcome.done { fromId := 1, toId := 2, amount := 5, symbol := c.issueParams.symbol,
                   quantityValid := true, memo := "" }
  GetAsset := fun c symbol => c.assets.find? (fun a => a.asset_symbol == symbol)
  SetAsset := fun c asset =>
    (true, { c with
      assets := asset :: (c.assets.filter (fun a => a.asset_symbol != asset.asset_symbol)) })
  require_auth := fun c _ => Outcome.done c
  GetAccount := fun _ _ => true
  is_account := fun _ _ => true
  mint_burn_balance := fun c isMint =>
    Outcome.done { c with balanceLog := (if isMint then "mint" else "burn") :: c.balanceLog }
  transfer_balance := fun c _ _ _ =>
    Outcome.done { c with balanceLog := "transfer" :: c.balanceLog }
  notify_recipient := fun c _ => c

/-- A test context of the bank module in which no asset is issued yet and the pending action
carries the parameters of issuing `ABC`. -/
def sampleBankContext : SampleContext :=
  { receiver := 800, assets := [],
    issueParams := { symbol := "ABC", owner := 7, name := "abc coin", total_supply := 1000,
                     mintable := true },
    balanceLog := [] }

/-- The test context after `ABC` has been issued. -/
def issuedBankContext : SampleContext :=
  { sampleBankContext with
    assets := [{ asset_symbol := "ABC", asset_name := "abc coin", asset_type := "UIA",
                 owner_regid := 7, total_supply := 1000, mintable := true }] }

/-! ## The value of a double and the rounding relation -/

/-- The rational value of a double of the model. -/
def Double.value (d : Double) : ℚ := (d.m : ℚ) * (2 : ℚ) ^ d.e

/-- The exponent `roundNearestEven` selects. -/
def roundExponent (num den : Nat) : Int :=
  let e0 : Int := (bitLength num : Int) - (bitLength den : Int) - 52
  let s0 := scaleRatio num den e0
  if s0.1 / s0.2 < 2 ^ 52 then e0 - 1 else e0

/-- The mantissa `roundNearestEven` selects for the scaled ratio `a / b`. -/
def roundMantissa (a b : Nat) : Nat :=
  let q := a / b
  let r := a % b
  if 2 * r < b then q else if b < 2 * r then q + 1
  else if q % 2 = 0 then q else q + 1

/-- The double `d` is a rounding of the positive rational `x`: its mantissa has 53 bits, `x`
lies in the binade of its exponent, and it is within half a unit in the last place of `x`. -/
def IsRounding (x : ℚ) (d : Double) : Prop :=
  2 ^ 52 ≤ d.m ∧ d.m ≤ 2 ^ 53 ∧ (2 : ℚ) ^ (52 + d.e) ≤ x ∧ x < (2 : ℚ) ^ (53 + d.e) ∧
    |d.value - x| ≤ (2 : ℚ) ^ (d.e - 1)

/-! ## ShuffleDelegates is a permutation -/

theorem set_swap_perm {α : Type} [DecidableEq α] (v : List α) (i j : Nat) (hi : i < v.length)
    (hj : j < v.length) :
    ((v.set j v[i]).set i v[j]).Perm v := by
  rw [List.perm_iff_count]
  intro a
  have hi' : i < (v.set j v[i]).length := by simpa using hi
  rw [List.count_set _ _ _ _ hi', List.count_set _ _ _ _ hj]
  have h1 : 0 < v.count v[i] := List.count_pos_iff.mpr (List.getElem_mem _)
  have h2 : 0 < v.count v[j] := List.count_pos_iff.mpr (List.getElem_mem _)
  by_cases hij : i = j
  · subst hij
    simp only [List.getElem_set_self, beq_iff_eq]
    by_cases ha : v[i] = a
    · subst ha; simp
    · simp [ha]
  · rw [List.getElem_set_ne (Ne.symm hij)]
    simp only [beq_iff_eq]
    by_cases ha : v[i] = a <;> by_cases hb : v[j] = a
    · simp only [ha, hb, if_true]; subst ha; omega
    · simp only [ha, hb, if_true, if_false]; subst ha; omega
    · simp only [ha, hb, if_true, if_false]; subst hb; omega
    · simp [ha, hb]

theorem swapDelegates_some (v : List CAccount) (i j : Nat) (hi : i < v.length)
    (hj : j < v.length) : ∃ v1, swapDelegates v i j = some v1 ∧ v1.Perm v := by
  refine ⟨(v.set j v[i]).set i v[j], ?_, set_swap_perm v i j hi hj⟩
  simp [swapDelegates, List.getElem?_eq_getElem hi, List.getElem?_eq_getElem hj]

theorem shuffleInner_some (delCount : Int) (seed : Nat) (hN : 0 < delCount) :
    ∀ (left x i : Nat) (v : List CAccount), (v.length : Int) = delCount →
      ∃ i1 v1, shuffleInner delCount seed left x i v = some (i1, v1) ∧ v1.Perm v ∧ i ≤ i1 ∧
        (0 < left → (i : Int) < delCount → i < i1) := by
  intro left
  induction left with
  | zero => intro x i v _; exact ⟨i, v, rfl, List.Perm.refl _, le_refl _, fun h => absurd h (lt_irrefl _)⟩
  | succ left ih =>
    intro x i v hv
    by_cases hi : (i : Int) < delCount
    · have hlen : i < v.length := by omega
      have hj : seedWord seed x % delCount.toNat < v.length := by
        have : delCount.toNat = v.length := by omega
        rw [this]; exact Nat.mod_lt _ (by omega)
      obtain ⟨v1, hv1, hp1⟩ := swapDelegates_some v i _ hlen hj
      obtain ⟨i2, v2, h2, hp2, hle, _⟩ := ih (x + 1) (i + 1) v1 (by rw [hp1.length_eq]; exact hv)
      refine ⟨i2, v2, ?_, hp2.trans hp1, by omega, fun _ _ => by omega⟩
      simp only [shuffleInner, hi, if_true, hv1]
      exact h2
    · refine ⟨i, v, ?_, List.Perm.refl _, le_refl _, fun _ h => absurd h hi⟩
      simp [shuffleInner, hi]

theorem shuffleOuter_some {σ : Type} (hw : HashWriter σ) (delCount : Int) (hN : 0 < delCount) :
    ∀ (fuel i : Nat) (ss : σ) (seed : Nat) (v : List CAccount), (v.length : Int) = delCount →
      delCount ≤ (i : Int) + fuel →
      ∃ out, shuffleOuter hw delCount fuel i ss seed v = some out ∧ out.Perm v := by
  intro fuel
  induction fuel with
  | zero =>
    intro i ss seed v _ hfuel
    refine ⟨v, ?_, List.Perm.refl _⟩
    have : ¬ (i : Int) < delCount := by omega
    simp [shuffleOuter, this]
  | succ fuel ih =>
    intro i ss seed v hv hfuel
    by_cases hi : (i : Int) < delCount
    · obtain ⟨i1, v1, h1, hp1, _, hlt⟩ := shuffleInner_some delCount seed hN 4 0 i v hv
      have hlt1 := hlt (by decide) hi
      obtain ⟨out, ho, hpo⟩ := ih (i1 + 1) (hw.getHash (hw.writeSeed ss seed)).2
        (uint256 (hw.getHash (hw.writeSeed ss seed)).1) v1
        (by rw [hp1.length_eq]; exact hv) (by push_cast; omega)
      refine ⟨out, ?_, hpo.trans hp1⟩
      simp only [shuffleOuter, hi, if_true, h1]
      exact ho
    · refine ⟨v, ?_, List.Perm.refl _⟩
      simp [shuffleOuter, hi]

/-- C1: for every delegate count `N ≥ 1`, every height, every hash writer and every delegate
list of length `N`, `ShuffleDelegates` never accesses a position outside the list (it returns
a list) and the list it leaves is a permutation of its input: same length, same multiset of
accounts, and no duplicate `regID` if the input had none. -/
theorem ShuffleDelegates_permutation {σ : Type} (hw : HashWriter σ) (N : Int) (hN : 1 ≤ N)
    (nCurHeight : Int) (L : List CAccount) (hL : (L.length : Int) = N) :
    ∃ out, ShuffleDelegates hw N nCurHeight L = some out ∧ out.length = L.length ∧
      out.Perm L ∧ (∀ a : CAccount, out.count a = L.count a) ∧
      ((L.map (fun a => a.regID)).Nodup → (out.map (fun a => a.regID)).Nodup) := by
  have hN0 : N ≠ 0 := by omega
  obtain ⟨out, ho, hp⟩ := shuffleOuter_some hw N (by omega) N.toNat 0
    (hw.getHash (hw.writeString hw.init (seedSource nCurHeight N))).2
    (uint256 (hw.getHash (hw.writeString hw.init (seedSource nCurHeight N))).1) L hL
    (by omega)
  refine ⟨out, ?_, hp.length_eq, hp, fun a => hp.count_eq a, fun hnd => ?_⟩
  · simp only [ShuffleDelegates, hN0, if_false]
    exact ho
  · exact ((hp.map (fun a => a.regID)).nodup_iff).mpr hnd

theorem ShuffleDelegates_permutation_witness :
    ∃ out, ShuffleDelegates toyHashWriter 3 10 [sampleAccount 0, sampleAccount 1, sampleAccount 2]
        = some out ∧ out.length = 3 ∧
      out.Perm [sampleAccount 0, sampleAccount 1, sampleAccount 2] ∧
      (∀ a : CAccount, out.count a = [sampleAccount 0, sampleAccount 1, sampleAccount 2].count a) ∧
      (([sampleAccount 0, sampleAccount 1, sampleAccount 2].map (fun a => a.regID)).Nodup →
        (out.map (fun a => a.regID)).Nodup) :=
  ShuffleDelegates_permutation toyHashWriter 3 (by decide) 10
    [sampleAccount 0, sampleAccount 1, sampleAccount 2] (by decide)



/-! ## The shuffle seed -/

theorem seedNumber_eq_ceil (h N : Int) (hh : 0 ≤ h) (hN : 1 ≤ N) :
    seedNumber h N = ⌈(h : ℚ) / (N : ℚ)⌉ := by
  have hN0 : (0 : Int) ≤ N := by omega
  have hNq : (0 : ℚ) < (N : ℚ) := by exact_mod_cast (show (0 : Int) < N by omega)
  unfold seedNumber
  rw [Int.tdiv_eq_ediv hh hN0, Int.tmod_eq_emod hh hN0]
  have hdm : N * (h / N) + h % N = h := Int.ediv_add_emod h N
  have hr0 : 0 ≤ h % N := Int.emod_nonneg _ (by omega)
  have hrN : h % N < N := Int.emod_lt_of_pos _ (by omega)
  symm
  rw [Int.ceil_eq_iff]
  have hcast : (h : ℚ) = (N : ℚ) * ((h / N : Int) : ℚ) + ((h % N : Int) : ℚ) := by
    exact_mod_cast hdm.symm
  have hr0q : (0 : ℚ) ≤ ((h % N : Int) : ℚ) := by exact_mod_cast hr0
  have hrNq : ((h % N : Int) : ℚ) < (N : ℚ) := by exact_mod_cast hrN
  by_cases hpos : h % N > 0
  · have hposq : (0 : ℚ) < ((h % N : Int) : ℚ) := by exact_mod_cast hpos
    simp only [hpos, if_true]
    push_cast
    constructor
    · rw [lt_div_iff₀ hNq]; nlinarith
    · rw [div_le_iff₀ hNq]; nlinarith
  · have hz : h % N = 0 := by omega
    simp only [hpos, if_false]
    rw [hz] at hcast
    push_cast at hcast ⊢
    constructor
    · rw [lt_div_iff₀ hNq]; nlinarith
    · rw [div_le_iff₀ hNq]; nlinarith

theorem ShuffleDelegates_congr_seed {σ : Type} (hw : HashWriter σ) (N h1 h2 : Int)
    (L : List CAccount) (hs : seedNumber h1 N = seedNumber h2 N) :
    ShuffleDelegates hw N h1 L = ShuffleDelegates hw N h2 L := by
  simp only [ShuffleDelegates, seedSource, hs]

/-- C2: `ShuffleDelegates` is a function of the height and the list, and the height enters only
through the seed number `h / N + (h % N > 0 ? 1 : 0)`; for `h ≥ 0` and `N ≥ 1` that number is
`ceil(h / N)`, so heights with the same `ceil(h / N)` give the same shuffle of every list
(`h = 10`, `N = 3` gives the seed text "4"). -/
theorem ShuffleDelegates_depends_on_seed_number {σ : Type} (hw : HashWriter σ) (N : Int)
    (hN : 1 ≤ N) (h1 h2 : Int) (hh1 : 0 ≤ h1) (hh2 : 0 ≤ h2) (L : List CAccount)
    (hceil : ⌈(h1 : ℚ) / (N : ℚ)⌉ = ⌈(h2 : ℚ) / (N : ℚ)⌉) :
    seedNumber h1 N = ⌈(h1 : ℚ) / (N : ℚ)⌉ ∧ seedNumber h2 N = ⌈(h2 : ℚ) / (N : ℚ)⌉ ∧
      ShuffleDelegates hw N h1 L = ShuffleDelegates hw N h2 L ∧
      (∀ (M a b : Int) (K : List CAccount), seedNumber a M = seedNumber b M →
        ShuffleDelegates hw M a K = ShuffleDelegates hw M b K) ∧
      seedSource 10 3 = "4" := by
  have e1 := seedNumber_eq_ceil h1 N hh1 hN
  have e2 := seedNumber_eq_ceil h2 N hh2 hN
  refine ⟨e1, e2, ShuffleDelegates_congr_seed hw N h1 h2 L (by rw [e1, e2, hceil]),
    fun M a b K hs => ShuffleDelegates_congr_seed hw M a b K hs, by decide⟩

theorem ShuffleDelegates_depends_on_seed_number_witness :
    seedNumber 10 3 = ⌈((10 : Int) : ℚ) / ((3 : Int) : ℚ)⌉ ∧
      seedNumber 11 3 = ⌈((11 : Int) : ℚ) / ((3 : Int) : ℚ)⌉ ∧
      ShuffleDelegates toyHashWriter 3 10 [sampleAccount 0, sampleAccount 1, sampleAccount 2]
        = ShuffleDelegates toyHashWriter 3 11 [sampleAccount 0, sampleAccount 1, sampleAccount 2] ∧
      (∀ (M a b : Int) (K : List CAccount), seedNumber a M = seedNumber b M →
        ShuffleDelegates toyHashWriter M a K = ShuffleDelegates toyHashWriter M b K) ∧
      seedSource 10 3 = "4" :=
  ShuffleDelegates_depends_on_seed_number toyHashWriter 3 (by decide) 10 11 (by decide)
    (by decide) [sampleAccount 0, sampleAccount 1, sampleAccount 2]
    (by
      have a := seedNumber_eq_ceil 10 3 (by decide) (by decide)
      have b := seedNumber_eq_ceil 11 3 (by decide) (by decide)
      rw [← a, ← b]; decide)



/-! ## Slot coverage -/

theorem minerOf_eq_emod (N slot : Int) (hN : 1 ≤ N) (hs : 0 ≤ slot) :
    minerOf N slot = slot % N := by
  unfold minerOf
  exact Int.tmod_eq_emod hs (by omega)

theorem minerOf_covers (N s j : Int) (hN : 1 ≤ N) (hs : 0 ≤ s) (hj0 : 0 ≤ j) (hjN : j < N) :
    ∃! k : Int, (0 ≤ k ∧ k < N) ∧ minerOf N (s + k) = j := by
  have hNpos : (0 : Int) < N := by omega
  refine ⟨(j - s) % N, ⟨⟨Int.emod_nonneg _ (by omega), Int.emod_lt_of_pos _ hNpos⟩, ?_⟩, ?_⟩
  · rw [minerOf_eq_emod N _ hN (by have := Int.emod_nonneg (j - s) (show N ≠ 0 by omega); omega)]
    rw [Int.add_emod_emod]
    have : s + (j - s) = j := by ring
    rw [this]
    exact Int.emod_eq_of_lt hj0 hjN
  · rintro k ⟨⟨hk0, hkN⟩, hk⟩
    rw [minerOf_eq_emod N _ hN (by omega)] at hk
    have h1 : (j - s) % N = ((s + k) % N - s) % N := by rw [hk]
    rw [h1, Int.sub_eq_add_neg, Int.emod_add_emod]
    have : s + k + -s = k := by ring
    rw [this]
    exact (Int.emod_eq_of_lt hk0 hkN).symm

/-- C3: `GetCurrentDelegate` returns the list element at index
`(current_time / BLOCK_INTERVAL) mod TOTAL_DELEGATES`; for `N = TOTAL_DELEGATES ≥ 1`,
`BLOCK_INTERVAL > 0` and a start slot `s ≥ 0`, every delegate index in `[0, N)` is the index
selected in exactly one of the `N` consecutive slots `s, ..., s + N - 1`
(`N = 3`, interval 10, time 110: slot 11, index 2). -/
theorem GetCurrentDelegate_slot_coverage (N blockInterval s : Int) (hN : 1 ≤ N)
    (hI : 0 < blockInterval) (hs : 0 ≤ s) (v : List CAccount) :
    (∀ t : Int, 0 ≤ t →
      GetCurrentDelegate blockInterval N t v = v[((t / blockInterval) % N).toNat]?) ∧
    (∀ k r : Int, 0 ≤ k → 0 ≤ r → r < blockInterval →
      slotOf blockInterval ((s + k) * blockInterval + r) = s + k ∧
      GetCurrentDelegate blockInterval N ((s + k) * blockInterval + r) v
        = v[(minerOf N (s + k)).toNat]?) ∧
    (∀ j : Int, 0 ≤ j → j < N → ∃! k : Int, (0 ≤ k ∧ k < N) ∧ minerOf N (s + k) = j) ∧
    slotOf 10 110 = 11 ∧ minerOf 3 11 = 2 ∧
    GetCurrentDelegate 10 3 110 [sampleAccount 0, sampleAccount 1, sampleAccount 2]
      = some (sampleAccount 2) := by
  have hI0 : blockInterval ≠ 0 := by omega
  have hN0 : N ≠ 0 := by omega
  have key : ∀ t : Int, 0 ≤ t →
      GetCurrentDelegate blockInterval N t v = v[((t / blockInterval) % N).toNat]? := by
    intro t ht
    have hslot : slotOf blockInterval t = t / blockInterval :=
      Int.tdiv_eq_ediv ht (by omega)
    have hs0 : 0 ≤ t / blockInterval := Int.ediv_nonneg ht (by omega)
    have hm : minerOf N (slotOf blockInterval t) = (t / blockInterval) % N := by
      rw [hslot]; exact minerOf_eq_emod N _ hN hs0
    have hm0 : ¬ (t / blockInterval) % N < 0 := by
      have := Int.emod_nonneg (t / blockInterval) hN0; omega
    simp only [GetCurrentDelegate, hI0, hN0, or_self, if_false, hm, hm0]
  refine ⟨key, ?_, fun j hj0 hjN => minerOf_covers N s j hN hs hj0 hjN, by decide, by decide,
    by decide⟩
  intro k r hk hr0 hrI
  have hsk : 0 ≤ s + k := by omega
  have ht : 0 ≤ (s + k) * blockInterval + r := by
    have := Int.mul_nonneg hsk (show (0 : Int) ≤ blockInterval by omega); omega
  have hdiv : ((s + k) * blockInterval + r) / blockInterval = s + k := by
    rw [Int.add_comm, Int.add_mul_ediv_right _ _ hI0, Int.ediv_eq_zero_of_lt hr0 hrI]; simp
  have hslot : slotOf blockInterval ((s + k) * blockInterval + r) = s + k := by
    unfold slotOf; rw [Int.tdiv_eq_ediv ht (by omega)]; exact hdiv
  refine ⟨hslot, ?_⟩
  rw [key _ ht, hdiv, minerOf_eq_emod N _ hN hsk]

theorem GetCurrentDelegate_slot_coverage_witness :
    (∀ t : Int, 0 ≤ t →
      GetCurrentDelegate 10 3 t [sampleAccount 0, sampleAccount 1, sampleAccount 2]
        = [sampleAccount 0, sampleAccount 1, sampleAccount 2][((t / 10) % 3).toNat]?) ∧
    (∀ k r : Int, 0 ≤ k → 0 ≤ r → r < 10 →
      slotOf 10 ((11 + k) * 10 + r) = 11 + k ∧
      GetCurrentDelegate 10 3 ((11 + k) * 10 + r)
          [sampleAccount 0, sampleAccount 1, sampleAccount 2]
        = [sampleAccount 0, sampleAccount 1, sampleAccount 2][(minerOf 3 (11 + k)).toNat]?) ∧
    (∀ j : Int, 0 ≤ j → j < 3 → ∃! k : Int, (0 ≤ k ∧ k < 3) ∧ minerOf 3 (11 + k) = j) ∧
    slotOf 10 110 = 11 ∧ minerOf 3 11 = 2 ∧
    GetCurrentDelegate 10 3 110 [sampleAccount 0, sampleAccount 1, sampleAccount 2]
      = some (sampleAccount 2) :=
  GetCurrentDelegate_slot_coverage 3 10 11 (by decide) (by decide) (by decide)
    [sampleAccount 0, sampleAccount 1, sampleAccount 2]



/-! ## Block size during assembly -/

theorem toUInt32_lt (x : Int) : toUInt32 x < 2 ^ 32 := by
  unfold toUInt32
  have h1 : 0 ≤ x % 2 ^ 32 := Int.emod_nonneg _ (by norm_num)
  have h2 : x % 2 ^ 32 < 2 ^ 32 := Int.emod_lt_of_pos _ (by norm_num)
  omega

theorem blockMaxSize_bounds (p : ChainParams) (args : MinerArgs) :
    1000 ≤ blockMaxSize p args ∧ blockMaxSize p args < 2 ^ 32 := by
  unfold blockMaxSize
  have h := toUInt32_lt args.blockmaxsize
  constructor
  · exact le_max_left _ _
  · apply max_lt (by norm_num)
    exact lt_of_le_of_lt (min_le_right _ _) h

theorem wrapInt64_wrapInt64_add (a b : Int) :
    wrapInt64 (wrapInt64 a + b) = wrapInt64 (a + b) := by
  unfold wrapInt64
  have h : ((a + 2 ^ 63) % 2 ^ 64 - 2 ^ 63 + b + 2 ^ 63) % 2 ^ 64 = (a + b + 2 ^ 63) % 2 ^ 64 := by
    have e1 : (a + 2 ^ 63) % 2 ^ 64 - 2 ^ 63 + b + 2 ^ 63 = (a + 2 ^ 63) % 2 ^ 64 + b := by ring
    have e2 : a + b + 2 ^ 63 = a + 2 ^ 63 + b := by ring
    rw [e1, e2, Int.emod_add_emod]
  rw [h]

theorem wrapInt64_of_lt (a : Int) (h0 : 0 ≤ a) (h1 : a < 2 ^ 63) : wrapInt64 a = a := by
  unfold wrapInt64
  rw [Int.emod_eq_of_lt (by omega) (by omega)]
  omega

theorem feeSum_append (l : List CBaseTx) (tx : CBaseTx) :
    feeSum (l ++ [tx]) = feeSum l + tx.GetFee := by
  simp [feeSum, List.map_append, List.sum_append]

theorem runStepSum_append (l : List CBaseTx) (tx : CBaseTx) :
    runStepSum (l ++ [tx]) = runStepSum l + tx.nRunStep := by
  simp [runStepSum, List.map_append, List.sum_append]

theorem fuelSum_append {V S C : Type} (eng : TxEngine V S C) (rate : Int) (l : List CBaseTx)
    (tx : CBaseTx) : fuelSum eng rate (l ++ [tx]) = fuelSum eng rate l + fuelCharge eng tx rate := by
  simp [fuelSum, List.map_append, List.sum_append]

theorem runStepSum_take_le (l : List CBaseTx) (k : Nat) :
    runStepSum (l.take k) ≤ runStepSum l := by
  induction l generalizing k with
  | nil => simp [runStepSum]
  | cons a l ih =>
    cases k with
    | zero => simp [runStepSum]
    | succ k =>
      have := ih k
      simp only [runStepSum, List.take_succ_cons, List.map_cons, List.sum_cons] at this ⊢
      omega

theorem AssembleInv_init {V S C : Type} (p : ChainParams) (eng : TxEngine V S C) (rate : Int)
    (initialBlockSize : Nat) (view : V) (txCache : C) (scriptCache : S) :
    AssembleInv p eng rate (assembleInit p initialBlockSize view txCache scriptCache) [] := by
  refine ⟨rfl, ?_, ?_, ?_, ?_, ?_⟩
  · simp [assembleInit, feeSum, wrapInt64]
  · simp [assembleInit, fuelSum, wrapInt64]
  · simp [assembleInit, runStepSum]
  · intro k h1 h2; simp at h2; omega
  · intro tx htx; simp at htx

theorem AssembleInv_step {V S C : Type} (p : ChainParams) (eng : TxEngine V S C)
    (M m : Nat) (rate h : Int) (st : AssembleState V S C) (entry : TxPriority)
    (body : List CBaseTx) (hinv : AssembleInv p eng rate st body) :
    ∃ body1, AssembleInv p eng rate (assembleStep p eng M m rate h st entry) body1 := by
  obtain ⟨hv, hfee, hfuel, hrun, hpre, hall⟩ := hinv
  unfold assembleStep
  dsimp only
  split_ifs with h1 h2 h3 h4
  · exact ⟨body, hv, hfee, hfuel, hrun, hpre, hall⟩
  · exact ⟨body, hv, hfee, hfuel, hrun, hpre, hall⟩
  · exact ⟨body, hv, hfee, hfuel, hrun, hpre, hall⟩
  · exact ⟨body, hv, hfee, hfuel, hrun, hpre, hall⟩
  · refine ⟨body ++ [(runTx eng entry.tx rate (st.nBlockTx + 1) st.view h st.txCache
      st.scriptCache).1], ?_, ?_, ?_, ?_, ?_, ?_⟩
    · simp only [hv, List.cons_append]
    · simp only [feeSum_append, hfee]
      rw [wrapInt64_wrapInt64_add]; push_cast; rfl
    · simp only [fuelSum_append, hfuel]
      rw [wrapInt64_wrapInt64_add]; push_cast; rfl
    · simp only [runStepSum_append, hrun]
      rw [Nat.mod_add_mod]
    · intro k hk1 hk2
      rw [List.length_append, List.length_singleton] at hk2
      by_cases hk : k ≤ body.length
      · rw [List.take_append_of_le_length hk]
        exact hpre k hk1 hk
      · have hk3 : k = body.length + 1 := by omega
        subst hk3
        rw [List.take_of_length_le (by simp), runStepSum_append]
        simp only [hrun, Nat.mod_add_mod] at h4
        omega
    · intro tx htx
      rcases List.mem_append.mp htx with hm | hm
      · exact hall tx hm
      · rw [List.mem_singleton] at hm
        subst hm
        exact ⟨rfl, Nat.mod_lt _ (by norm_num)⟩

theorem AssembleInv_loop {V S C : Type} (p : ChainParams) (eng : TxEngine V S C)
    (M m : Nat) (rate h : Int) :
    ∀ (l : List TxPriority) (st : AssembleState V S C) (body : List CBaseTx),
      AssembleInv p eng rate st body →
      ∃ body1, AssembleInv p eng rate (assembleLoop p eng M m rate h st l) body1 := by
  intro l
  induction l with
  | nil => intro st body hinv; exact ⟨body, hinv⟩
  | cons e l ih =>
    intro st body hinv
    obtain ⟨b1, hb1⟩ := AssembleInv_step p eng M m rate h st e body hinv
    exact ih _ b1 hb1

/-- What `CreateNewBlock` guarantees about the block it returns: the body is the list of the
included transactions, for which the loop invariant holds, the header carries the fuel total
and the reward transaction the difference of the accumulators, which passed the `assert`. -/
theorem CreateNewBlock_spec {V S C : Type} (p : ChainParams) (eng : TxEngine V S C)
    (args : MinerArgs) (nBlock : Int) (pIndexPrev : List CBlockIndex)
    (vTxPriority : List TxPriority) (initialBlockSize : Nat) (nTime : Int) (view : V)
    (txCache : C) (scriptCache : S) (blk : CBlock)
    (hblk : CreateNewBlock p eng args nBlock pIndexPrev vTxPriority initialBlockSize nTime view
      txCache scriptCache = some blk) :
    ∃ (st : AssembleState V S C),
      AssembleInv p eng blk.nFuelRate st blk.body ∧
      blk.rewardValue = some (st.nFees - st.nTotalFuel) ∧ st.nTotalFuel ≤ st.nFees ∧
      blk.nFuel = st.nTotalFuel := by
  unfold CreateNewBlock at hblk
  cases pIndexPrev with
  | nil => simp at hblk
  | cons tip rest =>
    simp only at hblk
    cases hrate : GetElementForBurn p nBlock (tip :: rest) with
    | none => simp [hrate] at hblk
    | some rate =>
      simp only [hrate] at hblk
      obtain ⟨body, hinv⟩ := AssembleInv_loop p eng (blockMaxSize p args) (blockMinSize p args)
        rate (tip.nHeight + 1) vTxPriority _ []
        (AssembleInv_init p eng rate initialBlockSize view txCache scriptCache)
      split_ifs at hblk with hassert
      have hv := hinv.1
      rw [hv] at hblk
      simp only [Option.some.injEq] at hblk
      subst hblk
      refine ⟨_, ?_, rfl, hassert, rfl⟩
      exact hinv



/-- C4 as amended: for every mempool snapshot and every outcome of transaction execution, the
block `CreateNewBlock` returns has `rewardValue = Σ fee − Σ fuel charge` over body positions
`1..n` at the block's fuel rate, that value is `≥ 0`, and `nFuel` is the same sum of fuel
charges, provided the two sums are below `2^63` (the 64-bit accumulators do not wrap).  Two
transactions of fee 100 and fuel 30 each give reward 140 and fuel 60. -/
theorem CreateNewBlock_reward_conservation {V S C : Type} (p : ChainParams)
    (eng : TxEngine V S C) (args : MinerArgs) (nBlock : Int) (pIndexPrev : List CBlockIndex)
    (vTxPriority : List TxPriority) (initialBlockSize : Nat) (nTime : Int) (view : V)
    (txCache : C) (scriptCache : S) (blk : CBlock)
    (hblk : CreateNewBlock p eng args nBlock pIndexPrev vTxPriority initialBlockSize nTime view
      txCache scriptCache = some blk)
    (hfee : feeSum blk.body < 2 ^ 63) (hfuel : fuelSum eng blk.nFuelRate blk.body < 2 ^ 63) :
    blk.rewardValue
        = some ((feeSum blk.body : Int) - (fuelSum eng blk.nFuelRate blk.body : Int)) ∧
      (0 : Int) ≤ (feeSum blk.body : Int) - (fuelSum eng blk.nFuelRate blk.body : Int) ∧
      blk.nFuel = (fuelSum eng blk.nFuelRate blk.body : Int) ∧
      (CreateNewBlock sampleParams sampleEngine sampleArgs 100 sampleTip payingEntries 120 110
          () () () = some payingBlock ∧
        payingBlock.rewardValue = some 140 ∧ payingBlock.nFuel = 60) := by
  obtain ⟨st, hinv, hrew, hassert, hf⟩ := CreateNewBlock_spec p eng args nBlock pIndexPrev
    vTxPriority initialBlockSize nTime view txCache scriptCache blk hblk
  obtain ⟨_, hfees, hfuels, _, _, _⟩ := hinv
  have e1 : st.nFees = (feeSum blk.body : Int) := by
    rw [hfees]; exact wrapInt64_of_lt _ (by omega) (by exact_mod_cast hfee)
  have e2 : st.nTotalFuel = (fuelSum eng blk.nFuelRate blk.body : Int) := by
    rw [hfuels]; exact wrapInt64_of_lt _ (by omega) (by exact_mod_cast hfuel)
  refine ⟨by rw [hrew, e1, e2], by rw [← e1, ← e2]; omega, by rw [hf, e2], ?_, ?_, ?_⟩
  · set_option maxRecDepth 100000 in decide
  · decide
  · decide

set_option maxRecDepth 100000 in
theorem CreateNewBlock_reward_conservation_witness :
    payingBlock.rewardValue
        = some ((feeSum payingBlock.body : Int)
          - (fuelSum sampleEngine payingBlock.nFuelRate payingBlock.body : Int)) ∧
      (0 : Int) ≤ (feeSum payingBlock.body : Int)
          - (fuelSum sampleEngine payingBlock.nFuelRate payingBlock.body : Int) ∧
      payingBlock.nFuel = (fuelSum sampleEngine payingBlock.nFuelRate payingBlock.body : Int) ∧
      (CreateNewBlock sampleParams sampleEngine sampleArgs 100 sampleTip payingEntries 120 110
          () () () = some payingBlock ∧
        payingBlock.rewardValue = some 140 ∧ payingBlock.nFuel = 60) :=
  CreateNewBlock_reward_conservation sampleParams sampleEngine sampleArgs 100 sampleTip
    payingEntries 120 110 () () () payingBlock (by decide) (by decide) (by decide)

set_option maxRecDepth 100000 in
/-- C4 as stated fails when a 64-bit accumulator wraps: four transactions with fee `2^62` each
and no fuel charge are all included, `nFees` wraps to 0, the `assert` passes, and the block
carries `rewardValue = 0` although the fees sum to `2^64`. -/
theorem CreateNewBlock_reward_wraps :
    CreateNewBlock sampleParams sampleEngine sampleArgs 100 sampleTip hugeFeeEntries 120 110
        () () () = some hugeFeeBlock ∧
      hugeFeeBlock.rewardValue = some 0 ∧
      (feeSum hugeFeeBlock.body : Int)
          - (fuelSum sampleEngine hugeFeeBlock.nFuelRate hugeFeeBlock.body : Int) = 2 ^ 64 ∧
      hugeFeeBlock.rewardValue
        ≠ some ((feeSum hugeFeeBlock.body : Int)
          - (fuelSum sampleEngine hugeFeeBlock.nFuelRate hugeFeeBlock.body : Int)) := by
  refine ⟨by decide, by decide, by decide, by decide⟩



theorem assembleStep_run_step_skip {V S C : Type} (p : ChainParams) (eng : TxEngine V S C)
    (M m : Nat) (rate h : Int) (st : AssembleState V S C) (entry : TxPriority)
    (hskip : (st.nTotalRunStep + (runTx eng entry.tx rate (st.nBlockTx + 1) st.view h st.txCache
      st.scriptCache).1.nRunStep) % 2 ^ 64 ≥ p.MAX_BLOCK_RUN_STEP) :
    (assembleStep p eng M m rate h st entry).vptx = st.vptx ∧
      (assembleStep p eng M m rate h st entry).nTotalRunStep = st.nTotalRunStep := by
  unfold assembleStep
  dsimp only
  split_ifs <;> exact ⟨rfl, rfl⟩

/-- C5: for every block `CreateNewBlock` assembles, with `MAX_BLOCK_RUN_STEP > 0` and no
64-bit wrap (the run steps of the included transactions sum to less than `2^64`), the sum of
`nRunStep` over the included transactions is at most `MAX_BLOCK_RUN_STEP` (I2) and the
running total after every inclusion is strictly below it; a pending transaction whose run
step brings the total to `MAX_BLOCK_RUN_STEP` or above is skipped. -/
theorem CreateNewBlock_run_steps_below_ceiling {V S C : Type} (p : ChainParams)
    (eng : TxEngine V S C) (args : MinerArgs) (nBlock : Int) (pIndexPrev : List CBlockIndex)
    (vTxPriority : List TxPriority) (initialBlockSize : Nat) (nTime : Int) (view : V)
    (txCache : C) (scriptCache : S) (blk : CBlock)
    (hblk : CreateNewBlock p eng args nBlock pIndexPrev vTxPriority initialBlockSize nTime view
      txCache scriptCache = some blk)
    (hmax : 0 < p.MAX_BLOCK_RUN_STEP) (hnowrap : runStepSum blk.body < 2 ^ 64) :
    runStepSum blk.body ≤ p.MAX_BLOCK_RUN_STEP ∧
      (∀ k, k ≤ blk.body.length → runStepSum (blk.body.take k) < p.MAX_BLOCK_RUN_STEP) ∧
      (∀ (st : AssembleState V S C) (entry : TxPriority) (M m : Nat) (h : Int),
        (st.nTotalRunStep + (runTx eng entry.tx blk.nFuelRate (st.nBlockTx + 1) st.view h
          st.txCache st.scriptCache).1.nRunStep) % 2 ^ 64 ≥ p.MAX_BLOCK_RUN_STEP →
        (assembleStep p eng M m blk.nFuelRate h st entry).vptx = st.vptx ∧
          (assembleStep p eng M m blk.nFuelRate h st entry).nTotalRunStep
            = st.nTotalRunStep) := by
  obtain ⟨st, hinv, _, _, _⟩ := CreateNewBlock_spec p eng args nBlock pIndexPrev
    vTxPriority initialBlockSize nTime view txCache scriptCache blk hblk
  obtain ⟨_, _, _, _, hpre, _⟩ := hinv
  have hpref : ∀ k, k ≤ blk.body.length →
      runStepSum (blk.body.take k) < p.MAX_BLOCK_RUN_STEP := by
    intro k hk
    cases k with
    | zero => simpa [runStepSum] using hmax
    | succ k =>
      have h1 := hpre (k + 1) (by omega) hk
      have h2 := runStepSum_take_le blk.body (k + 1)
      rwa [Nat.mod_eq_of_lt (by omega)] at h1
  refine ⟨?_, hpref, fun st entry M m h hskip =>
    assembleStep_run_step_skip p eng M m blk.nFuelRate h st entry hskip⟩
  have := hpref blk.body.length (le_refl _)
  rw [List.take_length] at this
  omega

set_option maxRecDepth 100000 in
theorem CreateNewBlock_run_steps_below_ceiling_witness :
    runStepSum payingBlock.body ≤ sampleParams.MAX_BLOCK_RUN_STEP ∧
      (∀ k, k ≤ payingBlock.body.length →
        runStepSum (payingBlock.body.take k) < sampleParams.MAX_BLOCK_RUN_STEP) ∧
      (∀ (st : AssembleState Unit Unit Unit) (entry : TxPriority) (M m : Nat) (h : Int),
        (st.nTotalRunStep + (runTx sampleEngine entry.tx payingBlock.nFuelRate (st.nBlockTx + 1)
          st.view h st.txCache st.scriptCache).1.nRunStep) % 2 ^ 64
            ≥ sampleParams.MAX_BLOCK_RUN_STEP →
        (assembleStep sampleParams sampleEngine M m payingBlock.nFuelRate h st entry).vptx
            = st.vptx ∧
          (assembleStep sampleParams sampleEngine M m payingBlock.nFuelRate h st
            entry).nTotalRunStep = st.nTotalRunStep) :=
  CreateNewBlock_run_steps_below_ceiling sampleParams sampleEngine sampleArgs 100 sampleTip
    payingEntries 120 110 () () () payingBlock (by decide) (by decide) (by decide)

/-! ## Producer and verifier agree on the execution checks -/

theorem runTx_fst_eq_self {V S C : Type} (eng : TxEngine V S C) (tx : CBaseTx) (rate : Int)
    (i : Nat) (v : V) (h : Int) (c : C) (s : S) (hrate : tx.nFuelRate = rate)
    (hstep : (eng.ExecuteTx tx i v h c s).nRunStep % 2 ^ 64 = tx.nRunStep) :
    (runTx eng tx rate i v h c s).1 = tx := by
  have e1 : ({ tx with nFuelRate := rate } : CBaseTx) = tx := by
    cases tx; simp only at hrate; subst hrate; rfl
  unfold runTx
  simp only [e1, hstep]

theorem verifyTxLoop_parity {V S C : Type} (p : ChainParams) (engV : TxEngine V S C)
    (pBlock : CBlock) :
    ∀ (l : List CBaseTx) (done : List CBaseTx) (i : Nat) (v : V) (c : C) (s : S) (F : Int)
      (R : Nat),
      (∀ tx ∈ l, tx.nFuelRate = pBlock.nFuelRate) →
      (∀ tx ∈ l, ∀ (i : Nat) (v : V) (c : C) (s : S),
        (engV.ExecuteTx tx i v pBlock.nHeight c s).nRunStep % 2 ^ 64 = tx.nRunStep) →
      R = runStepSum done % 2 ^ 64 →
      F = wrapInt64 (fuelSum engV pBlock.nFuelRate done) →
      (∀ k, 1 ≤ k → k ≤ (done ++ l).length →
        runStepSum ((done ++ l).take k) % 2 ^ 64 ≤ p.MAX_BLOCK_RUN_STEP) →
      wrapInt64 (fuelSum engV pBlock.nFuelRate (done ++ l)) = pBlock.nFuel →
      verifyTxLoop p engV pBlock l i v c s F R ≠ Verdict.runStepExceeded ∧
        verifyTxLoop p engV pBlock l i v c s F R ≠ Verdict.fuelMismatch := by
  intro l
  induction l with
  | nil =>
    intro done i v c s F R _ _ _ hF _ hfuel
    rw [List.append_nil] at hfuel
    have : F = pBlock.nFuel := by rw [hF, hfuel]
    simp [verifyTxLoop, this]
  | cons tx rest ih =>
    intro done i v c s F R hrate hstep hR hF hpre hfuel
    have htx := runTx_fst_eq_self engV tx pBlock.nFuelRate i v pBlock.nHeight c s
      (hrate tx (List.mem_cons_self _ _)) (hstep tx (List.mem_cons_self _ _) i v c s)
    have happ : done ++ tx :: rest = (done ++ [tx]) ++ rest := by simp
    have hR1 : (R + tx.nRunStep) % 2 ^ 64 = runStepSum (done ++ [tx]) % 2 ^ 64 := by
      rw [hR, runStepSum_append, Nat.mod_add_mod]
    have hle : (R + tx.nRunStep) % 2 ^ 64 ≤ p.MAX_BLOCK_RUN_STEP := by
      have := hpre (done.length + 1) (by omega) (by simp)
      rw [happ, List.take_append_of_le_length (by simp),
        List.take_of_length_le (by simp)] at this
      rw [hR1]; exact this
    have hF1 : wrapInt64 (F + (fuelCharge engV tx pBlock.nFuelRate : Int))
        = wrapInt64 (fuelSum engV pBlock.nFuelRate (done ++ [tx])) := by
      rw [hF, wrapInt64_wrapInt64_add, fuelSum_append]; push_cast; rfl
    have hrec := ih (done ++ [tx]) (i + 1)
      (runTx engV tx pBlock.nFuelRate i v pBlock.nHeight c s).2.view
      (runTx engV tx pBlock.nFuelRate i v pBlock.nHeight c s).2.txCache
      (runTx engV tx pBlock.nFuelRate i v pBlock.nHeight c s).2.scriptCache
      (wrapInt64 (F + (fuelCharge engV tx pBlock.nFuelRate : Int)))
      ((R + tx.nRunStep) % 2 ^ 64)
      (fun t ht => hrate t (List.mem_cons_of_mem _ ht))
      (fun t ht => hstep t (List.mem_cons_of_mem _ ht))
      hR1 hF1 (by rw [← happ]; exact hpre) (by rw [← happ]; exact hfuel)
    unfold verifyTxLoop
    dsimp only
    rw [htx]
    split_ifs with h1 h2 h3
    · simp
    · simp
    · omega
    · exact hrec



theorem VerifyPosTx_tx_pass {V S C σ : Type} (p : ChainParams) (hw : HashWriter σ)
    (eng : TxEngine V S C) (env : VerifierEnv V S) (pBlock : CBlock) (accView : V)
    (txCache : C) (scriptCache : S) (bNeedRunTx : Bool) (v : Verdict)
    (h : VerifyPosTx p hw eng env pBlock accView txCache scriptCache bNeedRunTx = some v)
    (hv : v = Verdict.duplicateTx ∨ v = Verdict.executeFailed ∨ v = Verdict.runStepExceeded ∨
      v = Verdict.fuelMismatch) :
    bNeedRunTx = true ∧
      v = verifyTxLoop p eng pBlock pBlock.body 1 accView txCache scriptCache 0 0 := by
  unfold VerifyPosTx at h
  repeat' split at h
  all_goals first
    | (simp only [Option.some.injEq] at h; subst h; simp at hv)
    | (simp at h; done)
    | (rename_i hvptx _ _ _ _ _ _ _ hb
       simp only [Option.some.injEq] at h
       refine ⟨hb, ?_⟩
       simp only [CBlock.body, hvptx, List.tail_cons]
       exact h.symm)



/-- C9: for every block `CreateNewBlock` assembles, when the verifier's transaction pass walks
`body[1..]` in order and every transaction reports the run step and the fuel charge it had
during assembly, the pass ends neither with "block total run steps exceed max run step" nor
with "fuel value at block header calculate error"; the same holds for `VerifyPosTx` on any
block that carries the assembled body, height, fuel and fuel rate. -/
theorem VerifyPosTx_parity_with_CreateNewBlock {V S C V2 S2 C2 σ : Type} (p : ChainParams)
    (eng : TxEngine V S C) (args : MinerArgs) (nBlock : Int) (pIndexPrev : List CBlockIndex)
    (vTxPriority : List TxPriority) (initialBlockSize : Nat) (nTime : Int) (view : V)
    (txCache : C) (scriptCache : S) (blk : CBlock)
    (hblk : CreateNewBlock p eng args nBlock pIndexPrev vTxPriority initialBlockSize nTime view
      txCache scriptCache = some blk)
    (engV : TxEngine V2 S2 C2)
    (hstep : ∀ tx ∈ blk.body, ∀ (i : Nat) (v : V2) (c : C2) (s : S2),
      (engV.ExecuteTx tx i v blk.nHeight c s).nRunStep % 2 ^ 64 = tx.nRunStep)
    (hfuel : ∀ tx ∈ blk.body,
      fuelCharge engV tx blk.nFuelRate = fuelCharge eng tx blk.nFuelRate) :
    (∀ (v : V2) (c : C2) (s : S2),
      verifyTxLoop p engV blk blk.body 1 v c s 0 0 ≠ Verdict.runStepExceeded ∧
        verifyTxLoop p engV blk blk.body 1 v c s 0 0 ≠ Verdict.fuelMismatch) ∧
    (∀ (hw : HashWriter σ) (env : VerifierEnv V2 S2) (pBlock : CBlock) (v : V2) (c : C2)
        (s : S2) (bNeedRunTx : Bool),
      pBlock.body = blk.body → pBlock.nHeight = blk.nHeight → pBlock.nFuel = blk.nFuel →
      pBlock.nFuelRate = blk.nFuelRate →
      VerifyPosTx p hw engV env pBlock v c s bNeedRunTx ≠ some Verdict.runStepExceeded ∧
        VerifyPosTx p hw engV env pBlock v c s bNeedRunTx ≠ some Verdict.fuelMismatch) := by
  obtain ⟨st, hinv, _, _, hf⟩ := CreateNewBlock_spec p eng args nBlock pIndexPrev
    vTxPriority initialBlockSize nTime view txCache scriptCache blk hblk
  obtain ⟨_, _, hfuels, _, hpre, hall⟩ := hinv
  have hsum : fuelSum engV blk.nFuelRate blk.body = fuelSum eng blk.nFuelRate blk.body := by
    unfold fuelSum
    congr 1
    exact List.map_congr_left hfuel
  have key : ∀ (pBlock : CBlock) (v : V2) (c : C2) (s : S2),
      pBlock.body = blk.body → pBlock.nHeight = blk.nHeight → pBlock.nFuel = blk.nFuel →
      pBlock.nFuelRate = blk.nFuelRate →
      verifyTxLoop p engV pBlock pBlock.body 1 v c s 0 0 ≠ Verdict.runStepExceeded ∧
        verifyTxLoop p engV pBlock pBlock.body 1 v c s 0 0 ≠ Verdict.fuelMismatch := by
    intro pBlock v c s hb hh hfu hr
    apply verifyTxLoop_parity p engV pBlock pBlock.body [] 1 v c s 0 0
    · intro tx htx; rw [hb] at htx; rw [hr]; exact (hall tx htx).1
    · intro tx htx i v c s; rw [hb] at htx; rw [hh]; exact hstep tx htx i v c s
    · simp [runStepSum]
    · simp [fuelSum, wrapInt64]
    · intro k hk1 hk2
      rw [List.nil_append, hb] at hk2 ⊢
      exact le_of_lt (hpre k hk1 hk2)
    · rw [List.nil_append, hb, hr, hsum, hfu, hf, hfuels]
  refine ⟨fun v c s => key blk v c s rfl rfl rfl rfl, ?_⟩
  intro hw env pBlock v c s bNeedRunTx hb hh hfu hr
  have hk := key pBlock v c s hb hh hfu hr
  constructor
  · intro hcontra
    have := (VerifyPosTx_tx_pass p hw engV env pBlock v c s bNeedRunTx _ hcontra
      (Or.inr (Or.inr (Or.inl rfl)))).2
    exact hk.1 this.symm
  · intro hcontra
    have := (VerifyPosTx_tx_pass p hw engV env pBlock v c s bNeedRunTx _ hcontra
      (Or.inr (Or.inr (Or.inr rfl)))).2
    exact hk.2 this.symm

set_option maxRecDepth 100000 in
theorem VerifyPosTx_parity_with_CreateNewBlock_witness :
    (∀ (v : Unit) (c : Unit) (s : Unit),
      verifyTxLoop sampleParams sampleEngine payingBlock payingBlock.body 1 v c s 0 0
          ≠ Verdict.runStepExceeded ∧
        verifyTxLoop sampleParams sampleEngine payingBlock payingBlock.body 1 v c s 0 0
          ≠ Verdict.fuelMismatch) ∧
    (∀ (hw : HashWriter Nat) (env : VerifierEnv Unit Unit) (pBlock : CBlock) (v : Unit)
        (c : Unit) (s : Unit) (bNeedRunTx : Bool),
      pBlock.body = payingBlock.body → pBlock.nHeight = payingBlock.nHeight →
      pBlock.nFuel = payingBlock.nFuel → pBlock.nFuelRate = payingBlock.nFuelRate →
      VerifyPosTx sampleParams hw sampleEngine env pBlock v c s bNeedRunTx
          ≠ some Verdict.runStepExceeded ∧
        VerifyPosTx sampleParams hw sampleEngine env pBlock v c s bNeedRunTx
          ≠ some Verdict.fuelMismatch) :=
  VerifyPosTx_parity_with_CreateNewBlock sampleParams sampleEngine sampleArgs 100 sampleTip
    payingEntries 120 110 () () () payingBlock (by decide) sampleEngine
    (by
      intro tx htx i v c s
      simp only [payingBlock, CBlock.body, List.tail_cons, List.mem_cons, List.mem_singleton,
        List.not_mem_nil, or_false] at htx
      rcases htx with rfl | rfl <;> rfl)
    (by decide)



/-! ## Same-slot exclusion in the verifier -/

/-- C7 as amended: `VerifyPosTx` rejects every block whose previous block is not the genesis
block, whose producer (the slot's expected delegate) has the `regID` of the previous block's
producer and whose time is less than `BLOCK_INTERVAL` after the previous block's time; when
the nonce and the Merkle root pass, the rejection is the same-slot one. -/
theorem VerifyPosTx_rejects_same_slot_producer {V S C σ : Type} (p : ChainParams)
    (hw : HashWriter σ) (eng : TxEngine V S C) (env : VerifierEnv V S) (pBlock : CBlock)
    (accView : V) (txCache : C) (scriptCache : S) (bNeedRunTx : Bool)
    (vLoaded vShuffled : List CAccount) (curDelegate preDelegate : CAccount)
    (preBlock : CBlock) (preBlockRewardTx : CBaseTx) (preRest : List CBaseTx)
    (hload : env.GetDelegatesAcctList accView scriptCache = some vLoaded)
    (hshuffle : ShuffleDelegates hw p.TotalDelegateNum pBlock.nHeight vLoaded = some vShuffled)
    (hcur : GetCurrentDelegate p.BlockInterval p.TotalDelegateNum pBlock.nTime vShuffled
      = some curDelegate)
    (hgenesis : pBlock.hashPrevBlock ≠ p.GenesisBlockHash)
    (hprev : env.ReadBlockFromDisk pBlock.hashPrevBlock = some preBlock)
    (hpre : preBlock.vptx = preBlockRewardTx :: preRest)
    (hacc : eng.GetAccount accView preBlockRewardTx.txUid = some preDelegate)
    (hsame : preDelegate.regID = curDelegate.regID)
    (htime : pBlock.nTime - preBlock.nTime < p.BlockInterval) :
    ∃ v, VerifyPosTx p hw eng env pBlock accView txCache scriptCache bNeedRunTx = some v ∧
      v.toBool = false ∧
      (¬ pBlock.nNonce > p.BlockMaxNonce → pBlock.hashMerkleRoot = env.BuildMerkleTree pBlock →
        v = Verdict.sameSlotDelegate) := by
  unfold VerifyPosTx
  simp only [hload, hshuffle, hcur]
  by_cases hn : pBlock.nNonce > p.BlockMaxNonce
  · exact ⟨Verdict.nonceTooLarge, by simp [hn], rfl, fun h => absurd hn h⟩
  · by_cases hm : pBlock.hashMerkleRoot = env.BuildMerkleTree pBlock
    · refine ⟨Verdict.sameSlotDelegate, ?_, rfl, fun _ _ => rfl⟩
      simp [hn, hm, hgenesis, hprev, hpre, hacc, hsame, htime]
    · exact ⟨Verdict.wrongMerkleRoot, by simp [hn, hm], rfl, fun _ h => absurd h hm⟩

set_option maxRecDepth 100000 in
theorem VerifyPosTx_rejects_same_slot_producer_witness :
    ∃ v, VerifyPosTx sampleParams toyHashWriter sampleEngine (sampleVerifierEnv ⟨1, 0⟩)
        (signedBlock 909 10 ⟨1, 0⟩ 200) () () () true = some v ∧
      v.toBool = false ∧
      (¬ (signedBlock 909 10 ⟨1, 0⟩ 200).nNonce > sampleParams.BlockMaxNonce →
        (signedBlock 909 10 ⟨1, 0⟩ 200).hashMerkleRoot
          = (sampleVerifierEnv ⟨1, 0⟩).BuildMerkleTree (signedBlock 909 10 ⟨1, 0⟩ 200) →
        v = Verdict.sameSlotDelegate) :=
  VerifyPosTx_rejects_same_slot_producer sampleParams toyHashWriter sampleEngine
    (sampleVerifierEnv ⟨1, 0⟩) (signedBlock 909 10 ⟨1, 0⟩ 200) () () () true
    [sampleAccount 0, sampleAccount 1, sampleAccount 2]
    [sampleAccount 1, sampleAccount 2, sampleAccount 0] (sampleAccount 0) (sampleAccount 0)
    { hashPrevBlock := 0, hashMerkleRoot := 0, nTime := 105, nNonce := 0, nHeight := 9,
      nFuel := 0, nFuelRate := 100, vSignature := [],
      vptx := [{ emptyRewardTx sampleParams with txUid := ⟨1, 0⟩ }] }
    { emptyRewardTx sampleParams with txUid := ⟨1, 0⟩ } []
    (by decide) (by decide) (by decide) (by decide) (by decide) (by decide) (by decide)
    (by decide) (by decide)

set_option maxRecDepth 100000 in
/-- C7 as stated fails for a block whose previous block is the genesis block: the block at
time 112 is produced by the slot's expected delegate, the stored genesis block at time 105
names the same producer, `112 - 105 < 10`, and `VerifyPosTx` accepts, because the same-slot
check is guarded by `GetPrevBlockHash() != GetGenesisBlockHash()`. -/
theorem VerifyPosTx_accepts_same_slot_after_genesis :
    (sampleVerifierEnv ⟨1, 0⟩).GetDelegatesAcctList () ()
        = some [sampleAccount 0, sampleAccount 1, sampleAccount 2] ∧
      ShuffleDelegates toyHashWriter sampleParams.TotalDelegateNum
          (signedBlock 0 1 ⟨1, 0⟩ 200).nHeight [sampleAccount 0, sampleAccount 1, sampleAccount 2]
        = some [sampleAccount 1, sampleAccount 2, sampleAccount 0] ∧
      GetCurrentDelegate sampleParams.BlockInterval sampleParams.TotalDelegateNum
          (signedBlock 0 1 ⟨1, 0⟩ 200).nTime [sampleAccount 1, sampleAccount 2, sampleAccount 0]
        = some (sampleAccount 0) ∧
      ((sampleVerifierEnv ⟨1, 0⟩).ReadBlockFromDisk
          (signedBlock 0 1 ⟨1, 0⟩ 200).hashPrevBlock).map
          (fun b => (b.nTime, b.vptx.map (fun tx => sampleEngine.GetAccount () tx.txUid)))
        = some (105, [some (sampleAccount 0)]) ∧
      (signedBlock 0 1 ⟨1, 0⟩ 200).nTime - 105 < sampleParams.BlockInterval ∧
      VerifyPosTx sampleParams toyHashWriter sampleEngine (sampleVerifierEnv ⟨1, 0⟩)
        (signedBlock 0 1 ⟨1, 0⟩ 200) () () () true = some Verdict.accepted := by
  refine ⟨by decide, by decide, by decide, by decide, by decide, by decide⟩



/-! ## The verifier's transaction pass -/

theorem runStepSum_cons (tx : CBaseTx) (l : List CBaseTx) :
    runStepSum (tx :: l) = tx.nRunStep + runStepSum l := by
  simp [runStepSum]

theorem fuelSum_cons {V S C : Type} (eng : TxEngine V S C) (rate : Int) (tx : CBaseTx)
    (l : List CBaseTx) :
    fuelSum eng rate (tx :: l) = fuelCharge eng tx rate + fuelSum eng rate l := by
  simp [fuelSum]

theorem wrapInt64_range (a : Int) : -2 ^ 63 ≤ wrapInt64 a ∧ wrapInt64 a < 2 ^ 63 := by
  unfold wrapInt64
  have h1 : 0 ≤ (a + 2 ^ 63) % 2 ^ 64 := Int.emod_nonneg _ (by norm_num)
  have h2 : (a + 2 ^ 63) % 2 ^ 64 < 2 ^ 64 := Int.emod_lt_of_pos _ (by norm_num)
  constructor <;> omega

theorem wrapInt64_of_range (a : Int) (h : -2 ^ 63 ≤ a ∧ a < 2 ^ 63) : wrapInt64 a = a := by
  unfold wrapInt64
  rw [Int.emod_eq_of_lt (by omega) (by omega)]
  omega

/-- The transaction pass accepts exactly when, over the replayed body, no transaction was in
the cache, every execution succeeded, every running total of run steps (modulo `2^64`) is at
most the ceiling, and the fuel total (as an `int64_t`) equals the header's fuel. -/
theorem verifyTxLoop_accepted_iff {V S C : Type} (p : ChainParams) (eng : TxEngine V S C)
    (pBlock : CBlock) :
    ∀ (l : List CBaseTx) (i : Nat) (v : V) (c : C) (s : S) (F : Int) (R : Nat),
      (-2 ^ 63 ≤ F ∧ F < 2 ^ 63) →
      (verifyTxLoop p eng pBlock l i v c s F R = Verdict.accepted ↔
        (∀ x ∈ replayBody eng pBlock l i v c s, x.inCache = false ∧ x.ok = true) ∧
        (∀ k, 1 ≤ k → k ≤ l.length →
          (R + runStepSum ((executedTxs (replayBody eng pBlock l i v c s)).take k)) % 2 ^ 64
            ≤ p.MAX_BLOCK_RUN_STEP) ∧
        wrapInt64 (F + (fuelSum eng pBlock.nFuelRate
          (executedTxs (replayBody eng pBlock l i v c s)) : Nat)) = pBlock.nFuel) := by
  intro l
  induction l with
  | nil =>
    intro i v c s F R hF
    have hw : wrapInt64 (F + ((0 : Nat) : Int)) = F := by
      simpa using wrapInt64_of_range F hF
    simp only [verifyTxLoop, replayBody, executedTxs, List.map_nil, fuelSum, List.sum_nil,
      List.not_mem_nil, false_implies, implies_true, true_and, List.length_nil, hw]
    constructor
    · intro h
      split_ifs at h with h1
      refine ⟨fun k hk1 hk2 => by omega, by simpa using h1⟩
    · rintro ⟨_, h⟩
      simp [h]
  | cons tx rest ih =>
    intro i v c s F R hF
    have hrec := ih (i + 1) (runTx eng tx pBlock.nFuelRate i v pBlock.nHeight c s).2.view
      (runTx eng tx pBlock.nFuelRate i v pBlock.nHeight c s).2.txCache
      (runTx eng tx pBlock.nFuelRate i v pBlock.nHeight c s).2.scriptCache
      (wrapInt64 (F + (fuelCharge eng (runTx eng tx pBlock.nFuelRate i v pBlock.nHeight c s).1
        pBlock.nFuelRate : Int)))
      ((R + (runTx eng tx pBlock.nFuelRate i v pBlock.nHeight c s).1.nRunStep) % 2 ^ 64)
      (wrapInt64_range _)
    unfold verifyTxLoop replayBody
    dsimp only
    generalize hx : runTx eng tx pBlock.nFuelRate i v pBlock.nHeight c s = x at hrec ⊢
    simp only [executedTxs, List.map_cons, List.mem_cons, forall_eq_or_imp,
      List.length_cons, fuelSum_cons] at hrec ⊢
    have hfuelEq : wrapInt64 (wrapInt64 (F + (fuelCharge eng x.1 pBlock.nFuelRate : Int))
          + ((fuelSum eng pBlock.nFuelRate
            (List.map (fun x => x.tx)
              (replayBody eng pBlock rest (i + 1) x.2.view x.2.txCache x.2.scriptCache)) : Nat)
              : Int))
        = wrapInt64 (F + ((fuelCharge eng x.1 pBlock.nFuelRate + fuelSum eng pBlock.nFuelRate
            (List.map (fun x => x.tx)
              (replayBody eng pBlock rest (i + 1) x.2.view x.2.txCache x.2.scriptCache)) : Nat)
              : Int)) := by
      rw [wrapInt64_wrapInt64_add]; push_cast; rw [Int.add_assoc]
    rw [hfuelEq] at hrec
    have hstepEq : ∀ k, ((R + x.1.nRunStep) % 2 ^ 64 + runStepSum (List.take k
          (List.map (fun x => x.tx)
            (replayBody eng pBlock rest (i + 1) x.2.view x.2.txCache x.2.scriptCache))))
          % 2 ^ 64
        = (R + runStepSum (List.take (k + 1) (x.1 :: List.map (fun x => x.tx)
            (replayBody eng pBlock rest (i + 1) x.2.view x.2.txCache x.2.scriptCache))))
          % 2 ^ 64 := by
      intro k
      rw [List.take_succ_cons, runStepSum_cons, Nat.mod_add_mod, Nat.add_assoc]
    by_cases h1 : eng.HaveTx c tx.hash = true
    · simp [h1]
    · by_cases h2 : x.2.ok = false
      · simp [h1, h2]
      · by_cases h3 : (R + x.1.nRunStep) % 2 ^ 64 > p.MAX_BLOCK_RUN_STEP
        · rw [if_neg h1, if_neg h2, if_pos h3]
          constructor
          · intro h; cases h
          · rintro ⟨_, hk, _⟩
            have := hk 1 (le_refl _) (by omega)
            rw [List.take_succ_cons, List.take_zero, runStepSum_cons] at this
            simp only [runStepSum, List.map_nil, List.sum_nil, Nat.add_zero] at this
            omega
        · have hb1 : eng.HaveTx c tx.hash = false := by simpa using h1
          have hb2 : x.2.ok = true := by simpa using h2
          rw [if_neg h1, if_neg h2, if_neg h3, hrec]
          constructor
          · rintro ⟨ha, hk, hfu⟩
            refine ⟨⟨⟨hb1, hb2⟩, ha⟩, ?_, hfu⟩
            intro k hk1 hk2
            cases k with
            | zero => omega
            | succ k =>
              cases k with
              | zero =>
                rw [List.take_succ_cons, List.take_zero, runStepSum_cons]
                simp only [runStepSum, List.map_nil, List.sum_nil, Nat.add_zero]
                omega
              | succ k =>
                rw [← hstepEq (k + 1)]
                exact hk (k + 1) (by omega) (by omega)
          · rintro ⟨⟨_, ha⟩, hk, hfu⟩
            refine ⟨ha, ?_, hfu⟩
            intro k hk1 hk2
            rw [hstepEq k]
            exact hk (k + 1) (by omega) (by omega)



theorem VerifyPosTx_accepted_run {V S C σ : Type} (p : ChainParams) (hw : HashWriter σ)
    (eng : TxEngine V S C) (env : VerifierEnv V S) (pBlock : CBlock) (accView : V)
    (txCache : C) (scriptCache : S)
    (h : VerifyPosTx p hw eng env pBlock accView txCache scriptCache true
      = some Verdict.accepted) :
    verifyTxLoop p eng pBlock pBlock.body 1 accView txCache scriptCache 0 0
      = Verdict.accepted := by
  unfold VerifyPosTx at h
  repeat' split at h
  all_goals first
    | (simp at h; done)
    | (rename_i hb; exact absurd rfl hb)
    | (rename_i hvptx _ _ _ _ _ _ _ hb
       simp only [Option.some.injEq] at h
       simp only [CBlock.body, hvptx, List.tail_cons]
       exact h)

/-- C8 as amended: for every block that `VerifyPosTx` accepts with `bNeedRunTx = true`, provided
the run steps of the body sum to less than `2^64` and its fuel charges to less than `2^63`
(no 64-bit wrap), `nFuel` equals the sum over `body[1..]` of the fuel charges at the block's
fuel rate (I1), the cumulative run step after every transaction is at most
`MAX_BLOCK_RUN_STEP`, every transaction executed successfully and none was in `txCache`; and
when one of these fails the verifier returns `false`. -/
theorem VerifyPosTx_accept_implies_tx_checks {V S C σ : Type} (p : ChainParams)
    (hw : HashWriter σ) (eng : TxEngine V S C) (env : VerifierEnv V S) (pBlock : CBlock)
    (accView : V) (txCache : C) (scriptCache : S) (v : Verdict)
    (hv : VerifyPosTx p hw eng env pBlock accView txCache scriptCache true = some v)
    (hrun : runStepSum (executedTxs
      (replayBody eng pBlock pBlock.body 1 accView txCache scriptCache)) < 2 ^ 64)
    (hfuel : fuelSum eng pBlock.nFuelRate (executedTxs
      (replayBody eng pBlock pBlock.body 1 accView txCache scriptCache)) < 2 ^ 63) :
    (v.toBool = true →
      pBlock.nFuel = (fuelSum eng pBlock.nFuelRate (executedTxs
        (replayBody eng pBlock pBlock.body 1 accView txCache scriptCache)) : Nat) ∧
      (∀ k, k ≤ pBlock.body.length →
        runStepSum ((executedTxs
          (replayBody eng pBlock pBlock.body 1 accView txCache scriptCache)).take k)
          ≤ p.MAX_BLOCK_RUN_STEP) ∧
      (∀ x ∈ replayBody eng pBlock pBlock.body 1 accView txCache scriptCache, x.ok = true) ∧
      (∀ x ∈ replayBody eng pBlock pBlock.body 1 accView txCache scriptCache,
        x.inCache = false)) ∧
    (¬ (pBlock.nFuel = (fuelSum eng pBlock.nFuelRate (executedTxs
        (replayBody eng pBlock pBlock.body 1 accView txCache scriptCache)) : Nat) ∧
      (∀ k, k ≤ pBlock.body.length →
        runStepSum ((executedTxs
          (replayBody eng pBlock pBlock.body 1 accView txCache scriptCache)).take k)
          ≤ p.MAX_BLOCK_RUN_STEP) ∧
      (∀ x ∈ replayBody eng pBlock pBlock.body 1 accView txCache scriptCache, x.ok = true) ∧
      (∀ x ∈ replayBody eng pBlock pBlock.body 1 accView txCache scriptCache,
        x.inCache = false)) → v.toBool = false) := by
  have main : v.toBool = true →
      pBlock.nFuel = (fuelSum eng pBlock.nFuelRate (executedTxs
        (replayBody eng pBlock pBlock.body 1 accView txCache scriptCache)) : Nat) ∧
      (∀ k, k ≤ pBlock.body.length →
        runStepSum ((executedTxs
          (replayBody eng pBlock pBlock.body 1 accView txCache scriptCache)).take k)
          ≤ p.MAX_BLOCK_RUN_STEP) ∧
      (∀ x ∈ replayBody eng pBlock pBlock.body 1 accView txCache scriptCache, x.ok = true) ∧
      (∀ x ∈ replayBody eng pBlock pBlock.body 1 accView txCache scriptCache,
        x.inCache = false) := by
    intro hok
    have hacc : v = Verdict.accepted := by
      cases v <;> simp [Verdict.toBool] at hok ⊢
    subst hacc
    have hloop := VerifyPosTx_accepted_run p hw eng env pBlock accView txCache scriptCache hv
    rw [verifyTxLoop_accepted_iff p eng pBlock pBlock.body 1 accView txCache scriptCache 0 0
      (by norm_num)] at hloop
    obtain ⟨hall, hk, hfu⟩ := hloop
    refine ⟨?_, ?_, fun x hx => (hall x hx).2, fun x hx => (hall x hx).1⟩
    · have e := wrapInt64_of_lt ((fuelSum eng pBlock.nFuelRate (executedTxs
        (replayBody eng pBlock pBlock.body 1 accView txCache scriptCache)) : Nat) : Int)
        (Int.natCast_nonneg _) (by exact_mod_cast hfuel)
      rw [Int.zero_add, e] at hfu
      exact hfu.symm
    · intro k hk2
      cases k with
      | zero => simp [runStepSum]
      | succ k =>
        have h1 := hk (k + 1) (by omega) hk2
        have h2 := runStepSum_take_le (executedTxs
          (replayBody eng pBlock pBlock.body 1 accView txCache scriptCache)) (k + 1)
        rw [Nat.zero_add, Nat.mod_eq_of_lt (by omega)] at h1
        exact h1
  refine ⟨main, fun hnot => ?_⟩
  cases hb : v.toBool with
  | false => rfl
  | true => exact absurd (main hb) hnot



set_option maxRecDepth 100000 in
theorem VerifyPosTx_accept_implies_tx_checks_witness :
    (Verdict.accepted.toBool = true →
      signedPayingBlock.nFuel = (fuelSum sampleEngine signedPayingBlock.nFuelRate (executedTxs
        (replayBody sampleEngine signedPayingBlock signedPayingBlock.body 1 () () ())) : Nat) ∧
      (∀ k, k ≤ signedPayingBlock.body.length →
        runStepSum ((executedTxs
          (replayBody sampleEngine signedPayingBlock signedPayingBlock.body 1 () () ())).take k)
          ≤ sampleParams.MAX_BLOCK_RUN_STEP) ∧
      (∀ x ∈ replayBody sampleEngine signedPayingBlock signedPayingBlock.body 1 () () (),
        x.ok = true) ∧
      (∀ x ∈ replayBody sampleEngine signedPayingBlock signedPayingBlock.body 1 () () (),
        x.inCache = false)) ∧
    (¬ (signedPayingBlock.nFuel = (fuelSum sampleEngine signedPayingBlock.nFuelRate (executedTxs
        (replayBody sampleEngine signedPayingBlock signedPayingBlock.body 1 () () ())) : Nat) ∧
      (∀ k, k ≤ signedPayingBlock.body.length →
        runStepSum ((executedTxs
          (replayBody sampleEngine signedPayingBlock signedPayingBlock.body 1 () () ())).take k)
          ≤ sampleParams.MAX_BLOCK_RUN_STEP) ∧
      (∀ x ∈ replayBody sampleEngine signedPayingBlock signedPayingBlock.body 1 () () (),
        x.ok = true) ∧
      (∀ x ∈ replayBody sampleEngine signedPayingBlock signedPayingBlock.body 1 () () (),
        x.inCache = false)) → Verdict.accepted.toBool = false) :=
  VerifyPosTx_accept_implies_tx_checks sampleParams toyHashWriter sampleEngine
    (sampleVerifierEnv ⟨1, 1⟩) signedPayingBlock () () () Verdict.accepted (by decide)
    (by decide) (by decide)

set_option maxRecDepth 100000 in
/-- C8 as stated fails when the 64-bit accumulators wrap: a block with `nFuel = 0` whose two
transactions take 1 and `2^64 - 1` run steps (fuel charges 1 and `2^64 - 1` at fuel rate 100)
is accepted with `bNeedRunTx = true`, because `nTotalRunStep` and `nTotalFuel` both wrap to 0,
although the run steps sum to `2^64`, above `MAX_BLOCK_RUN_STEP`, and the fuel charges sum to
`2^64`, not to `nFuel`. -/
theorem VerifyPosTx_accepts_wrapped_totals :
    VerifyPosTx sampleParams toyHashWriter sampleEngine (sampleVerifierEnv ⟨1, 1⟩)
        wrappedStepBlock () () () true = some Verdict.accepted ∧
      wrappedStepBlock.nFuel = 0 ∧
      fuelSum sampleEngine wrappedStepBlock.nFuelRate (executedTxs
        (replayBody sampleEngine wrappedStepBlock wrappedStepBlock.body 1 () () ())) = 2 ^ 64 ∧
      runStepSum (executedTxs
        (replayBody sampleEngine wrappedStepBlock wrappedStepBlock.body 1 () () ())) = 2 ^ 64 ∧
      ¬ (runStepSum (executedTxs
        (replayBody sampleEngine wrappedStepBlock wrappedStepBlock.body 1 () () ()))
          ≤ sampleParams.MAX_BLOCK_RUN_STEP) ∧
      wrappedStepBlock.nFuel ≠ (fuelSum sampleEngine wrappedStepBlock.nFuelRate (executedTxs
        (replayBody sampleEngine wrappedStepBlock wrappedStepBlock.body 1 () () ())) : Nat) := by
  refine ⟨by decide, by decide, by decide, by decide, by decide, by decide⟩

/-! ## Fuel rate with insufficient history -/

/-- C10: `GetElementForBurn` returns `INIT_FUEL_RATES` when the previous index is null, and
for every non-null index `P` and window `W` with `2W ≥ P.height − 1`. -/
theorem GetElementForBurn_insufficient_history (p : ChainParams) (nBlock : Int)
    (tip : CBlockIndex) (pprev : List CBlockIndex) (h : nBlock * 2 ≥ tip.nHeight - 1) :
    GetElementForBurn p nBlock [] = some p.INIT_FUEL_RATES ∧
      GetElementForBurn p nBlock (tip :: pprev) = some p.INIT_FUEL_RATES := by
  constructor
  · rfl
  · simp only [GetElementForBurn, h, if_true]

theorem GetElementForBurn_insufficient_history_witness :
    GetElementForBurn sampleParams 100 [] = some sampleParams.INIT_FUEL_RATES ∧
      GetElementForBurn sampleParams 100
          ({ nHeight := 9, nFuel := 0, nFuelRate := 100, nTime := 100, blockHash := 909 } :: [])
        = some sampleParams.INIT_FUEL_RATES :=
  GetElementForBurn_insufficient_history sampleParams 100
    { nHeight := 9, nFuel := 0, nFuelRate := 100, nTime := 100, blockHash := 909 } []
    (by decide)

/-! ## The fuel rate is at least MIN_FUEL_RATES -/


theorem burnWalk_some :
    ∀ (k : Nat) (l : List CBlockIndex) (t : Int), k ≤ l.length →
      (∀ b ∈ l.take k, b.nFuelRate ≠ 0) → ∃ total, burnWalk k l t = some total := by
  intro k
  induction k with
  | zero => intro l t _ _; exact ⟨t, rfl⟩
  | succ k ih =>
    intro l t hlen hrate
    cases l with
    | nil => simp at hlen
    | cons b rest =>
      have hb : b.nFuelRate ≠ 0 := hrate b (by simp)
      obtain ⟨total, ht⟩ := ih rest (t + Int.tdiv b.nFuel b.nFuelRate * 100)
        (by simpa using hlen) (fun c hc => hrate c (by simp [hc]))
      exact ⟨total, by simp only [burnWalk, hb, if_false]; exact ht⟩

/-- With sufficient history and a window walk that ends, `GetElementForBurn` returns the clamped
three-way choice for the average `nTotalStep / nBlock`. -/
theorem GetElementForBurn_of_walk (p : ChainParams) (nBlock : Int) (tip : CBlockIndex)
    (pprev : List CBlockIndex) (nTotalStep : Int) (h1 : ¬ nBlock * 2 ≥ tip.nHeight - 1)
    (hw : burnWalk nBlock.toNat (tip :: pprev) 0 = some nTotalStep) (h0 : nBlock ≠ 0) :
    GetElementForBurn p nBlock (tip :: pprev)
      = some (clampFuelRate p (newFuelRateOf p (Int.tdiv nTotalStep nBlock) tip.nFuelRate)) := by
  unfold GetElementForBurn
  simp only
  rw [if_neg h1, hw]
  simp only
  rw [if_neg h0]
  rfl

theorem assembleStep_eq {V S C : Type} (p : ChainParams) (eng : TxEngine V S C)
    (M m : Nat) (rate h : Int) (st : AssembleState V S C) (entry : TxPriority) :
    assembleStep p eng M m rate h st entry =
      if (st.nBlockSize + entry.tx.GetSerializeSize) % 2 ^ 64 ≥ M then st
      else if feeFloorSkips p m st entry then st
      else executeAndCommit p eng rate h st entry := by
  unfold assembleStep feeFloorSkips executeAndCommit
  dsimp only

/-- C14 as amended: for every popped transaction with `dFeePerKb` below the minimum relay fee
(and a running `nBlockSize` within `nBlockMaxSize`), the fee-floor check admits it when
`nBlockSize + nTxSize` is below `nBlockMinSize` and skips it when `nBlockSize + nTxSize` is at
or above `nBlockMinSize`, in particular whenever `nBlockSize` itself is; with
`nBlockMinSize = 2000` a 200-byte transaction with fee per kilobyte 0 is admitted at
`nBlockSize = 1500` and skipped at `nBlockSize = 2100`. -/
theorem CreateNewBlock_fee_floor {V S C : Type} (p : ChainParams) (eng : TxEngine V S C)
    (args : MinerArgs) (nFuelRate nHeight : Int) (st : AssembleState V S C)
    (entry : TxPriority)
    (hfree : Double.lt entry.dFeePerKb (Double.ofInt p.nMinRelayTxFee) = true)
    (hst : st.nBlockSize ≤ blockMaxSize p args) :
    (st.nBlockSize + entry.tx.GetSerializeSize < blockMinSize p args →
      ¬ feeFloorSkips p (blockMinSize p args) st entry ∧
      assembleStep p eng (blockMaxSize p args) (blockMinSize p args) nFuelRate nHeight st entry
        = executeAndCommit p eng nFuelRate nHeight st entry) ∧
    (st.nBlockSize + entry.tx.GetSerializeSize ≥ blockMinSize p args →
      assembleStep p eng (blockMaxSize p args) (blockMinSize p args) nFuelRate nHeight st entry
        = st) ∧
    (st.nBlockSize ≥ blockMinSize p args →
      assembleStep p eng (blockMaxSize p args) (blockMinSize p args) nFuelRate nHeight st entry
        = st) ∧
    (blockMinSize sampleParams sampleArgs = 2000 ∧
      (assembleStep sampleParams sampleEngine (blockMaxSize sampleParams sampleArgs)
          (blockMinSize sampleParams sampleArgs) 100 10 (sampleState 1500)
          (freeEntry 200)).vptx
        = [emptyRewardTx sampleParams,
            { sampleTx 7 0 0 with nSerializeSize := 200, nFuelRate := 100 }] ∧
      (assembleStep sampleParams sampleEngine (blockMaxSize sampleParams sampleArgs)
          (blockMinSize sampleParams sampleArgs) 100 10 (sampleState 2100)
          (freeEntry 200)).vptx = [emptyRewardTx sampleParams]) := by
  have hM := (blockMaxSize_bounds p args).2
  have hmin : blockMinSize p args ≤ blockMaxSize p args := by
    unfold blockMinSize; exact min_le_left _ _
  have hsz : entry.tx.GetSerializeSize < 2 ^ 32 := Nat.mod_lt _ (by norm_num)
  have hnw : (st.nBlockSize + entry.tx.GetSerializeSize) % 2 ^ 64
      = st.nBlockSize + entry.tx.GetSerializeSize := Nat.mod_eq_of_lt (by omega)
  have skip : st.nBlockSize + entry.tx.GetSerializeSize ≥ blockMinSize p args →
      assembleStep p eng (blockMaxSize p args) (blockMinSize p args) nFuelRate nHeight st entry
        = st := by
    intro h
    rw [assembleStep_eq]
    have hf : feeFloorSkips p (blockMinSize p args) st entry := ⟨hfree, by rw [hnw]; exact h⟩
    split_ifs <;> rfl
  refine ⟨?_, skip, fun h => skip (by omega), ?_⟩
  · intro h
    have hnf : ¬ feeFloorSkips p (blockMinSize p args) st entry := by
      rintro ⟨_, h2⟩; rw [hnw] at h2; omega
    refine ⟨hnf, ?_⟩
    rw [assembleStep_eq, if_neg (by rw [hnw]; omega), if_neg hnf]
  · refine ⟨by decide, ?_, ?_⟩
    · set_option maxRecDepth 100000 in decide
    · set_option maxRecDepth 100000 in decide

set_option maxRecDepth 100000 in
theorem CreateNewBlock_fee_floor_witness :
    Double.lt (freeEntry 200).dFeePerKb (Double.ofInt sampleParams.nMinRelayTxFee) = true ∧
    (sampleState 1500).nBlockSize ≤ blockMaxSize sampleParams sampleArgs ∧
    ((sampleState 1500).nBlockSize + (freeEntry 200).tx.GetSerializeSize
        < blockMinSize sampleParams sampleArgs →
      ¬ feeFloorSkips sampleParams (blockMinSize sampleParams sampleArgs) (sampleState 1500)
          (freeEntry 200) ∧
      assembleStep sampleParams sampleEngine (blockMaxSize sampleParams sampleArgs)
          (blockMinSize sampleParams sampleArgs) 100 10 (sampleState 1500) (freeEntry 200)
        = executeAndCommit sampleParams sampleEngine 100 10 (sampleState 1500)
          (freeEntry 200)) :=
  ⟨by decide, by decide,
    (CreateNewBlock_fee_floor sampleParams sampleEngine sampleArgs 100 10 (sampleState 1500)
      (freeEntry 200) (by decide) (by decide)).1⟩

set_option maxRecDepth 100000 in
/-- C14 as stated fails for a transaction that does not fit under the floor: with
`nBlockMinSize = 2000` and `nBlockSize = 1500`, below the floor, a 600-byte transaction with
fee per kilobyte 0 is skipped, because the check compares `nBlockSize + nTxSize = 2100` with
`nBlockMinSize`. -/
theorem CreateNewBlock_fee_floor_counts_pending_size :
    Double.lt (freeEntry 600).dFeePerKb (Double.ofInt sampleParams.nMinRelayTxFee) = true ∧
    blockMinSize sampleParams sampleArgs = 2000 ∧
    (sampleState 1500).nBlockSize < blockMinSize sampleParams sampleArgs ∧
    feeFloorSkips sampleParams (blockMinSize sampleParams sampleArgs) (sampleState 1500)
      (freeEntry 600) ∧
    (assembleStep sampleParams sampleEngine (blockMaxSize sampleParams sampleArgs)
        (blockMinSize sampleParams sampleArgs) 100 10 (sampleState 1500)
        (freeEntry 600)).vptx = [emptyRewardTx sampleParams] := by
  refine ⟨by decide, by decide, by decide, by decide, by decide⟩


/-! ## Empty mempool, and the ring of mined blocks -/


/-- C15: when the mempool snapshot is empty, `GetPriorityTx` collects nothing and
`CreateNewBlock`, on a tip for which the fuel rate is defined, returns a block whose body is
exactly the reward transaction at position 0, with `rewardValue = 0`, `nFuel = 0`, nonce 0 and
height `P.height + 1`. -/
theorem CreateNewBlock_empty_mempool {V S C : Type} (p : ChainParams) (eng : TxEngine V S C)
    (args : MinerArgs) (nBlock : Int) (tip : CBlockIndex) (pprev : List CBlockIndex)
    (initialBlockSize : Nat) (nTime : Int) (view : V) (txCache : C) (scriptCache : S)
    (IsCoinBase : CBaseTx → Bool) (pTxCacheTip : C) (nFuelRate : Int)
    (hrate : GetElementForBurn p nBlock (tip :: pprev) = some nFuelRate) :
    GetPriorityTx eng IsCoinBase pTxCacheTip [] nFuelRate = some [] ∧
    ∃ blk, CreateNewBlock p eng args nBlock (tip :: pprev) [] initialBlockSize nTime view
        txCache scriptCache = some blk ∧
      blk.vptx = [emptyRewardTx p] ∧ blk.body = [] ∧ blk.rewardValue = some 0 ∧
      blk.nFuel = 0 ∧ blk.nNonce = 0 ∧ blk.nHeight = tip.nHeight + 1 ∧
      blk.nFuelRate = nFuelRate ∧ blk.hashPrevBlock = tip.blockHash := by
  refine ⟨rfl, ?_⟩
  refine ⟨{ hashPrevBlock := tip.blockHash, hashMerkleRoot := 0, nTime := nTime, nNonce := 0,
            nHeight := tip.nHeight + 1, nFuel := 0, nFuelRate := nFuelRate, vSignature := [],
            vptx := [emptyRewardTx p] }, ?_, rfl, rfl, rfl, rfl, rfl, rfl, rfl, rfl⟩
  simp only [CreateNewBlock, hrate, assembleLoop, List.foldl_nil, assembleInit]
  simp [emptyRewardTx]

theorem CreateNewBlock_empty_mempool_witness :
    GetPriorityTx sampleEngine (fun tx => decide (tx.nTxType = 1)) () [] 100 = some [] ∧
    ∃ blk, CreateNewBlock sampleParams sampleEngine sampleArgs 100
        ({ nHeight := 9, nFuel := 0, nFuelRate := 100, nTime := 100, blockHash := 909 } :: [])
        [] 120 110 () () () = some blk ∧
      blk.vptx = [emptyRewardTx sampleParams] ∧ blk.body = [] ∧ blk.rewardValue = some 0 ∧
      blk.nFuel = 0 ∧ blk.nNonce = 0 ∧
      blk.nHeight = (9 : Int) + 1 ∧
      blk.nFuelRate = 100 ∧ blk.hashPrevBlock = 909 :=
  CreateNewBlock_empty_mempool sampleParams sampleEngine sampleArgs 100
    { nHeight := 9, nFuel := 0, nFuelRate := 100, nTime := 100, blockHash := 909 } []
    120 110 () () () (fun tx => decide (tx.nTxType = 1)) () 100 (by decide)

theorem circularPushFront_foldl {α : Type} (capacity : Nat) :
    ∀ (xs : List α) (buffer : List α), buffer.length ≤ capacity →
      xs.foldl (circularPushFront capacity) buffer
        = (xs.reverse ++ buffer).take capacity := by
  intro xs
  induction xs with
  | nil =>
    intro buffer hb
    simp [List.take_of_length_le hb]
  | cons x xs ih =>
    intro buffer hb
    rw [List.foldl_cons, ih _ (by simp [circularPushFront])]
    simp only [circularPushFront, List.reverse_cons, List.append_assoc, List.singleton_append]
    by_cases hle : xs.length ≤ capacity
    · have e2 : (xs.reverse ++ x :: buffer).take capacity
          = xs.reverse.take capacity ++ (x :: buffer).take (capacity - xs.reverse.length) :=
        List.take_append_eq_append_take
      rw [List.take_append_eq_append_take, e2]
      congr 1
      rw [List.length_reverse, List.take_take]
      congr 1
      omega
    · rw [List.take_append_of_le_length (by simp; omega),
        List.take_append_of_le_length (by simp; omega)]

theorem copyMinedBlocks_eq (ring : List MinedBlockInfo) :
    ∀ (left : Nat) (ret : List MinedBlockInfo), ret = ring.take ret.length →
      ret.length + left ≤ ring.length →
      copyMinedBlocks ring left ret = ring.take (ret.length + left) := by
  intro left
  induction left with
  | zero => intro ret h _; simpa [copyMinedBlocks] using h
  | succ left ih =>
    intro ret h hlen
    have hlt : ret.length < ring.length := by omega
    have htake : ring.take (ret.length + 1) = ret ++ [ring[ret.length]] := by
      rw [List.take_succ, List.getElem?_eq_getElem hlt, ← h]; rfl
    simp only [copyMinedBlocks, List.getElem?_eq_getElem hlt]
    rw [ih (ret ++ [ring[ret.length]]) (by simp [htake]) (by simp; omega)]
    simp only [List.length_append, List.length_singleton]
    congr 1; omega



/-- C16: after any sequence of `n` pushes the ring of mined blocks holds exactly `min(n, 100)`
entries, the most recent ones ordered newest first, `GetMinedBlocks(count)` returns the first
`min(count, size)` of them in that order, and after 105 pushes exactly 100 entries remain, the
5 oldest being gone. -/
theorem minedBlocks_ring_bounded_newest_first (infos : List MinedBlockInfo) (count : Nat) :
    minedBlocksAfter infos = infos.reverse.take 100 ∧
    minedBlocksAfter infos = (infos.drop (infos.length - 100)).reverse ∧
    (minedBlocksAfter infos).length = min infos.length 100 ∧
    GetMinedBlocks (minedBlocksAfter infos) count
      = (minedBlocksAfter infos).take (min count (minedBlocksAfter infos).length) ∧
    (GetMinedBlocks (minedBlocksAfter infos) count).length
      = min count (minedBlocksAfter infos).length ∧
    (∀ more : List MinedBlockInfo, more.length = 105 →
      (minedBlocksAfter more).length = 100 ∧
      minedBlocksAfter more = (more.drop 5).reverse ∧
      ∀ x ∈ more.take 5, x ∉ more.drop 5 → x ∉ minedBlocksAfter more) := by
  have h1 : ∀ l : List MinedBlockInfo, minedBlocksAfter l = l.reverse.take 100 := by
    intro l
    have := circularPushFront_foldl MINED_BLOCK_COUNT_MAX l ([] : List MinedBlockInfo)
      (by simp)
    simpa [minedBlocksAfter, pushMinedBlock, MINED_BLOCK_COUNT_MAX] using this
  have h2 : ∀ l : List MinedBlockInfo,
      minedBlocksAfter l = (l.drop (l.length - 100)).reverse := by
    intro l
    rw [h1 l, List.reverse_drop]
    by_cases hl : 100 ≤ l.length
    · congr 1
      omega
    · rw [List.take_of_length_le (by simp; omega), List.take_of_length_le (by simp; omega)]
  have h3 : ∀ l : List MinedBlockInfo, (minedBlocksAfter l).length = min l.length 100 := by
    intro l; rw [h1 l]; simp [Nat.min_comm]
  have h4 : GetMinedBlocks (minedBlocksAfter infos) count
      = (minedBlocksAfter infos).take (min count (minedBlocksAfter infos).length) := by
    unfold GetMinedBlocks
    rw [copyMinedBlocks_eq _ _ [] (by simp) (by simp)]
    simp [Nat.min_comm]
  refine ⟨h1 infos, h2 infos, h3 infos, h4, by rw [h4]; simp, ?_⟩
  intro more hmore
  have e := h2 more
  rw [hmore] at e
  refine ⟨by rw [h3 more, hmore]; rfl, e, ?_⟩
  intro x _ hx
  rw [e, List.mem_reverse]
  exact hx


/-! ## The swap iterations of ShuffleDelegates -/
theorem shuffleInner_eq_swapAt (delCount : Int) (currendSeed : Nat) :
    ∀ (left x i : Nat) (v : List CAccount),
      shuffleInner delCount currendSeed left x i v
        = (swapAt delCount currendSeed x (shuffleInnerSteps delCount left i).2 v).map
            (fun v1 => ((shuffleInnerSteps delCount left i).1, v1)) := by
  intro left
  induction left with
  | zero => intro x i v; rfl
  | succ left ih =>
    intro x i v
    by_cases h : (i : Int) < delCount
    · simp only [shuffleInner, shuffleInnerSteps, if_pos h, swapAt]
      cases hs : swapDelegates v i (seedWord currendSeed x % delCount.toNat) with
      | none => rfl
      | some v1 => exact ih (x + 1) (i + 1) v1
    · simp only [shuffleInner, shuffleInnerSteps, if_neg h, swapAt, Option.map_some']

theorem shuffleInnerSteps_fst_ge (delCount : Int) :
    ∀ (left i : Nat), i ≤ (shuffleInnerSteps delCount left i).1 := by
  intro left
  induction left with
  | zero => intro i; exact Nat.le_refl _
  | succ left ih =>
    intro i
    by_cases h : (i : Int) < delCount
    · simp only [shuffleInnerSteps, if_pos h]
      exact Nat.le_trans (Nat.le_succ i) (ih (i + 1))
    · simp only [shuffleInnerSteps, if_neg h]; exact Nat.le_refl _

theorem shuffleOuter_eq_swapGroups {σ : Type} (hw : HashWriter σ) (delCount : Int) :
    ∀ (fuel i : Nat) (ss : σ) (currendSeed : Nat) (v : List CAccount),
      delCount.toNat ≤ i + fuel →
      shuffleOuter hw delCount fuel i ss currendSeed v
        = swapGroups hw delCount (shuffleOuterSteps delCount fuel i) ss currendSeed v := by
  intro fuel
  induction fuel with
  | zero =>
    intro i ss seed v hle
    have h : ¬ (i : Int) < delCount := by omega
    simp only [shuffleOuter, if_neg h, shuffleOuterSteps, swapGroups]
  | succ fuel ih =>
    intro i ss seed v hle
    by_cases h : (i : Int) < delCount
    · simp only [shuffleOuter, if_pos h, shuffleOuterSteps, swapGroups,
        shuffleInner_eq_swapAt]
      cases hs : swapAt delCount seed 0 (shuffleInnerSteps delCount 4 i).2 v with
      | none => rfl
      | some v1 =>
        simp only [Option.map_some']
        have := shuffleInnerSteps_fst_ge delCount 4 i
        exact ih _ _ _ _ (by omega)
    · simp only [shuffleOuter, if_neg h, shuffleOuterSteps, swapGroups]



theorem shuffleInnerSteps_eq (delCount : Int) :
    ∀ (left i : Nat), i ≤ delCount.toNat →
      shuffleInnerSteps delCount left i
        = (min (i + left) delCount.toNat,
            List.range' i (min (i + left) delCount.toNat - i)) := by
  intro left
  induction left with
  | zero => intro i hi; simp [shuffleInnerSteps, Nat.min_eq_left hi]
  | succ left ih =>
    intro i hi
    by_cases h : (i : Int) < delCount
    · have hi1 : i + 1 ≤ delCount.toNat := by omega
      simp only [shuffleInnerSteps, if_pos h, ih (i + 1) hi1]
      have e1 : min (i + 1 + left) delCount.toNat = min (i + (left + 1)) delCount.toNat := by
        congr 1; omega
      have e2 : min (i + (left + 1)) delCount.toNat - i
          = (min (i + (left + 1)) delCount.toNat - (i + 1)) + 1 := by omega
      rw [e1, e2, List.range'_succ]
    · have hi2 : i = delCount.toNat := by omega
      simp only [shuffleInnerSteps, if_neg h]
      have e : min (i + (left + 1)) delCount.toNat = i := by omega
      rw [e]; simp

theorem filter_range'_keep (i n : Nat) (h5 : i % 5 = 0) (hn : n ≤ 4) :
    (List.range' i n).filter (fun j => decide (j % 5 ≠ 4)) = List.range' i n := by
  rw [List.filter_eq_self]
  intro j hj
  rw [List.mem_range'_1] at hj
  simp only [decide_eq_true_eq]
  omega

theorem shuffleOuterSteps_join (delCount : Int) :
    ∀ (fuel i : Nat), (i % 5 = 0 ∨ delCount.toNat ≤ i) → delCount.toNat ≤ i + fuel →
      (shuffleOuterSteps delCount fuel i).flatten
        = (List.range' i (delCount.toNat - i)).filter (fun j => decide (j % 5 ≠ 4)) := by
  intro fuel
  induction fuel with
  | zero =>
    intro i _ hle
    have e : delCount.toNat - i = 0 := by omega
    simp [shuffleOuterSteps, e]
  | succ fuel ih =>
    intro i h5 hle
    by_cases h : (i : Int) < delCount
    · have h5' : i % 5 = 0 := by omega
      simp only [shuffleOuterSteps, if_pos h, shuffleInnerSteps_eq delCount 4 i (by omega),
        List.flatten_cons]
      by_cases hbig : i + 5 ≤ delCount.toNat
      · have e1 : min (i + 4) delCount.toNat = i + 4 := by omega
        rw [e1, ih (i + 4 + 1) (Or.inl (by omega)) (by omega)]
        have e3 : i + 4 - i = 4 := by omega
        have split : List.range' i (delCount.toNat - i)
            = List.range' i 4 ++ ([i + 4] ++
                List.range' (i + 4 + 1) (delCount.toNat - (i + 4 + 1))) := by
          have e2 : delCount.toNat - i = (delCount.toNat - (i + 4 + 1)) + 1 + 4 := by omega
          rw [e2, (List.range'_append_1 i 4 _).symm, (List.range'_append_1 (i + 4) 1 _).symm]
          rfl
        have e4 : ([i + 4] : List Nat).filter (fun j => decide (j % 5 ≠ 4)) = [] := by
          have : (i + 4) % 5 = 4 := by omega
          simp [List.filter, this]
        rw [e3, split, List.filter_append, List.filter_append, e4,
          filter_range'_keep i 4 h5' (by omega)]
        rfl
      · have e1 : min (i + 4) delCount.toNat = delCount.toNat := by omega
        rw [e1, ih (delCount.toNat + 1) (Or.inr (by omega)) (by omega)]
        have e2 : delCount.toNat - (delCount.toNat + 1) = 0 := by omega
        rw [e2, filter_range'_keep i _ h5' (by omega)]
        simp
    · have e : delCount.toNat - i = 0 := by omega
      simp [shuffleOuterSteps, if_neg h, e]

theorem filter_range_length (n : Nat) :
    ((List.range n).filter (fun j => decide (j % 5 ≠ 4))).length = n - n / 5 := by
  induction n with
  | zero => rfl
  | succ n ih =>
    rw [List.range_succ, List.filter_append, List.length_append, ih]
    by_cases h : n % 5 = 4
    · simp [List.filter, h]; omega
    · simp [List.filter, h]; omega



/-- C20: the swap iterations `ShuffleDelegates` runs for a delegate count `N` are those with
`i` equal to each position below `N` that is not congruent to 4 modulo 5, in increasing order,
so `N - N / 5` of them and not `N`: the inner loop and the outer loop both increment `i`, and
the positions 4, 9, 14, ... are stepped over.  The shuffle is these swaps with the seed
refreshed after each group; for 11 delegates the groups are `0..3`, `5..8` and `10`, for 5
delegates the single group `0..3`. -/
theorem ShuffleDelegates_swap_iterations_skip_every_fifth {σ : Type} (hw : HashWriter σ)
    (N : Int) :
    (ShuffleDelegatesSteps N).flatten
        = (List.range N.toNat).filter (fun j => decide (j % 5 ≠ 4)) ∧
    (ShuffleDelegatesSteps N).flatten.length = N.toNat - N.toNat / 5 ∧
    (∀ (nCurHeight : Int) (v : List CAccount), N ≠ 0 →
      ShuffleDelegates hw N nCurHeight v
        = swapGroups hw N (ShuffleDelegatesSteps N)
            (hw.getHash (hw.writeString hw.init (seedSource nCurHeight N))).2
            (uint256 (hw.getHash (hw.writeString hw.init (seedSource nCurHeight N))).1) v) ∧
    ShuffleDelegatesSteps 11 = [[0, 1, 2, 3], [5, 6, 7, 8], [10]] ∧
    ShuffleDelegatesSteps 5 = [[0, 1, 2, 3]] ∧
    (ShuffleDelegatesSteps 5).flatten.length = 4 ∧
    4 ∉ (ShuffleDelegatesSteps 5).flatten := by
  have h1 : (ShuffleDelegatesSteps N).flatten
      = (List.range N.toNat).filter (fun j => decide (j % 5 ≠ 4)) := by
    have := shuffleOuterSteps_join N N.toNat 0 (Or.inl rfl) (by omega)
    rw [ShuffleDelegatesSteps, this, List.range_eq_range']
    rfl
  refine ⟨h1, by rw [h1, filter_range_length], ?_, by decide, by decide, by decide, by decide⟩
  intro nCurHeight v hN
  unfold ShuffleDelegates
  rw [if_neg hN]
  exact shuffleOuter_eq_swapGroups hw N N.toNat 0 _ _ v (by omega)

/-! ## MineBlock records the block whatever CheckWork returns -/

/-- C17: `MineBlock` pushes one entry onto the mined-block ring for every signed block,
whatever `CheckWork` returns, because the return value of `CheckWork` is not used: a signed
block built on block 808 while the active tip is block 909 is stale, `CheckWork` returns
`false`, and the ring still grows from 0 to 1 entry, as it does for the accepted block built
on 909. -/
theorem mineBlockSigned_pushes_without_acceptance (env : ChainEnv) (pblock : CBlock)
    (g : MinerGlobals) :
    (mineBlockSigned env pblock g).1 = true ∧
    (mineBlockSigned env pblock g).2.g_minedBlocks
      = pushMinedBlock g.g_minedBlocks (mineBlockSigned env pblock g).2.g_miningBlockInfo ∧
    (mineBlockSigned env pblock g).2.g_minedBlocks.length
      = min (g.g_minedBlocks.length + 1) MINED_BLOCK_COUNT_MAX ∧
    CheckWork sampleChainEnv (signedBlock 808 10 ⟨1, 0⟩ 200) = false ∧
    (mineBlockSigned sampleChainEnv (signedBlock 808 10 ⟨1, 0⟩ 200)
      sampleGlobals).2.g_minedBlocks.length = 1 ∧
    (mineBlockSigned sampleChainEnv (signedBlock 808 10 ⟨1, 0⟩ 200)
      sampleGlobals).2.g_minedBlocks ≠ sampleGlobals.g_minedBlocks ∧
    CheckWork sampleChainEnv (signedBlock 909 10 ⟨1, 0⟩ 200) = true ∧
    (mineBlockSigned sampleChainEnv (signedBlock 909 10 ⟨1, 0⟩ 200)
      sampleGlobals).2.g_minedBlocks.length = 1 ∧
    CheckWork { sampleChainEnv with ProcessBlock := fun _ => false }
      (signedBlock 909 10 ⟨1, 0⟩ 200) = false ∧
    (mineBlockSigned { sampleChainEnv with ProcessBlock := fun _ => false }
      (signedBlock 909 10 ⟨1, 0⟩ 200) sampleGlobals).2.g_minedBlocks.length = 1 := by
  refine ⟨rfl, rfl, ?_, by decide, by decide, by decide, by decide, by decide, by decide,
    by decide⟩
  simp [mineBlockSigned, pushMinedBlock, circularPushFront, Nat.min_comm]

/-- C21: the `MinedBlockInfo` that `MineBlock` records for a signed block carries that block's
time, nonce, height, total fuel, fuel rate and hash, but its `hashPrevBlock` field is assigned
`pblock->GetHash()`, the block's own hash, not the block's previous-block hash: for the signed
block of height 10 and nonce 5 built on block 909 the recorded `hashPrevBlock` is 5105, the
block's hash, and not 909. -/
theorem mineBlockSigned_records_own_hash_as_prev (env : ChainEnv) (pblock : CBlock)
    (g : MinerGlobals) :
    (mineBlockSigned env pblock g).2.g_miningBlockInfo.nTime = pblock.nTime ∧
    (mineBlockSigned env pblock g).2.g_miningBlockInfo.nNonce = pblock.nNonce ∧
    (mineBlockSigned env pblock g).2.g_miningBlockInfo.nHeight = pblock.nHeight ∧
    (mineBlockSigned env pblock g).2.g_miningBlockInfo.nTotalFuels = pblock.nFuel ∧
    (mineBlockSigned env pblock g).2.g_miningBlockInfo.nFuelRate = pblock.nFuelRate ∧
    (mineBlockSigned env pblock g).2.g_miningBlockInfo.hash = env.GetHash pblock ∧
    (mineBlockSigned env pblock g).2.g_miningBlockInfo.hashPrevBlock = env.GetHash pblock ∧
    (mineBlockSigned env pblock g).2.g_minedBlocks.head?
      = some (mineBlockSigned env pblock g).2.g_miningBlockInfo ∧
    (signedBlock 909 10 ⟨1, 0⟩ 200).hashPrevBlock = 909 ∧
    CheckWork sampleChainEnv (signedBlock 909 10 ⟨1, 0⟩ 200) = true ∧
    (mineBlockSigned sampleChainEnv (signedBlock 909 10 ⟨1, 0⟩ 200)
      sampleGlobals).2.g_miningBlockInfo.hashPrevBlock = 5105 ∧
    (mineBlockSigned sampleChainEnv (signedBlock 909 10 ⟨1, 0⟩ 200)
      sampleGlobals).2.g_miningBlockInfo.hashPrevBlock
      ≠ (signedBlock 909 10 ⟨1, 0⟩ 200).hashPrevBlock := by
  refine ⟨rfl, rfl, rfl, rfl, rfl, rfl, rfl, ?_, rfl, by decide, by decide, by decide⟩
  simp [mineBlockSigned, pushMinedBlock, circularPushFront, MINED_BLOCK_COUNT_MAX]

/-! ## Applying a reward transaction -/

theorem rewardFeesLoop_credits {A R W : Type} (ops : AccountOps A R W)
    (free : A → TokenSymbol → Nat)
    (hop : ∀ a symbol amount code receipts, symbol = SYMB.WICC ∨ symbol = SYMB.WUSD →
      (ops.OperateBalanceAddFree a symbol amount code receipts).1 = true ∧
      ∀ s, free (ops.OperateBalanceAddFree a symbol amount code receipts).2.1 s
        = free a s + (if s = symbol then amount else 0)) :
    ∀ (reward_fees : List (TokenSymbol × Nat)) (txAccount : A) (receipts : R),
      (∀ item ∈ reward_fees, item.1 = SYMB.WICC ∨ item.1 = SYMB.WUSD) →
      (rewardFeesLoop ops reward_fees txAccount receipts).1 = true ∧
      ∀ s, free (rewardFeesLoop ops reward_fees txAccount receipts).2.1 s
        = free txAccount s + rewardOf reward_fees s := by
  intro reward_fees
  induction reward_fees with
  | nil => intro a r _; exact ⟨rfl, fun s => by simp [rewardFeesLoop, rewardOf]⟩
  | cons item rest ih =>
    intro a r hsym
    have h1 : item.1 = SYMB.WICC ∨ item.1 = SYMB.WUSD := hsym item (by simp)
    obtain ⟨hok, hfree⟩ := hop a item.1 item.2 ReceiptCode.COIN_BLOCK_REWARD_TO_MINER r h1
    obtain ⟨ihok, ihfree⟩ := ih
      (ops.OperateBalanceAddFree a item.1 item.2 ReceiptCode.COIN_BLOCK_REWARD_TO_MINER r).2.1
      (ops.OperateBalanceAddFree a item.1 item.2 ReceiptCode.COIN_BLOCK_REWARD_TO_MINER r).2.2
      (fun it hit => hsym it (by simp [hit]))
    simp only [rewardFeesLoop, if_pos h1, hok, Bool.not_true, Bool.false_eq_true, if_false]
    refine ⟨ihok, fun s => ?_⟩
    rw [ihfree s, hfree s]
    by_cases hs : item.1 = s
    · simp [rewardOf, List.filter_cons, hs]; omega
    · have hs' : ¬ s = item.1 := fun h => hs h.symm
      simp [rewardOf, List.filter_cons, hs, hs']

theorem rewardFeesLoop_other_symbol {A R W : Type} (ops : AccountOps A R W) :
    ∀ (reward_fees : List (TokenSymbol × Nat)) (txAccount : A) (receipts : R),
      (∃ item ∈ reward_fees, ¬ (item.1 = SYMB.WICC ∨ item.1 = SYMB.WUSD)) →
      (rewardFeesLoop ops reward_fees txAccount receipts).1 = false := by
  intro reward_fees
  induction reward_fees with
  | nil => intro a r h; simp at h
  | cons item rest ih =>
    intro a r h
    by_cases h1 : item.1 = SYMB.WICC ∨ item.1 = SYMB.WUSD
    · have hrest : ∃ it ∈ rest, ¬ (it.1 = SYMB.WICC ∨ it.1 = SYMB.WUSD) := by
        obtain ⟨it, hit, hn⟩ := h
        rcases List.mem_cons.mp hit with e | e
        · exact absurd (e ▸ h1) hn
        · exact ⟨it, e, hn⟩
      simp only [rewardFeesLoop, if_pos h1]
      split
      · rfl
      · exact ih _ _ hrest
    · simp only [rewardFeesLoop, if_neg h1]

/-- C18 as amended: for both reward transactions, when the account operations succeed (adding
to a free WICC or WUSD balance succeeds and adds the amount to that balance only, and
`SetAccount` succeeds): with index 0 `ExecuteTx` succeeds and leaves `txAccount` as it was;
with index -1 the single-asset variant succeeds and adds `reward_fees` to the free WICC
balance, and the multi-asset variant, when every symbol of the reward map is WICC or WUSD,
succeeds and adds to each free balance the amounts the map carries for its symbol plus
`inflated_bcoins` for WICC, and fails when the map holds another symbol; with any other index
both fail and leave `txAccount` as it was. -/
theorem reward_tx_ExecuteTx_apply {A R W : Type} (ops : AccountOps A R W)
    (free : A → TokenSymbol → Nat) (index : Int) (reward_fees : Nat)
    (reward_map : List (TokenSymbol × Nat)) (inflated_bcoins : Nat) (txAccount : A)
    (receipts : R) (cw : W)
    (hop : ∀ a symbol amount code receipts, symbol = SYMB.WICC ∨ symbol = SYMB.WUSD →
      (ops.OperateBalanceAddFree a symbol amount code receipts).1 = true ∧
      ∀ s, free (ops.OperateBalanceAddFree a symbol amount code receipts).2.1 s
        = free a s + (if s = symbol then amount else 0))
    (hset : ∀ w a, (ops.SetAccount w a).1 = true) :
    ((CBlockRewardTx.ExecuteTx ops 0 reward_fees txAccount receipts cw).ok = true ∧
      (CBlockRewardTx.ExecuteTx ops 0 reward_fees txAccount receipts cw).txAccount
        = txAccount) ∧
    ((CUCoinBlockRewardTx.ExecuteTx ops 0 reward_map inflated_bcoins txAccount receipts cw).ok
        = true ∧
      (CUCoinBlockRewardTx.ExecuteTx ops 0 reward_map inflated_bcoins txAccount receipts
        cw).txAccount = txAccount) ∧
    ((CBlockRewardTx.ExecuteTx ops (-1) reward_fees txAccount receipts cw).ok = true ∧
      ∀ s, free (CBlockRewardTx.ExecuteTx ops (-1) reward_fees txAccount receipts cw).txAccount s
        = free txAccount s + (if s = SYMB.WICC then reward_fees else 0)) ∧
    ((∀ item ∈ reward_map, item.1 = SYMB.WICC ∨ item.1 = SYMB.WUSD) →
      (CUCoinBlockRewardTx.ExecuteTx ops (-1) reward_map inflated_bcoins txAccount receipts
        cw).ok = true ∧
      ∀ s, free (CUCoinBlockRewardTx.ExecuteTx ops (-1) reward_map inflated_bcoins txAccount
          receipts cw).txAccount s
        = free txAccount s + rewardOf reward_map s
          + (if s = SYMB.WICC then inflated_bcoins else 0)) ∧
    ((∃ item ∈ reward_map, ¬ (item.1 = SYMB.WICC ∨ item.1 = SYMB.WUSD)) →
      (CUCoinBlockRewardTx.ExecuteTx ops (-1) reward_map inflated_bcoins txAccount receipts
        cw).ok = false) ∧
    (index ≠ 0 → index ≠ -1 →
      (CBlockRewardTx.ExecuteTx ops index reward_fees txAccount receipts cw).ok = false ∧
      (CBlockRewardTx.ExecuteTx ops index reward_fees txAccount receipts cw).txAccount
        = txAccount ∧
      (CUCoinBlockRewardTx.ExecuteTx ops index reward_map inflated_bcoins txAccount receipts
        cw).ok = false ∧
      (CUCoinBlockRewardTx.ExecuteTx ops index reward_map inflated_bcoins txAccount receipts
        cw).txAccount = txAccount) := by
  refine ⟨?_, ?_, ?_, ?_, ?_, ?_⟩
  · simp [CBlockRewardTx.ExecuteTx, hset]
  · simp [CUCoinBlockRewardTx.ExecuteTx]
  · obtain ⟨hok, hfree⟩ := hop txAccount SYMB.WICC reward_fees
      ReceiptCode.BLOCK_REWARD_TO_MINER receipts (Or.inl rfl)
    have h0 : ¬ (0 : Int) = -1 := by decide
    simp only [CBlockRewardTx.ExecuteTx, if_neg h0, if_true, hok, Bool.not_true,
      Bool.false_eq_true, if_false, hset, true_and]
    exact hfree
  · intro hsym
    obtain ⟨lok, lfree⟩ := rewardFeesLoop_credits ops free hop reward_map txAccount receipts hsym
    obtain ⟨hok, hfree⟩ := hop (rewardFeesLoop ops reward_map txAccount receipts).2.1 SYMB.WICC
      inflated_bcoins ReceiptCode.COIN_BLOCK_INFLATE
      (rewardFeesLoop ops reward_map txAccount receipts).2.2 (Or.inl rfl)
    have h0 : ¬ (0 : Int) = -1 := by decide
    simp only [CUCoinBlockRewardTx.ExecuteTx, if_neg h0, if_true, lok, hok, Bool.not_true,
      Bool.false_eq_true, if_false, true_and]
    intro s
    rw [hfree s, lfree s]
  · intro hother
    have lno := rewardFeesLoop_other_symbol ops reward_map txAccount receipts hother
    have h0 : ¬ (0 : Int) = -1 := by decide
    simp only [CUCoinBlockRewardTx.ExecuteTx, if_neg h0, if_true, lno, Bool.not_false]
  · intro h0 h1
    have h0' : ¬ (0 : Int) = index := fun h => h0 h.symm
    have h1' : ¬ (-1 : Int) = index := fun h => h1 h.symm
    simp only [CBlockRewardTx.ExecuteTx, CUCoinBlockRewardTx.ExecuteTx, if_neg h0', if_neg h1',
      and_self]

theorem sampleAccountOps_adds (a : Nat × Nat) (symbol : TokenSymbol) (amount : Nat)
    (code : ReceiptCode) (receipts : List ReceiptCode)
    (h : symbol = SYMB.WICC ∨ symbol = SYMB.WUSD) :
    (sampleAccountOps.OperateBalanceAddFree a symbol amount code receipts).1 = true ∧
    ∀ s, sampleFree (sampleAccountOps.OperateBalanceAddFree a symbol amount code receipts).2.1 s
      = sampleFree a s + (if s = symbol then amount else 0) := by
  refine ⟨rfl, fun s => ?_⟩
  have hne : SYMB.WUSD ≠ SYMB.WICC := by decide
  rcases h with h | h
  · subst h
    by_cases hs : s = SYMB.WICC
    · subst hs; simp [sampleFree, sampleAccountOps]
    · by_cases hs2 : s = SYMB.WUSD
      · subst hs2; simp [sampleFree, sampleAccountOps, hne, hne.symm]
      · simp [sampleFree, sampleAccountOps, hs, hs2]
  · subst h
    by_cases hs : s = SYMB.WICC
    · subst hs; simp [sampleFree, sampleAccountOps, hne, hne.symm]
    · by_cases hs2 : s = SYMB.WUSD
      · subst hs2; simp [sampleFree, sampleAccountOps, hne]
      · simp [sampleFree, sampleAccountOps, hs, hs2]

theorem reward_tx_ExecuteTx_apply_witness :
    (∀ item ∈ [(SYMB.WICC, 5), (SYMB.WUSD, 7)], item.1 = SYMB.WICC ∨ item.1 = SYMB.WUSD) ∧
    (CUCoinBlockRewardTx.ExecuteTx sampleAccountOps (-1) [(SYMB.WICC, 5), (SYMB.WUSD, 7)] 3
      (100, 200) [] []).ok = true ∧
    (∀ s, sampleFree (CUCoinBlockRewardTx.ExecuteTx sampleAccountOps (-1)
          [(SYMB.WICC, 5), (SYMB.WUSD, 7)] 3 (100, 200) [] []).txAccount s
        = sampleFree (100, 200) s + rewardOf [(SYMB.WICC, 5), (SYMB.WUSD, 7)] s
          + (if s = SYMB.WICC then 3 else 0)) ∧
    (CUCoinBlockRewardTx.ExecuteTx sampleAccountOps (-1) [(SYMB.WICC, 5), (SYMB.WUSD, 7)] 3
      (100, 200) [] []).txAccount = (108, 207) ∧
    (CBlockRewardTx.ExecuteTx sampleAccountOps (-1) 10 (100, 200) [] []).txAccount
      = (110, 200) ∧
    (CBlockRewardTx.ExecuteTx sampleAccountOps 0 10 (100, 200) [] []).ok = true ∧
    (CBlockRewardTx.ExecuteTx sampleAccountOps 5 10 (100, 200) [] []).ok = false :=
  have h := reward_tx_ExecuteTx_apply sampleAccountOps sampleFree 5 10
    [(SYMB.WICC, 5), (SYMB.WUSD, 7)] 3 (100, 200) [] [] sampleAccountOps_adds (fun _ _ => rfl)
  ⟨by decide, (h.2.2.2.1 (by decide)).1, (h.2.2.2.1 (by decide)).2, by decide, by decide,
    h.1.1, (h.2.2.2.2.2 (by decide) (by decide)).1⟩

/-- C18 as stated fails in two ways.  With index -1 the multi-asset variant does not credit
the WICC entry of a reward map that also holds a symbol other than WICC and WUSD, nor
`inflated_bcoins`: on the map `WGRT: 7, WICC: 5` with 3 inflated coins it returns `false` and
the account keeps its balances.  With index 0 the single-asset variant fails when
`SetAccount` fails. -/
theorem reward_tx_ExecuteTx_fails_on_other_symbol :
    (CUCoinBlockRewardTx.ExecuteTx sampleAccountOps (-1) [("WGRT", 7), (SYMB.WICC, 5)] 3
      (100, 200) [] []).ok = false ∧
    (CUCoinBlockRewardTx.ExecuteTx sampleAccountOps (-1) [("WGRT", 7), (SYMB.WICC, 5)] 3
      (100, 200) [] []).txAccount = (100, 200) ∧
    (CBlockRewardTx.ExecuteTx failingSetAccountOps 0 10 (100, 200) [] []).ok = false := by
  refine ⟨by decide, by decide, by decide⟩

/-! ## GetDelegatesAcctList succeeds exactly on a consistent store -/

theorem strtoull16_lt (text : List Nat) : strtoull16 text < 2 ^ 64 := by
  unfold strtoull16
  simp only []
  split_ifs <;> first | exact Nat.mod_lt _ (by norm_num) | omega | norm_num

theorem hexDigit_lt (c d : Nat) (h : hexDigit c = some d) : d < 16 := by
  unfold hexDigit at h
  split_ifs at h <;> simp only [Option.some.injEq] at h <;> omega

theorem hexRun_eq_foldl :
    ∀ (text : List Nat) (acc : Nat), (∀ c ∈ text, (hexDigit c).isSome = true) →
      hexRun text acc = text.foldl (fun a c => a * 16 + (hexDigit c).getD 0) acc := by
  intro text
  induction text with
  | nil => intro acc _; rfl
  | cons c rest ih =>
    intro acc h
    have hc : (hexDigit c).isSome = true := h c (by simp)
    obtain ⟨d, hd⟩ := Option.isSome_iff_exists.mp hc
    simp only [hexRun, hd, List.foldl_cons, Option.getD_some]
    exact ih _ (fun c' hc' => h c' (by simp [hc']))

theorem hexFold_lt :
    ∀ (text : List Nat) (acc : Nat),
      text.foldl (fun a c => a * 16 + (hexDigit c).getD 0) acc
        < (acc + 1) * 16 ^ text.length := by
  intro text
  induction text with
  | nil => intro acc; simp
  | cons c rest ih =>
    intro acc
    have hd : (hexDigit c).getD 0 < 16 := by
      cases h : hexDigit c with
      | none => simp
      | some d => simpa using hexDigit_lt c d h
    have := ih (acc * 16 + (hexDigit c).getD 0)
    simp only [List.foldl_cons, List.length_cons]
    calc _ < (acc * 16 + (hexDigit c).getD 0 + 1) * 16 ^ rest.length := this
      _ ≤ ((acc + 1) * 16) * 16 ^ rest.length := Nat.mul_le_mul_right _ (by omega)
      _ = (acc + 1) * 16 ^ (rest.length + 1) := by ring

theorem strtoull16_hex (text : List Nat) (hlen : text.length ≤ 16)
    (hhex : ∀ c ∈ text, (hexDigit c).isSome = true) :
    strtoull16 text = hexValue text := by
  have hval : hexRun text 0 = hexValue text := hexRun_eq_foldl text 0 hhex
  have hlt : hexValue text < 2 ^ 64 := by
    have h1 := hexFold_lt text 0
    have h2 : 16 ^ text.length ≤ 16 ^ 16 := Nat.pow_le_pow_right (by decide) hlen
    have h3 : (16 : Nat) ^ 16 = 2 ^ 64 := by norm_num
    unfold hexValue
    omega
  cases text with
  | nil => rfl
  | cons c rest =>
    have hc : (hexDigit c).isSome = true := hhex c (by simp)
    have hsp : isspace c = false := by
      cases hs : isspace c with
      | false => rfl
      | true =>
        exfalso
        simp only [isspace, Bool.or_eq_true, Bool.and_eq_true, decide_eq_true_eq] at hs
        have hnone : hexDigit c = none := by
          unfold hexDigit
          split_ifs <;> first | rfl | (exfalso; omega)
        rw [hnone] at hc
        simp at hc
    have h45 : c ≠ 45 := by rintro rfl; simp [hexDigit] at hc
    have h43 : c ≠ 43 := by rintro rfl; simp [hexDigit] at hc
    have hs1 : (c :: rest).dropWhile isspace = c :: rest := by
      simp [List.dropWhile, hsp]
    have hs3 : (match (c :: rest) with
        | 48 :: x :: d :: rest2 =>
          if (x = 120 ∨ x = 88) ∧ (hexDigit d).isSome then d :: rest2 else c :: rest
        | _ => c :: rest) = c :: rest := by
      split
      · rename_i x d rest2 heq
        have hx : (hexDigit x).isSome = true := hhex x (by rw [heq]; simp)
        have : ¬ (x = 120 ∨ x = 88) := by
          rintro (rfl | rfl) <;> simp [hexDigit] at hx
        simp [this]
      · rfl
    unfold strtoull16
    simp only [hs1]
    have hneg : (match c :: rest with | 45 :: _ => true | _ => false) = false := by
      split
      · rename_i heq; simp at heq; exact absurd heq.1 h45
      · rfl
    have hs2 : (match c :: rest with | 45 :: r => r | 43 :: r => r | _ => c :: rest)
        = c :: rest := by
      split
      · rename_i heq; simp at heq; exact absurd heq.1 h45
      · rename_i heq; simp at heq; exact absurd heq.1 h43
      · rfl
    rw [hneg, hs2, hs3, hval]
    simp only [Bool.false_eq_true, if_false]
    rw [if_neg (by omega)]

theorem complement64_eq (v : Nat) (h : v < 2 ^ 64) : complement64 v = 2 ^ 64 - 1 - v := by
  unfold complement64
  rw [BitVec.toNat_not, BitVec.toNat_ofNat, Nat.mod_eq_of_lt h]

theorem maxNum_sub_votes (vScriptKey : List Nat) :
    (0xFFFFFFFFFFFFFFFF - keyVotes vScriptKey) % 2 ^ 64
      = 0xFFFFFFFFFFFFFFFF - keyVotes vScriptKey := by
  apply Nat.mod_eq_of_lt
  have : (0xFFFFFFFFFFFFFFFF : Nat) < 2 ^ 64 := by norm_num
  omega

theorem delegatesLoop_total (store : DelegateStore)
    (hkeys : ∀ nIndex k k1 d, store.GetContractData nIndex k = some (k1, d) → keyInRange k1) :
    ∀ (left : Nat) (nIndex : Int) (key : List Nat) (v : List CAccount),
      ∃ b out, delegatesLoop store left nIndex key v = some (b, out) := by
  intro left
  induction left with
  | zero => intro nIndex key v; exact ⟨true, v, rfl⟩
  | succ left ih =>
    intro nIndex key v
    cases hg : store.GetContractData nIndex key with
    | none => exact ⟨false, v, by simp only [delegatesLoop, hg]⟩
    | some kd =>
      obtain ⟨k1, d⟩ := kd
      have hr : keyInRange k1 := hkeys nIndex key k1 d hg
      cases ha : store.GetAccount (store.regIdOfBytes (keyRegIdBytes k1)) with
      | none => exact ⟨false, v, by simp only [delegatesLoop, hg, if_pos hr, ha]⟩
      | some account =>
        by_cases hv : (0xFFFFFFFFFFFFFFFF - keyVotes k1) % 2 ^ 64 ≠ account.receivedVotes
        · exact ⟨false, v, by simp only [delegatesLoop, hg, if_pos hr, ha, if_pos hv]⟩
        · obtain ⟨b, out, h⟩ := ih 1 k1 (v ++ [account])
          exact ⟨b, out, by simp only [delegatesLoop, hg, if_pos hr, ha, if_neg hv, h]⟩

theorem delegatesLoop_true_iff (store : DelegateStore)
    (hkeys : ∀ nIndex k k1 d, store.GetContractData nIndex k = some (k1, d) → keyInRange k1) :
    ∀ (left : Nat) (nIndex : Int) (key : List Nat) (v out : List CAccount),
      delegatesLoop store left nIndex key v = some (true, out) ↔
        ∃ keys accts, successiveKeys store left nIndex key = some keys ∧
          List.Forall₂ (keyMatches store) keys accts ∧ out = v ++ accts := by
  intro left
  induction left with
  | zero =>
    intro nIndex key v out
    simp only [delegatesLoop, successiveKeys, Option.some.injEq, Prod.mk.injEq, true_and]
    constructor
    · intro h; exact ⟨[], [], rfl, List.Forall₂.nil, by simp [h]⟩
    · rintro ⟨keys, accts, hk, hf, ho⟩
      subst hk
      cases hf
      simp [ho]
  | succ left ih =>
    intro nIndex key v out
    cases hg : store.GetContractData nIndex key with
    | none =>
      simp only [delegatesLoop, successiveKeys, hg]
      constructor
      · intro h; simp at h
      · rintro ⟨keys, accts, hk, _⟩; simp at hk
    | some kd =>
      obtain ⟨k1, d⟩ := kd
      have hr : keyInRange k1 := hkeys nIndex key k1 d hg
      have hsucc : ∀ keys, successiveKeys store (left + 1) nIndex key = some keys ↔
          ∃ keys1, successiveKeys store left 1 k1 = some keys1 ∧ keys = k1 :: keys1 := by
        intro keys
        simp only [successiveKeys, hg]
        cases hs : successiveKeys store left 1 k1 with
        | none => simp
        | some keys1 =>
          simp only [Option.some.injEq]
          constructor
          · intro h; exact ⟨keys1, rfl, h.symm⟩
          · rintro ⟨ks, h1, h2⟩; rw [h2, h1]
      cases ha : store.GetAccount (store.regIdOfBytes (keyRegIdBytes k1)) with
      | none =>
        simp only [delegatesLoop, hg, if_pos hr, ha]
        constructor
        · intro h; simp at h
        · rintro ⟨keys, accts, hk, hf, _⟩
          obtain ⟨keys1, _, rfl⟩ := (hsucc keys).mp hk
          cases hf with
          | cons hm _ => rw [keyMatches, ha] at hm; simp at hm
      | some account =>
        by_cases hv : (0xFFFFFFFFFFFFFFFF - keyVotes k1) % 2 ^ 64 ≠ account.receivedVotes
        · simp only [delegatesLoop, hg, if_pos hr, ha, if_pos hv]
          constructor
          · intro h; simp at h
          · rintro ⟨keys, accts, hk, hf, _⟩
            obtain ⟨keys1, _, rfl⟩ := (hsucc keys).mp hk
            cases hf with
            | cons hm _ =>
              rw [keyMatches, ha] at hm
              obtain ⟨h1, h2⟩ := hm
              simp only [Option.some.injEq] at h1
              subst h1
              rw [maxNum_sub_votes] at hv
              exact absurd h2 hv
        · have hv2 : 0xFFFFFFFFFFFFFFFF - keyVotes k1 = account.receivedVotes := by
            rw [maxNum_sub_votes] at hv
            exact not_not.mp hv
          have hstep : delegatesLoop store (left + 1) nIndex key v
              = delegatesLoop store left 1 k1 (v ++ [account]) := by
            simp only [delegatesLoop, hg, if_pos hr, ha, if_neg hv]
          rw [hstep, ih 1 k1 (v ++ [account]) out]
          constructor
          · rintro ⟨keys1, accts1, hk, hf, ho⟩
            refine ⟨k1 :: keys1, account :: accts1, (hsucc _).mpr ⟨keys1, hk, rfl⟩,
              List.Forall₂.cons ⟨ha, hv2⟩ hf, ?_⟩
            rw [ho]; simp
          · rintro ⟨keys, accts, hk, hf, ho⟩
            obtain ⟨keys1, hk1, rfl⟩ := (hsucc keys).mp hk
            cases hf with
            | cons hm hrest =>
              rename_i a accts1
              have ea : a = account := by
                have := hm.1
                rw [ha] at this
                exact (Option.some.inj this).symm
              subst ea
              exact ⟨keys1, accts1, hk1, hrest, by rw [ho]; simp⟩

theorem successiveKeys_length (store : DelegateStore) :
    ∀ (count : Nat) (nIndex : Int) (key : List Nat) (keys : List (List Nat)),
      successiveKeys store count nIndex key = some keys → keys.length = count := by
  intro count
  induction count with
  | zero => intro nIndex key keys h; simp [successiveKeys] at h; simp [← h]
  | succ count ih =>
    intro nIndex key keys h
    simp only [successiveKeys] at h
    cases hg : store.GetContractData nIndex key with
    | none => simp [hg] at h
    | some kd =>
      obtain ⟨k1, d⟩ := kd
      simp only [hg] at h
      cases hs : successiveKeys store count 1 k1 with
      | none => simp [hs] at h
      | some keys1 =>
        simp only [hs, Option.some.injEq] at h
        rw [← h, List.length_cons, ih 1 k1 keys1 hs]

/-- C19: `GetDelegatesAcctList`, called with an empty output list on a store whose keys are
long enough for the two ranges the loop cuts out of them, returns a result, and it returns
`true` exactly when the store yields `TotalDelegateNum` successive keys, every key's account
exists, and `0xFFFFFFFFFFFFFFFF` minus the votes decoded from the key, which is their 64-bit
bitwise complement and for 16 hexadecimal digits their value in base 16, equals the account's
`receivedVotes`; the list then holds exactly `TotalDelegateNum` accounts in key order, and
otherwise the function returns `false`. -/
theorem GetDelegatesAcctList_succeeds_iff (store : DelegateStore) (TotalDelegateNum : Int)
    (hN : 0 ≤ TotalDelegateNum)
    (hkeys : ∀ nIndex k k1 d, store.GetContractData nIndex k = some (k1, d) → keyInRange k1) :
    (∃ b out, GetDelegatesAcctList store TotalDelegateNum [] = some (b, out)) ∧
    (∀ accts, GetDelegatesAcctList store TotalDelegateNum [] = some (true, accts) ↔
      ∃ keys, successiveKeys store TotalDelegateNum.toNat 0 vDelegatePrefix = some keys ∧
        (keys.length : Int) = TotalDelegateNum ∧
        List.Forall₂ (keyMatches store) keys accts) ∧
    (∀ accts, GetDelegatesAcctList store TotalDelegateNum [] = some (true, accts) →
      (accts.length : Int) = TotalDelegateNum) ∧
    ((¬ ∃ keys accts, successiveKeys store TotalDelegateNum.toNat 0 vDelegatePrefix = some keys ∧
        List.Forall₂ (keyMatches store) keys accts) →
      ∃ out, GetDelegatesAcctList store TotalDelegateNum [] = some (false, out)) ∧
    (∀ key, 0xFFFFFFFFFFFFFFFF - keyVotes key = complement64 (keyVotes key)) ∧
    (∀ key, (∀ c ∈ keyVotesText key, (hexDigit c).isSome = true) →
      keyVotes key = hexValue (keyVotesText key)) := by
  have hiff : ∀ accts, GetDelegatesAcctList store TotalDelegateNum [] = some (true, accts) ↔
      ∃ keys, successiveKeys store TotalDelegateNum.toNat 0 vDelegatePrefix = some keys ∧
        List.Forall₂ (keyMatches store) keys accts := by
    intro accts
    unfold GetDelegatesAcctList
    rw [delegatesLoop_true_iff store hkeys]
    constructor
    · rintro ⟨keys, accts1, hk, hf, ho⟩
      simp only [List.nil_append] at ho
      subst ho
      exact ⟨keys, hk, hf⟩
    · rintro ⟨keys, hk, hf⟩
      exact ⟨keys, accts, hk, hf, by simp⟩
  have hlen : ∀ keys, successiveKeys store TotalDelegateNum.toNat 0 vDelegatePrefix = some keys →
      (keys.length : Int) = TotalDelegateNum := by
    intro keys hk
    rw [successiveKeys_length store _ _ _ _ hk]
    omega
  refine ⟨delegatesLoop_total store hkeys _ _ _ _, ?_, ?_, ?_, ?_, ?_⟩
  · intro accts
    rw [hiff accts]
    constructor
    · rintro ⟨keys, hk, hf⟩; exact ⟨keys, hk, hlen keys hk, hf⟩
    · rintro ⟨keys, hk, _, hf⟩; exact ⟨keys, hk, hf⟩
  · intro accts h
    obtain ⟨keys, hk, hf⟩ := (hiff accts).mp h
    rw [← hf.length_eq]
    exact hlen keys hk
  · intro hno
    obtain ⟨b, out, h⟩ := delegatesLoop_total store hkeys TotalDelegateNum.toNat 0
      vDelegatePrefix []
    cases b with
    | false => exact ⟨out, h⟩
    | true =>
      exfalso
      obtain ⟨keys, hk, hf⟩ := (hiff out).mp h
      exact hno ⟨keys, out, hk, hf⟩
  · intro key
    have h1 : keyVotes key < 2 ^ 64 := strtoull16_lt (keyVotesText key)
    have h2 : (0xFFFFFFFFFFFFFFFF : Nat) = 2 ^ 64 - 1 := by norm_num
    rw [complement64_eq _ h1, h2]
  · intro key hhex
    exact strtoull16_hex (keyVotesText key) (by simp [keyVotesText, VOTES_STRING_SIZE]) hhex

theorem sampleDelegateStore_inRange (nIndex : Int) (k k1 d : List Nat)
    (h : sampleDelegateStore.GetContractData nIndex k = some (k1, d)) : keyInRange k1 := by
  simp only [sampleDelegateStore] at h
  split_ifs at h <;> simp only [Option.some.injEq, Prod.mk.injEq] at h
  · rw [← h.1]; decide
  · rw [← h.1]; decide
  · rw [← h.1]; decide

set_option maxRecDepth 100000 in
theorem GetDelegatesAcctList_succeeds_iff_witness :
    GetDelegatesAcctList sampleDelegateStore 3 []
      = some (true, [sampleAccount 0, sampleAccount 1, sampleAccount 2]) ∧
    (∃ keys, successiveKeys sampleDelegateStore (3 : Int).toNat 0 vDelegatePrefix = some keys ∧
      (keys.length : Int) = 3 ∧
      List.Forall₂ (keyMatches sampleDelegateStore) keys
        [sampleAccount 0, sampleAccount 1, sampleAccount 2]) ∧
    keyVotes (sampleKey 0) = 2 ^ 64 - 1 - 1000 :=
  have h := GetDelegatesAcctList_succeeds_iff sampleDelegateStore 3 (by decide)
    sampleDelegateStore_inRange
  have e : GetDelegatesAcctList sampleDelegateStore 3 []
      = some (true, [sampleAccount 0, sampleAccount 1, sampleAccount 2]) := by decide
  ⟨e, (h.2.1 _).mp e, by decide⟩

/-! ## The dispatch of the bank native module -/

set_option maxRecDepth 100000 in
/-- C22: `act_handler` runs `mint` for the action `issue`, not `issue`: the `case N(issue)`
of the `switch` calls `mint(context)`.  On a context where `ABC` is not issued, `issue` records
the asset while the dispatched action runs the minting helper and records no asset; where
`ABC` is already issued, `issue` raises `asset_type_exception` while the dispatched action
does not.  The actions `mint`, `burn`, `update` and `transfer` reach `mint`, `burn`, `update`
and `tansfer` (their encoded names being different from those of the cases before them), and
an action that is none of the five names raises `action_not_found_exception`. -/
theorem act_handler_issue_runs_mint {σ : Type} (env : BankEnv σ) (context : σ)
    (action : Nat) :
    act_handler env context (env.N "issue") = mint env context ∧
    (env.N "mint" ≠ env.N "issue" →
      act_handler env context (env.N "mint") = mint env context) ∧
    (env.N "burn" ≠ env.N "issue" → env.N "burn" ≠ env.N "mint" →
      act_handler env context (env.N "burn") = burn env context) ∧
    (env.N "update" ≠ env.N "issue" → env.N "update" ≠ env.N "mint" →
      env.N "update" ≠ env.N "burn" →
      act_handler env context (env.N "update") = update env context) ∧
    (env.N "transfer" ≠ env.N "issue" → env.N "transfer" ≠ env.N "mint" →
      env.N "transfer" ≠ env.N "burn" → env.N "transfer" ≠ env.N "update" →
      act_handler env context (env.N "transfer") = tansfer env context) ∧
    (action ≠ env.N "issue" → action ≠ env.N "mint" → action ≠ env.N "burn" →
      action ≠ env.N "update" → action ≠ env.N "transfer" →
      act_handler env context action
        = Outcome.raised WasmException.action_not_found_exception) ∧
    issue sampleBankEnv sampleBankContext = Outcome.done issuedBankContext ∧
    act_handler sampleBankEnv sampleBankContext (sampleBankEnv.N "issue")
      = Outcome.done { sampleBankContext with balanceLog := ["mint"] } ∧
    act_handler sampleBankEnv sampleBankContext (sampleBankEnv.N "issue")
      ≠ issue sampleBankEnv sampleBankContext ∧
    issue sampleBankEnv issuedBankContext
      = Outcome.raised WasmException.asset_type_exception ∧
    act_handler sampleBankEnv issuedBankContext (sampleBankEnv.N "issue")
      = Outcome.done { issuedBankContext with balanceLog := ["mint"] } := by
  refine ⟨?_, ?_, ?_, ?_, ?_, ?_, by decide, by decide, by decide, by decide, by decide⟩
  · simp only [act_handler, if_true]
  · intro h1
    simp only [act_handler, if_neg h1, if_true]
  · intro h1 h2
    simp only [act_handler, if_neg h1, if_neg h2, if_true]
  · intro h1 h2 h3
    simp only [act_handler, if_neg h1, if_neg h2, if_neg h3, if_true]
  · intro h1 h2 h3 h4
    simp only [act_handler, if_neg h1, if_neg h2, if_neg h3, if_neg h4, if_true]
  · intro h1 h2 h3 h4 h5
    simp only [act_handler, if_neg h1, if_neg h2, if_neg h3, if_neg h4, if_neg h5]

/-! ## The window walk is defined on a well-formed chain index -/

/-- C23: for every window `W ≥ 1` and every well-formed chain index (the tip at height `h` has
a `pprev` chain of `h` ancestors and every block's fuel rate is non-zero), whenever
`2W < P.height - 1` the walk of `W` steps back from the tip meets no null index and no zero
fuel rate, the final division is by `W ≠ 0`, and `GetElementForBurn` returns a fuel rate. -/
theorem GetElementForBurn_walk_is_defined (p : ChainParams) (nBlock : Int)
    (tip : CBlockIndex) (pprev : List CBlockIndex) (hW : 1 ≤ nBlock)
    (hchain : (pprev.length : Int) = tip.nHeight)
    (hrate : ∀ b ∈ tip :: pprev, b.nFuelRate ≠ 0)
    (hhist : nBlock * 2 < tip.nHeight - 1) :
    (∃ nTotalStep, burnWalk nBlock.toNat (tip :: pprev) 0 = some nTotalStep) ∧
    nBlock ≠ 0 ∧
    (∃ r, GetElementForBurn p nBlock (tip :: pprev) = some r) ∧
    GetElementForBurn p nBlock (tip :: pprev) ≠ none := by
  have hlen : nBlock.toNat ≤ (tip :: pprev).length := by
    simp only [List.length_cons]; omega
  obtain ⟨total, ht⟩ := burnWalk_some nBlock.toNat (tip :: pprev) 0 hlen
    (fun b hb => hrate b (List.mem_of_mem_take hb))
  have h1 : ¬ nBlock * 2 ≥ tip.nHeight - 1 := by omega
  have h0 : nBlock ≠ 0 := by omega
  have hsome := GetElementForBurn_of_walk p nBlock tip pprev total h1 ht h0
  exact ⟨⟨total, ht⟩, h0, ⟨_, hsome⟩, by rw [hsome]; simp⟩

theorem GetElementForBurn_walk_is_defined_witness :
    (∃ nTotalStep, burnWalk (1 : Int).toNat (sampleChain 0 100) 0 = some nTotalStep) ∧
    (1 : Int) ≠ 0 ∧
    (∃ r, GetElementForBurn sampleParams 1 (sampleChain 0 100) = some r) ∧
    GetElementForBurn sampleParams 1 (sampleChain 0 100) ≠ none :=
  GetElementForBurn_walk_is_defined sampleParams 1
    { nHeight := 5, nFuel := 0, nFuelRate := 100, nTime := 150, blockHash := 905 }
    (sampleChain 0 100).tail (by decide) (by decide) (by decide) (by decide)

/-! ## Rounding to the nearest double -/

theorem bitLengthAux_spec :
    ∀ (fuel n : Nat), 0 < n → n ≤ fuel →
      2 ^ (bitLengthAux fuel n - 1) ≤ n ∧ n < 2 ^ bitLengthAux fuel n ∧
        1 ≤ bitLengthAux fuel n := by
  intro fuel
  induction fuel with
  | zero => intro n h0 h1; omega
  | succ fuel ih =>
    intro n h0 h1
    have hn : n ≠ 0 := by omega
    simp only [bitLengthAux, if_neg hn]
    by_cases h2 : n / 2 = 0
    · have e : bitLengthAux fuel (n / 2) = 0 := by
        rw [h2]; cases fuel <;> simp [bitLengthAux]
      rw [e]
      have : n = 1 := by omega
      subst this
      simp
    · obtain ⟨a, b, c⟩ := ih (n / 2) (by omega) (by omega)
      set k := bitLengthAux fuel (n / 2) with hk
      have e1 : 1 + k - 1 = (k - 1) + 1 := by omega
      have e2 : 1 + k = k + 1 := by omega
      have e3 : k = (k - 1) + 1 := by omega
      refine ⟨?_, ?_, by omega⟩
      · rw [e1, pow_succ]; omega
      · rw [e2, pow_succ]; omega

theorem bitLength_spec (n : Nat) (h : 0 < n) :
    2 ^ (bitLength n - 1) ≤ n ∧ n < 2 ^ bitLength n ∧ 1 ≤ bitLength n :=
  bitLengthAux_spec n n h (Nat.le_refl n)

theorem scaleRatio_spec (num den : Nat) (e : Int) (hd : 0 < den) :
    0 < (scaleRatio num den e).2 ∧
    ((scaleRatio num den e).1 : ℚ) / ((scaleRatio num den e).2 : ℚ)
      = (num : ℚ) / (den : ℚ) / (2 : ℚ) ^ e := by
  have hdq : (den : ℚ) ≠ 0 := by positivity
  unfold scaleRatio
  by_cases he : e ≥ 0
  · rw [if_pos he]
    obtain ⟨k, rfl⟩ := Int.eq_ofNat_of_zero_le he
    refine ⟨by positivity, ?_⟩
    simp only [Int.toNat_ofNat, Nat.cast_mul, Nat.cast_pow, Nat.cast_ofNat, zpow_natCast]
    field_simp
  · rw [if_neg he]
    obtain ⟨k, hk⟩ : ∃ k : Nat, -e = (k : Int) := ⟨(-e).toNat, by omega⟩
    have he2 : e = -(k : Int) := by omega
    refine ⟨hd, ?_⟩
    simp only [hk, Int.toNat_ofNat, Nat.cast_mul, Nat.cast_pow, Nat.cast_ofNat, he2, zpow_neg,
      zpow_natCast]
    field_simp

theorem roundNearestEven_eq (num den : Nat) (hn : 0 < num) (hd : 0 < den) :
    roundNearestEven num den
      = (roundMantissa (scaleRatio num den (roundExponent num den)).1
          (scaleRatio num den (roundExponent num den)).2, roundExponent num den) := by
  have h : ¬ (num = 0 ∨ den = 0) := by omega
  unfold roundNearestEven roundExponent roundMantissa
  rw [if_neg h]

theorem roundMantissa_spec (a b : Nat) (hb : 0 < b) (h1 : 2 ^ 52 * b ≤ a)
    (h2 : a < 2 ^ 53 * b) :
    2 ^ 52 ≤ roundMantissa a b ∧ roundMantissa a b ≤ 2 ^ 53 ∧
      |(roundMantissa a b : ℚ) - (a : ℚ) / (b : ℚ)| ≤ 1 / 2 := by
  have hbq : (0 : ℚ) < b := by exact_mod_cast hb
  have hq1 : 2 ^ 52 ≤ a / b := (Nat.le_div_iff_mul_le hb).mpr h1
  have hq2 : a / b < 2 ^ 53 := (Nat.div_lt_iff_lt_mul hb).mpr h2
  have hdiv : b * (a / b) + a % b = a := Nat.div_add_mod a b
  have hr : a % b < b := Nat.mod_lt a hb
  have hz : (a : ℚ) / b = (a / b : Nat) + ((a % b : Nat) : ℚ) / b := by
    have : (a : ℚ) = (b : ℚ) * ((a / b : Nat) : ℚ) + ((a % b : Nat) : ℚ) := by
      exact_mod_cast hdiv.symm
    field_simp
    linarith
  have hrq : ((a % b : Nat) : ℚ) < b := by exact_mod_cast hr
  have hr0 : (0 : ℚ) ≤ ((a % b : Nat) : ℚ) := by positivity
  unfold roundMantissa
  simp only []
  split_ifs with c1 c2 c3
  · refine ⟨hq1, by omega, ?_⟩
    have c1q : 2 * ((a % b : Nat) : ℚ) < b := by exact_mod_cast c1
    rw [hz, abs_le]
    constructor
    · have : ((a % b : Nat) : ℚ) / b ≤ 1 / 2 := by
        rw [div_le_iff₀ hbq]; linarith
      linarith
    · have : (0 : ℚ) ≤ ((a % b : Nat) : ℚ) / b := by positivity
      linarith
  · refine ⟨by omega, by omega, ?_⟩
    have c2q : (b : ℚ) < 2 * ((a % b : Nat) : ℚ) := by exact_mod_cast c2
    rw [hz, abs_le]
    push_cast
    constructor
    · have : ((a % b : Nat) : ℚ) / b ≤ 1 := by
        rw [div_le_iff₀ hbq]; linarith
      linarith
    · have : 1 / 2 ≤ ((a % b : Nat) : ℚ) / b := by
        rw [le_div_iff₀ hbq]; linarith
      linarith
  · refine ⟨hq1, by omega, ?_⟩
    have ceq : 2 * ((a % b : Nat) : ℚ) = b := by
      have : 2 * (a % b) = b := by omega
      exact_mod_cast this
    rw [hz, abs_le]
    have : ((a % b : Nat) : ℚ) / b = 1 / 2 := by
      rw [div_eq_iff (ne_of_gt hbq)]; linarith
    constructor <;> linarith
  · refine ⟨by omega, by omega, ?_⟩
    have ceq : 2 * ((a % b : Nat) : ℚ) = b := by
      have : 2 * (a % b) = b := by omega
      exact_mod_cast this
    rw [hz, abs_le]
    push_cast
    have : ((a % b : Nat) : ℚ) / b = 1 / 2 := by
      rw [div_eq_iff (ne_of_gt hbq)]; linarith
    constructor <;> linarith

theorem roundExponent_spec (num den : Nat) (hn : 0 < num) (hd : 0 < den) :
    (2 : ℚ) ^ (52 + roundExponent num den) ≤ (num : ℚ) / (den : ℚ) ∧
    (num : ℚ) / (den : ℚ) < (2 : ℚ) ^ (53 + roundExponent num den) := by
  obtain ⟨n1, n2, n3⟩ := bitLength_spec num hn
  obtain ⟨d1, d2, d3⟩ := bitLength_spec den hd
  set bn := bitLength num with hbn
  set bd := bitLength den with hbd
  have hdq : (0 : ℚ) < den := by exact_mod_cast hd
  have hnq : (0 : ℚ) < num := by exact_mod_cast hn
  have two : (0 : ℚ) < 2 := by norm_num
  -- bounds of the ratio by powers of two
  have n1q : (2 : ℚ) ^ ((bn : Int) - 1) ≤ num := by
    have : ((2 ^ (bn - 1) : Nat) : ℚ) ≤ num := by exact_mod_cast n1
    have e : ((bn : Int) - 1) = ((bn - 1 : Nat) : Int) := by omega
    rw [e, zpow_natCast]; exact_mod_cast this
  have n2q : (num : ℚ) < (2 : ℚ) ^ (bn : Int) := by
    rw [zpow_natCast]; exact_mod_cast n2
  have d1q : (2 : ℚ) ^ ((bd : Int) - 1) ≤ den := by
    have : ((2 ^ (bd - 1) : Nat) : ℚ) ≤ den := by exact_mod_cast d1
    have e : ((bd : Int) - 1) = ((bd - 1 : Nat) : Int) := by omega
    rw [e, zpow_natCast]; exact_mod_cast this
  have d2q : (den : ℚ) < (2 : ℚ) ^ (bd : Int) := by
    rw [zpow_natCast]; exact_mod_cast d2
  have lo : (2 : ℚ) ^ ((bn : Int) - bd - 1) < (num : ℚ) / den := by
    rw [lt_div_iff₀ hdq]
    have e : (2 : ℚ) ^ ((bn : Int) - 1) = (2 : ℚ) ^ ((bn : Int) - bd - 1) * 2 ^ (bd : Int) := by
      rw [← zpow_add₀ (by norm_num : (2 : ℚ) ≠ 0)]; congr 1; ring
    have pos : (0 : ℚ) < (2 : ℚ) ^ ((bn : Int) - bd - 1) := by positivity
    calc (2 : ℚ) ^ ((bn : Int) - bd - 1) * den
        < (2 : ℚ) ^ ((bn : Int) - bd - 1) * 2 ^ (bd : Int) := by
          exact mul_lt_mul_of_pos_left d2q pos
      _ = (2 : ℚ) ^ ((bn : Int) - 1) := e.symm
      _ ≤ num := n1q
  have hi : (num : ℚ) / den < (2 : ℚ) ^ ((bn : Int) - bd + 1) := by
    rw [div_lt_iff₀ hdq]
    have e : (2 : ℚ) ^ (bn : Int) = (2 : ℚ) ^ ((bn : Int) - bd + 1) * 2 ^ ((bd : Int) - 1) := by
      rw [← zpow_add₀ (by norm_num : (2 : ℚ) ≠ 0)]; congr 1; ring
    have pos : (0 : ℚ) < (2 : ℚ) ^ ((bn : Int) - bd + 1) := by positivity
    calc (num : ℚ) < (2 : ℚ) ^ (bn : Int) := n2q
      _ = (2 : ℚ) ^ ((bn : Int) - bd + 1) * 2 ^ ((bd : Int) - 1) := e
      _ ≤ (2 : ℚ) ^ ((bn : Int) - bd + 1) * den := by
          exact mul_le_mul_of_nonneg_left d1q (le_of_lt pos)
  -- the test on the scaled quotient
  obtain ⟨sb, sq⟩ := scaleRatio_spec num den ((bn : Int) - bd - 52) hd
  have sbq : (0 : ℚ) < ((scaleRatio num den ((bn : Int) - bd - 52)).2 : ℚ) := by
    exact_mod_cast sb
  have test : (scaleRatio num den ((bn : Int) - bd - 52)).1
        / (scaleRatio num den ((bn : Int) - bd - 52)).2 < 2 ^ 52 ↔
      (num : ℚ) / den < (2 : ℚ) ^ ((bn : Int) - bd) := by
    rw [Nat.div_lt_iff_lt_mul sb]
    have e52 : (2 : ℚ) ^ ((bn : Int) - bd) = 2 ^ (52 : Nat) * (2 : ℚ) ^ ((bn : Int) - bd - 52) := by
      rw [← zpow_natCast, ← zpow_add₀ (by norm_num : (2 : ℚ) ≠ 0)]; congr 1; push_cast; ring
    have pos : (0 : ℚ) < (2 : ℚ) ^ ((bn : Int) - bd - 52) := by positivity
    constructor
    · intro h
      have hq : ((scaleRatio num den ((bn : Int) - bd - 52)).1 : ℚ)
          < 2 ^ (52 : Nat) * ((scaleRatio num den ((bn : Int) - bd - 52)).2 : ℚ) := by
        exact_mod_cast h
      have : ((scaleRatio num den ((bn : Int) - bd - 52)).1 : ℚ)
          / ((scaleRatio num den ((bn : Int) - bd - 52)).2 : ℚ) < 2 ^ (52 : Nat) := by
        rw [div_lt_iff₀ sbq]; exact hq
      rw [sq, div_lt_iff₀ pos] at this
      rw [e52]; exact this
    · intro h
      have : (num : ℚ) / den / (2 : ℚ) ^ ((bn : Int) - bd - 52) < 2 ^ (52 : Nat) := by
        rw [div_lt_iff₀ pos, ← e52]; exact h
      rw [← sq, div_lt_iff₀ sbq] at this
      exact_mod_cast this
  unfold roundExponent
  simp only []
  rw [← hbn, ← hbd]
  by_cases c : (scaleRatio num den ((bn : Int) - bd - 52)).1
        / (scaleRatio num den ((bn : Int) - bd - 52)).2 < 2 ^ 52
  · rw [if_pos c]
    have hlt := test.mp c
    have e1 : (52 : Int) + ((bn : Int) - bd - 52 - 1) = (bn : Int) - bd - 1 := by ring
    have e2 : (53 : Int) + ((bn : Int) - bd - 52 - 1) = (bn : Int) - bd := by ring
    rw [e1, e2]
    exact ⟨le_of_lt lo, hlt⟩
  · rw [if_neg c]
    have hge : ¬ (num : ℚ) / den < (2 : ℚ) ^ ((bn : Int) - bd) := fun h => c (test.mpr h)
    have e1 : (52 : Int) + ((bn : Int) - bd - 52) = (bn : Int) - bd := by ring
    have e2 : (53 : Int) + ((bn : Int) - bd - 52) = (bn : Int) - bd + 1 := by ring
    rw [e1, e2]
    exact ⟨not_lt.mp hge, hi⟩

theorem roundNearestEven_spec (num den : Nat) (hn : 0 < num) (hd : 0 < den) :
    2 ^ 52 ≤ (roundNearestEven num den).1 ∧ (roundNearestEven num den).1 ≤ 2 ^ 53 ∧
    (2 : ℚ) ^ (52 + (roundNearestEven num den).2) ≤ (num : ℚ) / den ∧
    (num : ℚ) / den < (2 : ℚ) ^ (53 + (roundNearestEven num den).2) ∧
    |((roundNearestEven num den).1 : ℚ) * (2 : ℚ) ^ (roundNearestEven num den).2
        - (num : ℚ) / den| ≤ (2 : ℚ) ^ ((roundNearestEven num den).2 - 1) := by
  rw [roundNearestEven_eq num den hn hd]
  simp only []
  obtain ⟨lo, hi⟩ := roundExponent_spec num den hn hd
  set e := roundExponent num den with he
  obtain ⟨sb, sq⟩ := scaleRatio_spec num den e hd
  set a := (scaleRatio num den e).1 with ha
  set b := (scaleRatio num den e).2 with hb
  have bq : (0 : ℚ) < b := by exact_mod_cast sb
  have pe : (0 : ℚ) < (2 : ℚ) ^ e := by positivity
  have e52 : (2 : ℚ) ^ (52 + e) = 2 ^ (52 : Nat) * (2 : ℚ) ^ e := by
    rw [← zpow_natCast, ← zpow_add₀ (by norm_num : (2 : ℚ) ≠ 0)]; rfl
  have e53 : (2 : ℚ) ^ (53 + e) = 2 ^ (53 : Nat) * (2 : ℚ) ^ e := by
    rw [← zpow_natCast, ← zpow_add₀ (by norm_num : (2 : ℚ) ≠ 0)]; rfl
  have z1 : (2 : ℚ) ^ (52 : Nat) ≤ (a : ℚ) / b := by
    rw [sq, le_div_iff₀ pe, ← e52]; exact lo
  have z2 : (a : ℚ) / b < (2 : ℚ) ^ (53 : Nat) := by
    rw [sq, div_lt_iff₀ pe, ← e53]; exact hi
  have h1 : 2 ^ 52 * b ≤ a := by
    rw [le_div_iff₀ bq] at z1; exact_mod_cast z1
  have h2 : a < 2 ^ 53 * b := by
    rw [div_lt_iff₀ bq] at z2; exact_mod_cast z2
  obtain ⟨m1, m2, m3⟩ := roundMantissa_spec a b sb h1 h2
  refine ⟨m1, m2, lo, hi, ?_⟩
  have ex : (num : ℚ) / den = (a : ℚ) / b * (2 : ℚ) ^ e := by
    rw [sq]; field_simp; ring
  have eh : (2 : ℚ) ^ (e - 1) = (2 : ℚ) ^ e * (1 / 2) := by
    rw [zpow_sub₀ (by norm_num : (2 : ℚ) ≠ 0)]; simp; ring
  rw [ex, ← sub_mul, abs_mul, abs_of_pos pe, eh, mul_comm ((2 : ℚ) ^ e)]
  exact mul_le_mul_of_nonneg_right m3 (le_of_lt pe)

theorem ofRatio_isRounding (num : Int) (den : Nat) (hn : 0 < num) (hd : 0 < den) :
    IsRounding ((num : ℚ) / den) (Double.ofRatio num den) := by
  obtain ⟨k, rfl⟩ := Int.eq_ofNat_of_zero_le (le_of_lt hn)
  have hk : 0 < k := by exact_mod_cast hn
  obtain ⟨a, b, c, d, f⟩ := roundNearestEven_spec k den hk hd
  have hneg : ¬ ((k : Int) < 0) := by omega
  unfold IsRounding Double.value Double.ofRatio
  simp only [Int.natAbs_ofNat, if_neg hneg, Int.cast_natCast]
  refine ⟨by exact_mod_cast a, by exact_mod_cast b, c, d, f⟩

theorem two_zpow_add (k : Nat) (E : Int) :
    (2 : ℚ) ^ ((k : Int) + E) = (2 : ℚ) ^ k * (2 : ℚ) ^ E := by
  rw [zpow_add₀ (by norm_num : (2 : ℚ) ≠ 0), zpow_natCast]

theorem two_zpow_pred (E : Int) : (2 : ℚ) ^ (E - 1) = (2 : ℚ) ^ E / 2 := by
  rw [zpow_sub₀ (by norm_num : (2 : ℚ) ≠ 0)]; simp

theorem two_zpow_pos (E : Int) : (0 : ℚ) < (2 : ℚ) ^ E := by positivity

/-- A rounding of `x` is at least every normalized double below `x`. -/
theorem IsRounding.ge_of_le {x : ℚ} {d : Double} (h : IsRounding x d) (M E : Int)
    (hM1 : 2 ^ 52 ≤ M) (hM2 : M < 2 ^ 53) (hy : (M : ℚ) * (2 : ℚ) ^ E ≤ x) :
    (M : ℚ) * (2 : ℚ) ^ E ≤ d.value := by
  obtain ⟨a, b, lo, hi, err⟩ := h
  have one2 : (1 : ℚ) < 2 := by norm_num
  have pE := two_zpow_pos E
  have pe := two_zpow_pos d.e
  have hM1q : (2 : ℚ) ^ (52 : Nat) ≤ (M : ℚ) := by exact_mod_cast hM1
  have hM2q : (M : ℚ) < (2 : ℚ) ^ (53 : Nat) := by exact_mod_cast hM2
  have aq : (2 : ℚ) ^ (52 : Nat) ≤ (d.m : ℚ) := by exact_mod_cast a
  have hE : E ≤ d.e := by
    by_contra hc
    have h1 : (53 : Int) + d.e ≤ 52 + E := by omega
    have h2 : (2 : ℚ) ^ ((53 : Int) + d.e) ≤ (2 : ℚ) ^ ((52 : Int) + E) :=
      zpow_le_zpow_right₀ (le_of_lt one2) h1
    have h3 : (2 : ℚ) ^ ((52 : Int) + E) ≤ (M : ℚ) * (2 : ℚ) ^ E := by
      have := two_zpow_add 52 E
      simp only [Nat.cast_ofNat] at this
      rw [this]
      exact mul_le_mul_of_nonneg_right hM1q (le_of_lt pE)
    linarith
  unfold Double.value at err ⊢
  rcases eq_or_lt_of_le hE with heq | hlt
  · rw [← heq] at err ⊢
    rw [two_zpow_pred, abs_le] at err
    have h1 : ((M : ℚ) - 1 / 2) * (2 : ℚ) ^ E ≤ (d.m : ℚ) * (2 : ℚ) ^ E := by
      have := err.1
      linarith
    have h2 : (M : ℚ) - 1 / 2 ≤ (d.m : ℚ) := le_of_mul_le_mul_right h1 pE
    have h3 : M ≤ d.m := by
      have : ((M - 1 : Int) : ℚ) < (d.m : ℚ) := by push_cast; linarith
      have : M - 1 < d.m := by exact_mod_cast this
      omega
    have h4 : (M : ℚ) ≤ (d.m : ℚ) := by exact_mod_cast h3
    exact mul_le_mul_of_nonneg_right h4 (le_of_lt pE)
  · have h1 : (53 : Int) + E ≤ 52 + d.e := by omega
    have h2 : (2 : ℚ) ^ ((53 : Int) + E) ≤ (2 : ℚ) ^ ((52 : Int) + d.e) :=
      zpow_le_zpow_right₀ (le_of_lt one2) h1
    have e1 := two_zpow_add 53 E
    have e2 := two_zpow_add 52 d.e
    simp only [Nat.cast_ofNat] at e1 e2
    rw [e1, e2] at h2
    have h3 : (M : ℚ) * (2 : ℚ) ^ E ≤ (2 : ℚ) ^ (53 : Nat) * (2 : ℚ) ^ E :=
      mul_le_mul_of_nonneg_right (le_of_lt hM2q) (le_of_lt pE)
    have h4 : (2 : ℚ) ^ (52 : Nat) * (2 : ℚ) ^ d.e ≤ (d.m : ℚ) * (2 : ℚ) ^ d.e :=
      mul_le_mul_of_nonneg_right aq (le_of_lt pe)
    linarith

/-- A rounding of `x` is at most every normalized double above `x`. -/
theorem IsRounding.le_of_ge {x : ℚ} {d : Double} (h : IsRounding x d) (M E : Int)
    (hM1 : 2 ^ 52 ≤ M) (hM2 : M < 2 ^ 53) (hy : x ≤ (M : ℚ) * (2 : ℚ) ^ E) :
    d.value ≤ (M : ℚ) * (2 : ℚ) ^ E := by
  obtain ⟨a, b, lo, hi, err⟩ := h
  have one2 : (1 : ℚ) < 2 := by norm_num
  have pE := two_zpow_pos E
  have pe := two_zpow_pos d.e
  have hM1q : (2 : ℚ) ^ (52 : Nat) ≤ (M : ℚ) := by exact_mod_cast hM1
  have hM2q : (M : ℚ) < (2 : ℚ) ^ (53 : Nat) := by exact_mod_cast hM2
  have bq : (d.m : ℚ) ≤ (2 : ℚ) ^ (53 : Nat) := by exact_mod_cast b
  have hE : d.e ≤ E := by
    by_contra hc
    have h1 : (53 : Int) + E ≤ 52 + d.e := by omega
    have h2 : (2 : ℚ) ^ ((53 : Int) + E) ≤ (2 : ℚ) ^ ((52 : Int) + d.e) :=
      zpow_le_zpow_right₀ (le_of_lt one2) h1
    have h3 : (M : ℚ) * (2 : ℚ) ^ E < (2 : ℚ) ^ ((53 : Int) + E) := by
      have := two_zpow_add 53 E
      simp only [Nat.cast_ofNat] at this
      rw [this]
      exact mul_lt_mul_of_pos_right hM2q pE
    linarith
  unfold Double.value at err ⊢
  rcases eq_or_lt_of_le hE with heq | hlt
  · rw [heq] at err ⊢
    rw [two_zpow_pred, abs_le] at err
    have h1 : (d.m : ℚ) * (2 : ℚ) ^ E ≤ ((M : ℚ) + 1 / 2) * (2 : ℚ) ^ E := by
      have := err.2
      linarith
    have h2 : (d.m : ℚ) ≤ (M : ℚ) + 1 / 2 := le_of_mul_le_mul_right h1 pE
    have h3 : d.m ≤ M := by
      have : (d.m : ℚ) < ((M + 1 : Int) : ℚ) := by push_cast; linarith
      have : d.m < M + 1 := by exact_mod_cast this
      omega
    have h4 : (d.m : ℚ) ≤ (M : ℚ) := by exact_mod_cast h3
    exact mul_le_mul_of_nonneg_right h4 (le_of_lt pE)
  · have h1 : (53 : Int) + d.e ≤ 52 + E := by omega
    have h2 : (2 : ℚ) ^ ((53 : Int) + d.e) ≤ (2 : ℚ) ^ ((52 : Int) + E) :=
      zpow_le_zpow_right₀ (le_of_lt one2) h1
    have e1 := two_zpow_add 53 d.e
    have e2 := two_zpow_add 52 E
    simp only [Nat.cast_ofNat] at e1 e2
    rw [e1, e2] at h2
    have h3 : (2 : ℚ) ^ (52 : Nat) * (2 : ℚ) ^ E ≤ (M : ℚ) * (2 : ℚ) ^ E :=
      mul_le_mul_of_nonneg_right hM1q (le_of_lt pE)
    have h4 : (d.m : ℚ) * (2 : ℚ) ^ d.e ≤ (2 : ℚ) ^ (53 : Nat) * (2 : ℚ) ^ d.e :=
      mul_le_mul_of_nonneg_right bq (le_of_lt pe)
    linarith

/-! ## Comparison, product and truncation of doubles -/

theorem Double.lt_iff (a b : Double) : Double.lt a b = true ↔ a.value < b.value := by
  unfold Double.lt Double.value
  simp only [decide_eq_true_eq]
  set k := min a.e b.e with hk
  have pk := two_zpow_pos k
  obtain ⟨i, hi⟩ : ∃ i : Nat, a.e - k = (i : Int) := ⟨(a.e - k).toNat, by omega⟩
  obtain ⟨j, hj⟩ : ∃ j : Nat, b.e - k = (j : Int) := ⟨(b.e - k).toNat, by omega⟩
  have ea : (2 : ℚ) ^ a.e = (2 : ℚ) ^ i * (2 : ℚ) ^ k := by
    rw [← two_zpow_add, ← hi]; congr 1; ring
  have eb : (2 : ℚ) ^ b.e = (2 : ℚ) ^ j * (2 : ℚ) ^ k := by
    rw [← two_zpow_add, ← hj]; congr 1; ring
  rw [hi, hj, Int.toNat_ofNat, Int.toNat_ofNat, ea, eb, ← mul_assoc, ← mul_assoc,
    mul_lt_mul_right pk]
  constructor
  · intro h
    have : ((a.m * 2 ^ i : Int) : ℚ) < ((b.m * 2 ^ j : Int) : ℚ) := by exact_mod_cast h
    simpa using this
  · intro h
    have : ((a.m * 2 ^ i : Int) : ℚ) < ((b.m * 2 ^ j : Int) : ℚ) := by simpa using h
    exact_mod_cast this

theorem Double.mul_isRounding (a b : Double) (ha : 0 < a.m) (hb : 0 < b.m) :
    IsRounding (a.value * b.value) (Double.mul a b) := by
  have hm : 0 < a.m * b.m := Int.mul_pos ha hb
  have hv : a.value * b.value = ((a.m * b.m : Int) : ℚ) * (2 : ℚ) ^ (a.e + b.e) := by
    unfold Double.value
    rw [zpow_add₀ (by norm_num : (2 : ℚ) ≠ 0)]
    push_cast; ring
  unfold Double.mul
  simp only []
  by_cases he : a.e + b.e ≥ 0
  · rw [if_pos he]
    obtain ⟨k, hk⟩ := Int.eq_ofNat_of_zero_le he
    have := ofRatio_isRounding (a.m * b.m * 2 ^ (a.e + b.e).toNat) 1
      (Int.mul_pos hm (by positivity)) (by norm_num)
    rw [hv, hk]
    rw [hk] at this
    simpa using this
  · rw [if_neg he]
    obtain ⟨k, hk⟩ : ∃ k : Nat, -(a.e + b.e) = (k : Int) := ⟨(-(a.e + b.e)).toNat, by omega⟩
    have he2 : a.e + b.e = -(k : Int) := by omega
    have := ofRatio_isRounding (a.m * b.m) (2 ^ k) hm (by positivity)
    rw [hv, hk, Int.toNat_ofNat, he2, zpow_neg, zpow_natCast]
    have e : ((a.m * b.m : Int) : ℚ) / ((2 ^ k : Nat) : ℚ)
        = ((a.m * b.m : Int) : ℚ) * ((2 : ℚ) ^ k)⁻¹ := by
      push_cast; rw [div_eq_mul_inv]
    rw [e] at this
    exact this

theorem Double.toInt_eq_floor (a : Double) (ha : 0 ≤ a.m) : Double.toInt a = ⌊a.value⌋ := by
  unfold Double.toInt Double.value
  by_cases he : a.e ≥ 0
  · rw [if_pos he]
    obtain ⟨k, hk⟩ := Int.eq_ofNat_of_zero_le he
    rw [hk, Int.toNat_ofNat, zpow_natCast]
    have : (a.m : ℚ) * (2 : ℚ) ^ k = ((a.m * 2 ^ k : Int) : ℚ) := by push_cast; ring
    rw [this, Int.floor_intCast]
  · rw [if_neg he]
    obtain ⟨k, hk⟩ : ∃ k : Nat, -a.e = (k : Int) := ⟨(-a.e).toNat, by omega⟩
    have he2 : a.e = -(k : Int) := by omega
    rw [hk, Int.toNat_ofNat, he2, zpow_neg, zpow_natCast]
    have hdiv : Int.tdiv a.m (2 ^ k) = a.m / 2 ^ k :=
      Int.tdiv_eq_ediv ha (by positivity)
    rw [hdiv]
    have : (a.m : ℚ) * ((2 : ℚ) ^ k)⁻¹ = (a.m : ℚ) / ((2 ^ k : Nat) : ℚ) := by
      push_cast; rw [div_eq_mul_inv]
    rw [this, Rat.floor_intCast_div_natCast]
    push_cast
    rfl


theorem exists_normalized (n : Nat) (k : Int) (h0 : 0 < n) (h1 : n < 2 ^ 53) :
    ∃ M E : Int, 2 ^ 52 ≤ M ∧ M < 2 ^ 53 ∧ (n : ℚ) * (2 : ℚ) ^ k = (M : ℚ) * (2 : ℚ) ^ E := by
  obtain ⟨a, b, c⟩ := bitLength_spec n h0
  set bl := bitLength n with hbl
  have hle : bl ≤ 53 := by
    by_contra hc
    have : 2 ^ 53 ≤ 2 ^ (bl - 1) := Nat.pow_le_pow_right (by norm_num) (by omega)
    omega
  obtain ⟨s, hs⟩ : ∃ s : Nat, bl + s = 53 := ⟨53 - bl, by omega⟩
  refine ⟨((n * 2 ^ s : Nat) : Int), k - s, ?_, ?_, ?_⟩
  · have : 2 ^ 52 ≤ n * 2 ^ s := by
      have e : 2 ^ 52 = 2 ^ (bl - 1) * 2 ^ s := by
        rw [← pow_add]; congr 1; omega
      rw [e]; exact Nat.mul_le_mul_right _ a
    exact_mod_cast this
  · have : n * 2 ^ s < 2 ^ 53 := by
      have e : 2 ^ 53 = 2 ^ bl * 2 ^ s := by
        rw [← pow_add]; congr 1; omega
      rw [e]; exact Nat.mul_lt_mul_of_pos_right b (by positivity)
    exact_mod_cast this
  · rw [zpow_sub₀ (by norm_num : (2 : ℚ) ≠ 0), zpow_natCast]
    push_cast
    field_simp
    ring

/-- A rounding of a value with at most 53 significant bits is that value. -/
theorem IsRounding.exact {x : ℚ} {d : Double} (h : IsRounding x d) (n : Nat) (k : Int)
    (h0 : 0 < n) (h1 : n < 2 ^ 53) (hx : x = (n : ℚ) * (2 : ℚ) ^ k) : d.value = x := by
  obtain ⟨M, E, m1, m2, e⟩ := exists_normalized n k h0 h1
  rw [hx, e]
  rw [hx, e] at h
  exact le_antisymm (h.le_of_ge M E m1 m2 (le_refl _)) (h.ge_of_le M E m1 m2 (le_refl _))

theorem Double.ofInt_isRounding (n : Int) (h : 0 < n) : IsRounding (n : ℚ) (Double.ofInt n) := by
  have := ofRatio_isRounding n 1 h (by norm_num)
  simpa [Double.ofInt] using this

theorem Double.ofInt_value (n : Int) (h0 : 0 < n) (h1 : n < 2 ^ 53) :
    (Double.ofInt n).value = n := by
  obtain ⟨k, rfl⟩ := Int.eq_ofNat_of_zero_le (le_of_lt h0)
  have hk0 : 0 < k := by exact_mod_cast h0
  have hk1 : k < 2 ^ 53 := by exact_mod_cast h1
  have := (Double.ofInt_isRounding (k : Int) h0).exact k 0 hk0 hk1 (by simp)
  simpa using this

/-- A rounding of `x` is at least the normalized double `y` as soon as `x` is above `y` minus
a quarter of the unit in the last place of `y`. -/
theorem IsRounding.ge_of_near {x : ℚ} {d : Double} (h : IsRounding x d) (M E : Int)
    (hM1 : 2 ^ 52 ≤ M) (hM2 : M < 2 ^ 53)
    (hy : (M : ℚ) * (2 : ℚ) ^ E - (2 : ℚ) ^ E / 4 < x) :
    (M : ℚ) * (2 : ℚ) ^ E ≤ d.value := by
  by_cases hxy : (M : ℚ) * (2 : ℚ) ^ E ≤ x
  · exact h.ge_of_le M E hM1 hM2 hxy
  have hlt : x < (M : ℚ) * (2 : ℚ) ^ E := not_le.mp hxy
  obtain ⟨a, b, lo, hi, err⟩ := h
  have one2 : (1 : ℚ) < 2 := by norm_num
  have pE := two_zpow_pos E
  have pe := two_zpow_pos d.e
  have hM1q : (2 : ℚ) ^ (52 : Nat) ≤ (M : ℚ) := by exact_mod_cast hM1
  have hM2q : (M : ℚ) < (2 : ℚ) ^ (53 : Nat) := by exact_mod_cast hM2
  have aq : (2 : ℚ) ^ (52 : Nat) ≤ (d.m : ℚ) := by exact_mod_cast a
  have e53E := two_zpow_add 53 E
  have e52e := two_zpow_add 52 d.e
  have e53e := two_zpow_add 53 d.e
  have e51E := two_zpow_add 51 E
  simp only [Nat.cast_ofNat] at e53E e52e e53e e51E
  have hE : d.e ≤ E := by
    by_contra hc
    have h1 : (53 : Int) + E ≤ 52 + d.e := by omega
    have h2 := zpow_le_zpow_right₀ (le_of_lt one2) h1
    have h3 : (M : ℚ) * (2 : ℚ) ^ E < (2 : ℚ) ^ ((53 : Int) + E) := by
      rw [e53E]; exact mul_lt_mul_of_pos_right hM2q pE
    linarith
  have hE2 : E - 1 ≤ d.e := by
    by_contra hc
    have h1 : (53 : Int) + d.e ≤ 51 + E := by omega
    have h2 := zpow_le_zpow_right₀ (le_of_lt one2) h1
    rw [e51E] at h2
    have h3 : (2 : ℚ) ^ (52 : Nat) * (2 : ℚ) ^ E ≤ (M : ℚ) * (2 : ℚ) ^ E :=
      mul_le_mul_of_nonneg_right hM1q (le_of_lt pE)
    have h4 : (2 : ℚ) ^ (52 : Nat) = 2 * (2 : ℚ) ^ (51 : Nat) := by norm_num
    have h5 : (1 : ℚ) ≤ (2 : ℚ) ^ (51 : Nat) := by norm_num
    nlinarith
  unfold Double.value at err ⊢
  rw [two_zpow_pred, abs_le] at err
  rcases eq_or_lt_of_le hE with heq | hlt2
  · rw [heq] at err ⊢
    have h1 : ((M : ℚ) - 3 / 4) * (2 : ℚ) ^ E < (d.m : ℚ) * (2 : ℚ) ^ E := by
      have := err.1
      linarith
    have h2 : (M : ℚ) - 3 / 4 < (d.m : ℚ) := lt_of_mul_lt_mul_right h1 (le_of_lt pE)
    have h3 : M ≤ d.m := by
      have : ((M - 1 : Int) : ℚ) < (d.m : ℚ) := by push_cast; linarith
      have : M - 1 < d.m := by exact_mod_cast this
      omega
    have h4 : (M : ℚ) ≤ (d.m : ℚ) := by exact_mod_cast h3
    exact mul_le_mul_of_nonneg_right h4 (le_of_lt pE)
  · have hde : d.e = E - 1 := by omega
    have hpow : (2 : ℚ) ^ d.e = (2 : ℚ) ^ E / 2 := by rw [hde, two_zpow_pred]
    rw [hpow] at err ⊢
    have h1 : ((2 * M - 1 : Int) : ℚ) < (d.m : ℚ) := by
      have h2 : ((2 * (M : ℚ) - 1) / 2) * (2 : ℚ) ^ E < ((d.m : ℚ) / 2) * (2 : ℚ) ^ E := by
        have := err.1
        linarith
      have h3 := lt_of_mul_lt_mul_right h2 (le_of_lt pE)
      push_cast
      linarith
    have h2 : 2 * M - 1 < d.m := by exact_mod_cast h1
    have h3 : 2 * M ≤ d.m := by omega
    have h4 : (2 : ℚ) * (M : ℚ) ≤ (d.m : ℚ) := by exact_mod_cast h3
    have : (M : ℚ) * (2 : ℚ) ^ E ≤ ((d.m : ℚ) / 2) * (2 : ℚ) ^ E := by
      apply mul_le_mul_of_nonneg_right _ (le_of_lt pE)
      linarith
    linarith


/-! ## The deadband of the fuel-rate controller -/

set_option maxRecDepth 100000 in
theorem double_0_75_eq : double_0_75 = { m := 6755399441055744, e := -53 } := by decide

set_option maxRecDepth 100000 in
theorem double_0_85_eq : double_0_85 = { m := 7656119366529843, e := -53 } := by decide

set_option maxRecDepth 100000 in
theorem double_1_1_eq : double_1_1 = { m := 4953959590107546, e := -52 } := by decide

theorem double_0_75_value : double_0_75.value = 3 / 4 := by
  rw [double_0_75_eq]; unfold Double.value; norm_num

theorem double_0_85_value :
    double_0_85.value = 17 / 20 - 1 / (5 * 2 ^ (53 : Nat)) := by
  rw [double_0_85_eq]; unfold Double.value; norm_num

theorem double_1_1_value :
    double_1_1.value = 11 / 10 + 2 / (5 * 2 ^ (52 : Nat)) := by
  rw [double_1_1_eq]; unfold Double.value; norm_num


theorem Double.ofInt_m_pos (n : Int) (h : 0 < n) : 0 < (Double.ofInt n).m := by
  have := (Double.ofInt_isRounding n h).1
  omega

theorem threshold_0_75_value (T : Nat) (hT0 : 0 < T) (hT : T < 2 ^ 51) :
    (Double.mul (Double.ofInt (T : Int)) double_0_75).value = 3 * (T : ℚ) / 4 := by
  have hTi : (0 : Int) < (T : Int) := by exact_mod_cast hT0
  have hTi2 : (T : Int) < 2 ^ 53 := by
    have : T < 2 ^ 53 := by omega
    exact_mod_cast this
  have hr := Double.mul_isRounding (Double.ofInt (T : Int)) double_0_75
    (Double.ofInt_m_pos _ hTi) (by rw [double_0_75_eq]; decide)
  rw [Double.ofInt_value _ hTi hTi2, double_0_75_value] at hr
  have := hr.exact (3 * T) (-2) (by omega) (by omega) (by
    rw [zpow_neg]; push_cast; norm_num; ring)
  rw [this]; push_cast; ring

theorem threshold_0_85_isRounding (T : Nat) (hT0 : 0 < T) (hT : T < 2 ^ 51) :
    IsRounding ((T : ℚ) * (17 / 20 - 1 / (5 * 2 ^ (53 : Nat))))
      (Double.mul (Double.ofInt (T : Int)) double_0_85) := by
  have hTi : (0 : Int) < (T : Int) := by exact_mod_cast hT0
  have hTi2 : (T : Int) < 2 ^ 53 := by
    have : T < 2 ^ 53 := by omega
    exact_mod_cast this
  have hr := Double.mul_isRounding (Double.ofInt (T : Int)) double_0_85
    (Double.ofInt_m_pos _ hTi) (by rw [double_0_85_eq]; decide)
  rw [Double.ofInt_value _ hTi hTi2, double_0_85_value] at hr
  simpa using hr

/-- An average at or above three quarters of the ceiling is not below `T * 0.75`. -/
theorem not_below_0_75 (T : Nat) (avg : Int) (hT0 : 0 < T) (hT : T < 2 ^ 51)
    (h : 3 * (T : Int) ≤ 4 * avg) :
    Double.lt (Double.ofInt avg) (Double.mul (Double.ofInt (T : Int)) double_0_75) = false := by
  have havg : 0 < avg := by omega
  rw [Bool.eq_false_iff, Ne, Double.lt_iff, threshold_0_75_value T hT0 hT, not_lt]
  obtain ⟨M, E, m1, m2, e⟩ := exists_normalized (3 * T) (-2) (by omega) (by omega)
  have e2 : 3 * (T : ℚ) / 4 = (M : ℚ) * (2 : ℚ) ^ E := by
    rw [← e, zpow_neg]; push_cast; norm_num; ring
  rw [e2]
  apply (Double.ofInt_isRounding avg havg).ge_of_le M E m1 m2
  rw [← e2]
  have : (3 * (T : Int) : ℚ) ≤ ((4 * avg : Int) : ℚ) := by exact_mod_cast h
  push_cast at this
  linarith

/-- An average at or below 17/20 of the ceiling is not above `T * 0.85`. -/
theorem not_above_0_85 (T : Nat) (avg : Int) (hT0 : 0 < T) (hT : T < 2 ^ 51)
    (havg : 0 < avg) (h : 20 * avg ≤ 17 * (T : Int)) :
    Double.lt (Double.mul (Double.ofInt (T : Int)) double_0_85) (Double.ofInt avg) = false := by
  have hT51 : (T : ℚ) < 2251799813685248 := by
    have : T < 2251799813685248 := by omega
    exact_mod_cast this
  have hTq : (0 : ℚ) < T := by exact_mod_cast hT0
  have hlt53 : avg < 2 ^ 53 := by
    have : (T : Int) < 2 ^ 51 := by exact_mod_cast hT
    omega
  rw [Bool.eq_false_iff, Ne, Double.lt_iff, Double.ofInt_value avg havg hlt53, not_lt]
  obtain ⟨n, rfl⟩ := Int.eq_ofNat_of_zero_le (le_of_lt havg)
  have hn0 : 0 < n := by exact_mod_cast havg
  have hn1 : n < 2 ^ 53 := by exact_mod_cast hlt53
  obtain ⟨M, E, m1, m2, e⟩ := exists_normalized n 0 hn0 hn1
  have e2 : ((n : Int) : ℚ) = (M : ℚ) * (2 : ℚ) ^ E := by
    rw [← e]; simp
  have hr := threshold_0_85_isRounding T hT0 hT
  have hq : (20 : ℚ) * (n : ℚ) ≤ 17 * (T : ℚ) := by exact_mod_cast h
  rw [e2]
  by_cases hs : 20 * (n : Int) < 17 * (T : Int)
  · apply hr.ge_of_le M E m1 m2
    rw [← e2]
    have hq2 : (20 : ℚ) * (n : ℚ) + 1 ≤ 17 * (T : ℚ) := by
      have : 20 * (n : Int) + 1 ≤ 17 * (T : Int) := by omega
      exact_mod_cast this
    push_cast
    norm_num
    linarith
  · have heq : (20 : ℚ) * (n : ℚ) = 17 * (T : ℚ) := by
      have : 20 * (n : Int) = 17 * (T : Int) := by omega
      exact_mod_cast this
    apply hr.ge_of_near M E m1 m2
    have pE := two_zpow_pos E
    have hM2q : (M : ℚ) < (2 : ℚ) ^ (53 : Nat) := by exact_mod_cast m2
    have hy : (n : ℚ) = (M : ℚ) * (2 : ℚ) ^ E := by
      have := e2; push_cast at this; exact this
    have hTn : (T : ℚ) = 20 * (n : ℚ) / 17 := by linarith
    have hb : (n : ℚ) < (2 : ℚ) ^ (53 : Nat) * (2 : ℚ) ^ E := by
      rw [hy]; exact mul_lt_mul_of_pos_right hM2q pE
    rw [← hy, hTn]
    norm_num at hb ⊢
    linarith


set_option maxRecDepth 100000 in
theorem newFuelRateOf_deadband (p : ChainParams) (avg rate : Int)
    (hT : p.MAX_BLOCK_RUN_STEP < 2 ^ 51)
    (hlo : 3 * (p.MAX_BLOCK_RUN_STEP : Int) ≤ 4 * avg)
    (hhi : 20 * avg ≤ 17 * (p.MAX_BLOCK_RUN_STEP : Int)) :
    newFuelRateOf p avg rate = rate := by
  unfold newFuelRateOf
  by_cases hT0 : p.MAX_BLOCK_RUN_STEP = 0
  · have havg : avg = 0 := by omega
    rw [hT0, havg]
    have h1 : Double.lt (Double.ofInt 0)
        (Double.mul (Double.ofInt ((0 : Nat) : Int)) double_0_75) = false := by decide
    have h2 : Double.lt (Double.mul (Double.ofInt ((0 : Nat) : Int)) double_0_85)
        (Double.ofInt 0) = false := by decide
    rw [h1, h2]
    simp
  · have hpos : 0 < p.MAX_BLOCK_RUN_STEP := Nat.pos_of_ne_zero hT0
    have havg : 0 < avg := by omega
    rw [not_below_0_75 _ avg hpos hT hlo, not_above_0_85 _ avg hpos hT havg hhi]
    simp

/-- C12 as amended: for every tip with sufficient history whose window walk is defined and a
non-zero window, with `MAX_BLOCK_RUN_STEP < 2^51`, when the window average (the truncating
quotient of the summed step values by the window) lies in `[0.75 T, 0.85 T]` and the tip's
fuel rate is at least `MIN_FUEL_RATES`, `GetElementForBurn` returns the tip's fuel rate
unchanged. -/
theorem GetElementForBurn_deadband_unchanged (p : ChainParams) (nBlock : Int)
    (tip : CBlockIndex) (pprev : List CBlockIndex) (nTotalStep : Int)
    (hT : p.MAX_BLOCK_RUN_STEP < 2 ^ 51)
    (hhist : nBlock * 2 < tip.nHeight - 1) (hW : nBlock ≠ 0)
    (hwalk : burnWalk nBlock.toNat (tip :: pprev) 0 = some nTotalStep)
    (hlo : 3 * (p.MAX_BLOCK_RUN_STEP : Int) ≤ 4 * Int.tdiv nTotalStep nBlock)
    (hhi : 20 * Int.tdiv nTotalStep nBlock ≤ 17 * (p.MAX_BLOCK_RUN_STEP : Int))
    (hmin : p.MIN_FUEL_RATES ≤ tip.nFuelRate) :
    GetElementForBurn p nBlock (tip :: pprev) = some tip.nFuelRate := by
  have h1 : ¬ nBlock * 2 ≥ tip.nHeight - 1 := by omega
  rw [GetElementForBurn_of_walk p nBlock tip pprev nTotalStep h1 hwalk hW,
    newFuelRateOf_deadband p _ _ hT hlo hhi]
  unfold clampFuelRate
  rw [if_neg (by omega)]

set_option maxRecDepth 100000 in
theorem GetElementForBurn_deadband_unchanged_witness :
    GetElementForBurn sampleParams 1 (sampleChain 9600000 100) = some 100 :=
  GetElementForBurn_deadband_unchanged sampleParams 1
    { nHeight := 5, nFuel := 9600000, nFuelRate := 100, nTime := 150, blockHash := 905 }
    (sampleChain 9600000 100).tail 9600000 (by decide) (by decide) (by decide) (by decide)
    (by decide) (by decide) (by decide)

set_option maxRecDepth 100000 in
/-- C12 as stated fails below the clamp: with a window of one block, a tip of height 5 whose
step value 9 600 000 lies in `[0.75 T, 0.85 T]` for `T = 12 000 000`, the function returns
`MIN_FUEL_RATES`, not the tip's fuel rate, when that rate is below `MIN_FUEL_RATES`: rate -3
under a minimum of 1, and rate 100 under a minimum of 150. -/
theorem GetElementForBurn_deadband_clamped :
    ((1 : Int) * 2 < (5 : Int) - 1) ∧
    burnWalk 1 (sampleChain (-288000) (-3)) 0 = some 9600000 ∧
    burnWalk 1 (sampleChain 9600000 100) 0 = some 9600000 ∧
    (3 * (sampleParams.MAX_BLOCK_RUN_STEP : Int) ≤ 4 * Int.tdiv 9600000 1 ∧
      20 * Int.tdiv 9600000 1 ≤ 17 * (sampleParams.MAX_BLOCK_RUN_STEP : Int)) ∧
    GetElementForBurn sampleParams 1 (sampleChain (-288000) (-3)) = some 1 ∧
    GetElementForBurn sampleParams 1 (sampleChain (-288000) (-3)) ≠ some (-3) ∧
    GetElementForBurn { sampleParams with MIN_FUEL_RATES := 150 } 1 (sampleChain 9600000 100)
      = some 150 ∧
    GetElementForBurn { sampleParams with MIN_FUEL_RATES := 150 } 1 (sampleChain 9600000 100)
      ≠ some 100 := by
  refine ⟨by decide, by decide, by decide, by decide, by decide, by decide, by decide,
    by decide⟩


/-! ## Inflation of the fuel rate -/

/-- An average above 17/20 of the ceiling is above `T * 0.85`. -/
theorem above_0_85 (T : Nat) (avg : Int) (hT0 : 0 < T) (hT : T < 2 ^ 47)
    (h : 17 * (T : Int) < 20 * avg) :
    Double.lt (Double.mul (Double.ofInt (T : Int)) double_0_85) (Double.ofInt avg) = true := by
  have hT47 : (T : ℚ) < 140737488355328 := by
    have : T < 140737488355328 := by omega
    exact_mod_cast this
  have hTq : (0 : ℚ) < T := by exact_mod_cast hT0
  have havg : 0 < avg := by omega
  rw [Double.lt_iff]
  obtain ⟨a, b, lo, hi, err⟩ := threshold_0_85_isRounding T hT0 (by omega)
  set d := Double.mul (Double.ofInt (T : Int)) double_0_85 with hd
  -- the threshold is below 17 T / 20 + 1 / 64
  have pe := two_zpow_pos d.e
  have e52 := two_zpow_add 52 d.e
  simp only [Nat.cast_ofNat] at e52
  rw [e52] at lo
  rw [two_zpow_pred, abs_le] at err
  have hthr : d.value < 17 * (T : ℚ) / 20 + 1 / 64 := by
    have h1 := err.2
    norm_num at lo h1 ⊢
    linarith
  -- the smallest integer above 17 T / 20
  obtain ⟨n, hn⟩ : ∃ n : Nat, (n : Int) = 17 * (T : Int) / 20 + 1 :=
    ⟨(17 * T / 20 + 1 : Nat), by push_cast; rfl⟩
  have hn0 : 0 < n := by omega
  have hn1 : n < 2 ^ 53 := by omega
  have hn2 : (n : Int) ≤ avg := by omega
  have hn3 : 17 * (T : Int) + 1 ≤ 20 * (n : Int) := by omega
  obtain ⟨M, E, m1, m2, e⟩ := exists_normalized n 0 hn0 hn1
  have e2 : (n : ℚ) = (M : ℚ) * (2 : ℚ) ^ E := by rw [← e]; simp
  have hge : (n : ℚ) ≤ (Double.ofInt avg).value := by
    rw [e2]
    apply (Double.ofInt_isRounding avg havg).ge_of_le M E m1 m2
    rw [← e2]
    exact_mod_cast hn2
  have hn3q : 17 * (T : ℚ) + 1 ≤ 20 * (n : ℚ) := by exact_mod_cast hn3
  linarith

/-- The truncated product by `1.1` of a positive `int` is the integer part of eleven tenths of
it. -/
theorem toInt_mul_1_1 (rate : Int) (h0 : 0 < rate) (h1 : rate < 2 ^ 31) :
    Double.toInt (Double.mul (Double.ofInt rate) double_1_1) = 11 * rate / 10 := by
  have hr := Double.mul_isRounding (Double.ofInt rate) double_1_1
    (Double.ofInt_m_pos _ h0) (by rw [double_1_1_eq]; decide)
  rw [Double.ofInt_value rate h0 (by omega), double_1_1_value] at hr
  set d := Double.mul (Double.ofInt rate) double_1_1 with hd
  have hm : 0 ≤ d.m := by have := hr.1; omega
  rw [Double.toInt_eq_floor d hm, Int.floor_eq_iff]
  have hq0 : (0 : ℚ) < rate := by exact_mod_cast h0
  have hq1 : (rate : ℚ) < 2147483648 := by
    have : rate < 2147483648 := by omega
    exact_mod_cast this
  have hI1 : 10 * (11 * rate / 10) ≤ 11 * rate := by omega
  have hI2 : 11 * rate ≤ 10 * (11 * rate / 10) + 9 := by omega
  have hI1q : 10 * (((11 * rate / 10 : Int)) : ℚ) ≤ 11 * (rate : ℚ) := by exact_mod_cast hI1
  have hI2q : 11 * (rate : ℚ) ≤ 10 * (((11 * rate / 10 : Int)) : ℚ) + 9 := by
    exact_mod_cast hI2
  constructor
  · -- the integer part is a double below the exact product
    obtain ⟨n, hn⟩ : ∃ n : Nat, (n : Int) = 11 * rate / 10 := ⟨(11 * rate / 10).toNat, by omega⟩
    have hn0 : 0 < n := by omega
    have hn1 : n < 2 ^ 53 := by omega
    obtain ⟨M, E, m1, m2, e⟩ := exists_normalized n 0 hn0 hn1
    have e2 : (((11 * rate / 10 : Int)) : ℚ) = (M : ℚ) * (2 : ℚ) ^ E := by
      rw [← e, ← hn]; simp
    rw [e2]
    apply hr.ge_of_le M E m1 m2
    rw [← e2]
    norm_num
    nlinarith
  · obtain ⟨a, b, lo, hi, err⟩ := hr
    have pe := two_zpow_pos d.e
    have e52 := two_zpow_add 52 d.e
    simp only [Nat.cast_ofNat] at e52
    rw [e52] at lo
    rw [two_zpow_pred, abs_le] at err
    have h1 := err.2
    norm_num at lo h1 ⊢
    nlinarith


theorem Double.ofRatio_neg_m (num : Int) (den : Nat) (h : 0 < num) :
    (Double.ofRatio (-num) den).m = -(Double.ofRatio num den).m ∧
    (Double.ofRatio (-num) den).e = (Double.ofRatio num den).e := by
  have h1 : -num < 0 := by omega
  have h2 : ¬ num < 0 := by omega
  unfold Double.ofRatio
  simp only [Int.natAbs_neg, if_pos h1, if_neg h2, and_self]

theorem Double.toInt_neg (m e : Int) :
    Double.toInt { m := -m, e := e } = -Double.toInt { m := m, e := e } := by
  unfold Double.toInt
  simp only []
  split_ifs
  · rw [Int.neg_mul]
  · rw [Int.neg_tdiv]

theorem Double.mul_neg_left (a b : Double) (ha : 0 < a.m) (hb : 0 < b.m) :
    (Double.mul { m := -a.m, e := a.e } b).m = -(Double.mul a b).m ∧
    (Double.mul { m := -a.m, e := a.e } b).e = (Double.mul a b).e := by
  have hm : 0 < a.m * b.m := Int.mul_pos ha hb
  unfold Double.mul
  simp only []
  split_ifs
  · have e : -a.m * b.m * 2 ^ (a.e + b.e).toNat = -(a.m * b.m * 2 ^ (a.e + b.e).toNat) := by
      ring
    rw [e]
    exact Double.ofRatio_neg_m _ 1 (Int.mul_pos hm (by positivity))
  · have e : -a.m * b.m = -(a.m * b.m) := by ring
    rw [e]
    exact Double.ofRatio_neg_m _ _ hm

/-- The truncated product by `1.1` of a non-zero `int` is eleven tenths of it, truncated toward
zero. -/
theorem toInt_mul_1_1_tdiv (rate : Int) (h0 : rate ≠ 0) (h1 : -2 ^ 31 < rate)
    (h2 : rate < 2 ^ 31) :
    Double.toInt (Double.mul (Double.ofInt rate) double_1_1) = Int.tdiv (11 * rate) 10 := by
  by_cases hpos : 0 < rate
  · rw [toInt_mul_1_1 rate hpos h2, Int.tdiv_eq_ediv (by omega) (by norm_num)]
  · have hn : 0 < -rate := by omega
    have e1 := Double.ofRatio_neg_m (-rate) 1 hn
    rw [neg_neg] at e1
    have hb : 0 < double_1_1.m := by rw [double_1_1_eq]; decide
    have e2 := Double.mul_neg_left (Double.ofInt (-rate)) double_1_1
      (Double.ofInt_m_pos _ hn) hb
    have e3 : Double.ofInt rate
        = ⟨-(Double.ofInt (-rate)).m, (Double.ofInt (-rate)).e⟩ := by
      have eta : Double.ofInt rate = ⟨(Double.ofInt rate).m, (Double.ofInt rate).e⟩ := rfl
      rw [eta]
      unfold Double.ofInt
      rw [e1.1, e1.2]
    have e4 : Double.mul (Double.ofInt rate) double_1_1
        = ⟨-(Double.mul (Double.ofInt (-rate)) double_1_1).m,
            (Double.mul (Double.ofInt (-rate)) double_1_1).e⟩ := by
      have eta : Double.mul (Double.ofInt rate) double_1_1
          = ⟨(Double.mul (Double.ofInt rate) double_1_1).m,
              (Double.mul (Double.ofInt rate) double_1_1).e⟩ := rfl
      rw [eta, e3, e2.1, e2.2]
    rw [e4, Double.toInt_neg]
    have e5 : Double.toInt ⟨(Double.mul (Double.ofInt (-rate)) double_1_1).m,
        (Double.mul (Double.ofInt (-rate)) double_1_1).e⟩
        = 11 * (-rate) / 10 := toInt_mul_1_1 (-rate) hn (by omega)
    rw [e5, ← Int.tdiv_eq_ediv (by omega) (by norm_num)]
    have : 11 * rate = -(11 * -rate) := by ring
    rw [this, Int.neg_tdiv]


theorem clampFuelRate_eq_max (p : ChainParams) (r : Int) :
    clampFuelRate p r = max p.MIN_FUEL_RATES r := by
  unfold clampFuelRate
  split_ifs with h
  · rw [max_eq_left (le_of_lt h)]
  · rw [max_eq_right (not_lt.mp h)]

/-- C13 as amended: for every tip with sufficient history whose window walk is defined and a
non-zero window, with `0 < MAX_BLOCK_RUN_STEP < 2^47`, when the window average exceeds
`0.85 T` (as it does when each window block has utilisation `0.9 T`), the fuel rate
`GetElementForBurn` returns is `1.1` times the tip's fuel rate truncated toward zero, that is
`11 * rate / 10` in integer division, and not rounded up, or `MIN_FUEL_RATES` when that is
larger; the tip's fuel rate is a non-zero `int` whose product fits an `int`. -/
theorem GetElementForBurn_inflates_by_truncation (p : ChainParams) (nBlock : Int)
    (tip : CBlockIndex) (pprev : List CBlockIndex) (nTotalStep : Int)
    (hT0 : 0 < p.MAX_BLOCK_RUN_STEP) (hT : p.MAX_BLOCK_RUN_STEP < 2 ^ 47)
    (hhist : nBlock * 2 < tip.nHeight - 1) (hW : nBlock ≠ 0)
    (hwalk : burnWalk nBlock.toNat (tip :: pprev) 0 = some nTotalStep)
    (havg : 17 * (p.MAX_BLOCK_RUN_STEP : Int) < 20 * Int.tdiv nTotalStep nBlock)
    (hr0 : tip.nFuelRate ≠ 0)
    (hfit : -2 ^ 31 < 11 * tip.nFuelRate / 10 ∧ 11 * tip.nFuelRate / 10 + 1 < 2 ^ 31) :
    GetElementForBurn p nBlock (tip :: pprev)
      = some (max p.MIN_FUEL_RATES (Int.tdiv (11 * tip.nFuelRate) 10)) := by
  have h1 : ¬ nBlock * 2 ≥ tip.nHeight - 1 := by omega
  rw [GetElementForBurn_of_walk p nBlock tip pprev nTotalStep h1 hwalk hW,
    clampFuelRate_eq_max]
  congr 2
  unfold newFuelRateOf
  rw [not_below_0_75 _ _ hT0 (by omega) (by omega), above_0_85 _ _ hT0 hT havg]
  simp only [Bool.false_eq_true, if_false, if_true]
  exact toInt_mul_1_1_tdiv tip.nFuelRate hr0 (by omega) (by omega)

set_option maxRecDepth 100000 in
theorem GetElementForBurn_inflates_by_truncation_witness :
    GetElementForBurn sampleParams 1 (sampleChain 10908000 101)
      = some (max sampleParams.MIN_FUEL_RATES (Int.tdiv (11 * 101) 10)) :=
  GetElementForBurn_inflates_by_truncation sampleParams 1
    { nHeight := 5, nFuel := 10908000, nFuelRate := 101, nTime := 150, blockHash := 905 }
    (sampleChain 10908000 101).tail 10800000 (by decide) (by decide) (by decide) (by decide)
    (by decide) (by decide) (by decide) (by decide)

set_option maxRecDepth 100000 in
/-- C13 as stated fails: with a window of one block of utilisation `0.9 T = 10 800 000` for
`T = 12 000 000` and a tip fuel rate of 101, `GetElementForBurn` returns 111, the product
111.1 truncated, and not its ceiling 112. -/
theorem GetElementForBurn_inflate_is_not_ceiling :
    ((1 : Int) * 2 < (5 : Int) - 1) ∧
    burnWalk 1 (sampleChain 10908000 101) 0 = some 10800000 ∧
    (10 * (10800000 : Int) = 9 * (sampleParams.MAX_BLOCK_RUN_STEP : Int)) ∧
    GetElementForBurn sampleParams 1 (sampleChain 10908000 101) = some 111 ∧
    ⌈(11 / 10 : ℚ) * 101⌉ = 112 ∧
    GetElementForBurn sampleParams 1 (sampleChain 10908000 101)
      ≠ some ⌈(11 / 10 : ℚ) * 101⌉ := by
  have hc : ⌈(11 / 10 : ℚ) * 101⌉ = 112 := by
    rw [Int.ceil_eq_iff]; norm_num
  refine ⟨by decide, by decide, by decide, by decide, hc, ?_⟩
  rw [hc]
  decide


end WaykiChain
